import Mathlib

/-!
# A verification development for `advanced-vector/vector.h`

The header defines `RawMemory<T>` (an owning pointer to uninitialised storage)
and `Vector<T>` (a size counter on top of a `RawMemory<T>`).  The code is
pointer code, so the embedding is a small memory model:

* the heap is a list of blocks, a block is a list of slots, a slot is either
  raw storage or a live `T`;
* a pointer is a block number and an offset, block `0` is the null block;
* every function of the header is a function from the state before the call to
  an outcome: normal return with a value and a state, an exception leaving the
  function with a state, or undefined behaviour;
* exceptions are injected by a countdown (`State.fuse`) consulted by every
  operation that may throw (allocation, element constructors and assignments).

Storage is counted in slots.  `size_t` arithmetic is modelled modulo `2 ^ 64`,
the byte count `n * sizeof(T)` of `RawMemory::Allocate(n)` included: where the
caller chooses `n` (`Vector(n)`, `Reserve(n)`, `Resize(n)`) the block has room
for `(n * sizeof(T) mod 2 ^ 64) / sizeof(T)` objects.
-/

namespace AdvancedVector

/-- The number of values of `size_t` (a 64-bit target). -/
def SIZE_T_MOD : Nat := 18446744073709551616

/-- One element-sized piece of storage: raw bytes, or a live object. -/
inductive Slot (T : Type) where
  | raw : Slot T
  | live (x : T) : Slot T
deriving DecidableEq, Repr

/-- A `T*`: block number and offset (in elements) inside the block. -/
structure Ptr where
  blk : Nat
  off : Nat
deriving DecidableEq, Repr

/-- The null pointer: offset zero of the null block. -/
def nullptr : Ptr := ⟨0, 0⟩

/-- Pointer arithmetic `p + n`. -/
def Ptr.add (p : Ptr) (n : Nat) : Ptr := ⟨p.blk, p.off + n⟩

/-- Pointer arithmetic `p - n`; forming a pointer before the block start is undefined. -/
def Ptr.sub (p : Ptr) (n : Nat) : Option Ptr :=
  if n ≤ p.off then some ⟨p.blk, p.off - n⟩ else none

/-- The value of `last - first` for two pointers into one block with
`first ≤ last` (as `std::distance` computes it); undefined otherwise. -/
def distance (first last : Ptr) : Option Nat :=
  if first.blk = last.blk ∧ first.off ≤ last.off then some (last.off - first.off) else none

/-- What the header needs to know of the element type `T`: the two traits the
transfer policy tests, whether move assignment may throw, the state a
moved-from object is left in, the value of a value-initialised object, and
`sizeof(T)` (at least 1 for every object type). -/
structure ElemType (T : Type) where
  nothrow_move_constructible : Bool
  copy_constructible : Bool
  nothrow_move_assignable : Bool
  movedFrom : T → T
  value_init : T
  sizeof : Nat

/-- The state of the abstract machine: the heap, the failure countdown, and
counters of constructor calls, destructor calls, allocations and deallocations.
Block number `b + 1` is `blocks[b]`; a freed block is `none`. -/
structure State (T : Type) where
  blocks : List (Option (List (Slot T)))
  fuse : Option Nat
  ctors : Nat
  dtors : Nat
  allocs : Nat
  deallocs : Nat
deriving DecidableEq, Repr

/-- Outcome of running a function: normal return, exception, undefined behaviour. -/
inductive Res (σ α : Type) where
  | ok (a : α) (s : σ) : Res σ α
  | thrown (s : σ) : Res σ α
  | ub : Res σ α
deriving DecidableEq, Repr

/-- Sequencing: on normal return continue with `k`; when an exception leaves
`r`, run `h` (the handler, or what stack unwinding does); undefined stays undefined. -/
def Res.seq {σ τ α β : Type} (r : Res σ α) (h : σ → Res τ β) (k : α → σ → Res τ β) : Res τ β :=
  match r with
  | .ok a s => k a s
  | .thrown s => h s
  | .ub => .ub

/-- Rethrow after a clean-up that must not itself throw. -/
def Res.rethrow {σ τ α β : Type} (cleanup : Res σ α) (f : σ → τ) : Res τ β :=
  match cleanup with
  | .ok _ s => .thrown (f s)
  | .thrown _ => .ub
  | .ub => .ub

/-- The slots of block `b`; the null block has no slots, a freed or never
allocated block has no contents. -/
def State.block {T : Type} (s : State T) (b : Nat) : Option (List (Slot T)) :=
  if b = 0 then some [] else (s.blocks[b - 1]?).join

/-- The slot a pointer designates, if it is inside an allocated block. -/
def State.read {T : Type} (s : State T) (p : Ptr) : Option (Slot T) :=
  (s.block p.blk).bind (fun bl => bl[p.off]?)

/-- Overwrite the slot a pointer designates; `none` when it designates no slot. -/
def State.write {T : Type} (s : State T) (p : Ptr) (x : Slot T) : Option (State T) :=
  match s.read p with
  | some _ =>
    some { s with blocks := s.blocks.modify (Option.map (fun bl => bl.set p.off x)) (p.blk - 1) }
  | none => none

/-- An operation that may throw: it throws when the countdown has reached zero. -/
def fallible {T : Type} (s : State T) : Res (State T) Unit :=
  match s.fuse with
  | some 0 => .thrown { s with fuse := none }
  | some (n + 1) => .ok () { s with fuse := some n }
  | none => .ok () s

/-- An operation that may throw unless it is declared `noexcept`. -/
def fallibleUnless {T : Type} (nothrow : Bool) (s : State T) : Res (State T) Unit :=
  if nothrow then .ok () s else fallible s

/-! ## Element operations -/

/-- Placement copy construction `new (dst) T(*src)`. -/
def construct_copy {T : Type} (dst src : Ptr) (s : State T) : Res (State T) Unit :=
  match s.read src, s.read dst with
  | some (.live x), some _ =>
    (fallible s).seq .thrown fun _ s =>
    match s.write dst (.live x) with
    | some s => .ok () { s with ctors := s.ctors + 1 }
    | none => .ub
  | _, _ => .ub

/-- Placement move construction `new (dst) T(std::move(*src))`. -/
def construct_move {T : Type} (E : ElemType T) (dst src : Ptr) (s : State T) : Res (State T) Unit :=
  match s.read src, s.read dst with
  | some (.live x), some _ =>
    (fallibleUnless E.nothrow_move_constructible s).seq .thrown fun _ s =>
    match s.write dst (.live x) with
    | some s =>
      match s.write src (.live (E.movedFrom x)) with
      | some s => .ok () { s with ctors := s.ctors + 1 }
      | none => .ub
    | none => .ub
  | _, _ => .ub

/-- Placement value construction `new (dst) T()`. -/
def construct_value {T : Type} (E : ElemType T) (dst : Ptr) (s : State T) : Res (State T) Unit :=
  match s.read dst with
  | some _ =>
    (fallible s).seq .thrown fun _ s =>
    match s.write dst (.live E.value_init) with
    | some s => .ok () { s with ctors := s.ctors + 1 }
    | none => .ub
  | none => .ub

/-- Copy assignment `*dst = *src`; both objects must be live. -/
def assign_copy {T : Type} (dst src : Ptr) (s : State T) : Res (State T) Unit :=
  match s.read src, s.read dst with
  | some (.live x), some (.live _) =>
    (fallible s).seq .thrown fun _ s =>
    match s.write dst (.live x) with
    | some s => .ok () s
    | none => .ub
  | _, _ => .ub

/-- Move assignment `*dst = std::move(*src)`; both objects must be live. -/
def assign_move {T : Type} (E : ElemType T) (dst src : Ptr) (s : State T) : Res (State T) Unit :=
  match s.read src, s.read dst with
  | some (.live x), some (.live _) =>
    (fallibleUnless E.nothrow_move_assignable s).seq .thrown fun _ s =>
    match s.write dst (.live x) with
    | some s =>
      match s.write src (.live (E.movedFrom x)) with
      | some s => .ok () s
      | none => .ub
    | none => .ub
  | _, _ => .ub

/-- The destructor call `buf->~T()` of `Vector::Destroy` and `std::destroy_at`. -/
def Destroy {T : Type} (buf : Ptr) (s : State T) : Res (State T) Unit :=
  match s.read buf with
  | some (.live _) =>
    match s.write buf .raw with
    | some s => .ok () { s with dtors := s.dtors + 1 }
    | none => .ub
  | _ => .ub

/-- The constructor arguments `args...` of `Emplace` and `EmplaceBack`: a
`const T&`, a `T&&`, or arguments from which the constructor builds the value `x`. -/
inductive Args (T : Type) where
  | copyOf (p : Ptr) : Args T
  | moveOf (p : Ptr) : Args T
  | make (x : T) : Args T
deriving DecidableEq, Repr

/-- Placement construction `new (dst) T(std::forward<Args>(args)...)`. -/
def construct_args {T : Type} (E : ElemType T) (dst : Ptr) (args : Args T) (s : State T) :
    Res (State T) Unit :=
  match args with
  | .copyOf p => construct_copy dst p s
  | .moveOf p => construct_move E dst p s
  | .make x =>
    match s.read dst with
    | some _ =>
      (fallible s).seq .thrown fun _ s =>
      match s.write dst (.live x) with
      | some s => .ok () { s with ctors := s.ctors + 1 }
      | none => .ub
    | none => .ub

/-- Construction of a local object `T temp(args...)`; the result is its value. -/
def local_construct {T : Type} (E : ElemType T) (args : Args T) (s : State T) : Res (State T) T :=
  match args with
  | .copyOf p =>
    match s.read p with
    | some (.live x) =>
      (fallible s).seq .thrown fun _ s => .ok x { s with ctors := s.ctors + 1 }
    | _ => .ub
  | .moveOf p =>
    match s.read p with
    | some (.live x) =>
      (fallibleUnless E.nothrow_move_constructible s).seq .thrown fun _ s =>
      match s.write p (.live (E.movedFrom x)) with
      | some s => .ok x { s with ctors := s.ctors + 1 }
      | none => .ub
    | _ => .ub
  | .make x =>
    (fallible s).seq .thrown fun _ s => .ok x { s with ctors := s.ctors + 1 }

/-- Move assignment from a local object, `*dst = std::move(temp)`. -/
def assign_move_local {T : Type} (E : ElemType T) (dst : Ptr) (temp : T) (s : State T) :
    Res (State T) Unit :=
  match s.read dst with
  | some (.live _) =>
    (fallibleUnless E.nothrow_move_assignable s).seq .thrown fun _ s =>
    match s.write dst (.live temp) with
    | some s => .ok () s
    | none => .ub
  | _ => .ub

/-- The destructor of a local object at the end of its scope. -/
def local_destroy {T : Type} (s : State T) : State T :=
  { s with dtors := s.dtors + 1 }

/-! ## The standard algorithms the header calls -/

/-- The function `std::destroy_n(first, n)`: destroys `n` objects, returns the end. -/
def destroy_n {T : Type} : Ptr → Nat → State T → Res (State T) Ptr
  | first, 0, s => .ok first s
  | first, n + 1, s => (Destroy first s).seq .thrown fun _ s => destroy_n (first.add 1) n s

/-- The function `std::destroy(first, last)`. -/
def destroy {T : Type} (first last : Ptr) (s : State T) : Res (State T) Unit :=
  match distance first last with
  | some n => (destroy_n first n s).seq .thrown fun _ s => .ok () s
  | none => .ub

/-- The loop of `std::uninitialized_copy_n`: `cur` is the next slot to
construct; when a constructor throws, `[d_first, cur)` is destroyed and the
exception is rethrown. -/
def uninitialized_copy_loop {T : Type} (d_first : Ptr) :
    Nat → Ptr → Ptr → State T → Res (State T) Ptr
  | 0, _, cur, s => .ok cur s
  | n + 1, first, cur, s =>
    (construct_copy cur first s).seq (fun s => (destroy d_first cur s).rethrow id) fun _ s =>
    uninitialized_copy_loop d_first n (first.add 1) (cur.add 1) s

/-- The function `std::uninitialized_copy_n(first, count, d_first)`. -/
def uninitialized_copy_n {T : Type} (first : Ptr) (count : Nat) (d_first : Ptr) (s : State T) :
    Res (State T) Ptr :=
  uninitialized_copy_loop d_first count first d_first s

/-- The loop of `std::uninitialized_move_n`, with the same clean-up. -/
def uninitialized_move_loop {T : Type} (E : ElemType T) (d_first : Ptr) :
    Nat → Ptr → Ptr → State T → Res (State T) Ptr
  | 0, _, cur, s => .ok cur s
  | n + 1, first, cur, s =>
    (construct_move E cur first s).seq (fun s => (destroy d_first cur s).rethrow id) fun _ s =>
    uninitialized_move_loop E d_first n (first.add 1) (cur.add 1) s

/-- The function `std::uninitialized_move_n(first, count, d_first)`. -/
def uninitialized_move_n {T : Type} (E : ElemType T) (first : Ptr) (count : Nat) (d_first : Ptr)
    (s : State T) : Res (State T) Ptr :=
  uninitialized_move_loop E d_first count first d_first s

/-- The loop of `std::uninitialized_value_construct_n`, with the same clean-up. -/
def uninitialized_value_construct_loop {T : Type} (E : ElemType T) (first : Ptr) :
    Nat → Ptr → State T → Res (State T) Ptr
  | 0, cur, s => .ok cur s
  | n + 1, cur, s =>
    (construct_value E cur s).seq (fun s => (destroy first cur s).rethrow id) fun _ s =>
    uninitialized_value_construct_loop E first n (cur.add 1) s

/-- The function `std::uninitialized_value_construct_n(first, count)`. -/
def uninitialized_value_construct_n {T : Type} (E : ElemType T) (first : Ptr) (count : Nat)
    (s : State T) : Res (State T) Ptr :=
  uninitialized_value_construct_loop E first count first s

/-- The loop `*d_first++ = *first++` of `std::copy`, `n` times. -/
def copy_loop {T : Type} : Nat → Ptr → Ptr → State T → Res (State T) Ptr
  | 0, _, d_first, s => .ok d_first s
  | n + 1, first, d_first, s =>
    (assign_copy d_first first s).seq .thrown fun _ s => copy_loop n (first.add 1) (d_first.add 1) s

/-- The algorithm `std::copy(first, last, d_first)`: element-wise copy
assignment front to back; returns the end of the destination range. -/
def copy {T : Type} (first last d_first : Ptr) (s : State T) : Res (State T) Ptr :=
  match distance first last with
  | some n => copy_loop n first d_first s
  | none => .ub

/-- The loop `*d_first++ = std::move(*first++)` of the algorithm `std::move`. -/
def move_loop {T : Type} (E : ElemType T) : Nat → Ptr → Ptr → State T → Res (State T) Ptr
  | 0, _, d_first, s => .ok d_first s
  | n + 1, first, d_first, s =>
    (assign_move E d_first first s).seq .thrown fun _ s =>
    move_loop E n (first.add 1) (d_first.add 1) s

/-- The algorithm `std::move(first, last, d_first)`: element-wise move
assignment front to back; returns the end of the destination range. -/
def move {T : Type} (E : ElemType T) (first last d_first : Ptr) (s : State T) :
    Res (State T) Ptr :=
  match distance first last with
  | some n => move_loop E n first d_first s
  | none => .ub

/-- The loop `*(--d_last) = std::move(*(--last))` of `std::move_backward`, with
`n` elements left: the next one moves from `first + (n - 1)` to `d_first + (n - 1)`. -/
def move_backward_loop {T : Type} (E : ElemType T) (first d_first : Ptr) :
    Nat → State T → Res (State T) Unit
  | 0, s => .ok () s
  | n + 1, s =>
    (assign_move E (d_first.add n) (first.add n) s).seq .thrown fun _ s =>
    move_backward_loop E first d_first n s

/-- The algorithm `std::move_backward(first, last, d_last)`: element-wise move
assignment back to front; returns the start of the destination range. -/
def move_backward {T : Type} (E : ElemType T) (first last d_last : Ptr) (s : State T) :
    Res (State T) Ptr :=
  match distance first last with
  | some n =>
    match d_last.sub n with
    | some d_first => (move_backward_loop E first d_first n s).seq .thrown fun _ s => .ok d_first s
    | none => .ub
  | none => .ub

/-- Unsigned subtraction `a - b` on `size_t`, for `a` and `b` in the range of
`size_t`: the difference modulo `2 ^ 64`, that is `a - b` when `b ≤ a` and
`2 ^ 64 - (b - a)` when the subtraction wraps around. -/
def usub (a b : Nat) : Nat := if b ≤ a then a - b else SIZE_T_MOD - (b - a)

/-! ## `RawMemory<T>` -/

/-- The class `RawMemory<T>`: `T* buffer_` and `size_t capacity_`. -/
structure RawMemory where
  buffer_ : Ptr
  capacity_ : Nat
deriving DecidableEq, Repr

/-- The argument `n * sizeof(T)` that `RawMemory::Allocate(n)` passes to
`operator new`, computed in `size_t`. -/
def ElemType.request {T : Type} (E : ElemType T) (n : Nat) : Nat := (n * E.sizeof) % SIZE_T_MOD

/-- The number of whole objects of type `T` that the block obtained by
`RawMemory::Allocate(n)` has room for. -/
def ElemType.slots {T : Type} (E : ElemType T) (n : Nat) : Nat := E.request n / E.sizeof

/-- The allocation function `operator new`, asked for a block with room for
`room` objects: it may throw `std::bad_alloc`; it returns a fresh block of raw
slots. -/
def operator_new {T : Type} (room : Nat) (s : State T) : Res (State T) Ptr :=
  (fallible s).seq .thrown fun _ s =>
  .ok ⟨s.blocks.length + 1, 0⟩
    { s with blocks := s.blocks ++ [some (List.replicate room Slot.raw)], allocs := s.allocs + 1 }

/-- The function `RawMemory::Allocate(n)`: `n != 0 ? operator new(n * sizeof(T)) : nullptr`.
The byte count is computed in `size_t`, so the block has room for `E.slots n`
objects: `n` of them when the product does not wrap, fewer otherwise. -/
def RawMemory.Allocate {T : Type} (E : ElemType T) (n : Nat) (s : State T) : Res (State T) Ptr :=
  if n ≠ 0 then operator_new (E.slots n) s else .ok nullptr s

/-- The function `RawMemory::Allocate(n)` at the call sites that take `n` from
a live buffer: growth asks for twice the size of the vector's own full buffer
(or for one slot), the copy constructor for the size of another vector.  A live
buffer holds at most `PTRDIFF_MAX` bytes, so `n * sizeof(T)` is below `2 ^ 64`
there and the block has room for `n` objects. -/
def RawMemory.Allocate_live {T : Type} (n : Nat) (s : State T) : Res (State T) Ptr :=
  if n ≠ 0 then operator_new n s else .ok nullptr s

/-- The function `RawMemory::Deallocate(buf)`: `operator delete(buf)`.  Nothing
happens for the null pointer; any other pointer must be the start of a block
that is still allocated. -/
def RawMemory.Deallocate {T : Type} (buf : Ptr) (s : State T) : Res (State T) Unit :=
  if buf = nullptr then .ok () s
  else if buf.off = 0 ∧ buf.blk ≠ 0 ∧ (s.block buf.blk).isSome then
    .ok () { s with blocks := s.blocks.set (buf.blk - 1) none, deallocs := s.deallocs + 1 }
  else .ub

/-- The constructor `RawMemory() = default`. -/
def RawMemory.ctor_default : RawMemory := ⟨nullptr, 0⟩

/-- The constructor `RawMemory(size_t capacity)`. -/
def RawMemory.ctor {T : Type} (E : ElemType T) (capacity : Nat) (s : State T) :
    Res (State T) RawMemory :=
  (RawMemory.Allocate E capacity s).seq .thrown fun buffer_ s => .ok ⟨buffer_, capacity⟩ s

/-- The constructor `RawMemory(size_t capacity)` at the call sites that take the
capacity from a live buffer (see `RawMemory.Allocate_live`). -/
def RawMemory.ctor_live {T : Type} (capacity : Nat) (s : State T) : Res (State T) RawMemory :=
  (RawMemory.Allocate_live capacity s).seq .thrown fun buffer_ s => .ok ⟨buffer_, capacity⟩ s

/-- The constructor `RawMemory(RawMemory&& other)`: the new object, and `other` afterwards. -/
def RawMemory.ctor_move (other : RawMemory) : RawMemory × RawMemory :=
  (⟨other.buffer_, other.capacity_⟩, ⟨nullptr, 0⟩)

/-- The destructor `~RawMemory()`. -/
def RawMemory.dtor {T : Type} (m : RawMemory) (s : State T) : Res (State T) Unit :=
  RawMemory.Deallocate m.buffer_ s

/-- The function `RawMemory::Swap(other)`: this object and `other` afterwards. -/
def RawMemory.Swap (m other : RawMemory) : RawMemory × RawMemory :=
  (⟨other.buffer_, other.capacity_⟩, ⟨m.buffer_, m.capacity_⟩)

/-- The function `RawMemory::GetAddress()`. -/
def RawMemory.GetAddress (m : RawMemory) : Ptr := m.buffer_

/-- The function `RawMemory::Capacity()`. -/
def RawMemory.Capacity (m : RawMemory) : Nat := m.capacity_

/-! ## `Vector<T>` -/

/-- The class `Vector<T>`: `RawMemory<T> data_`, `size_t capacity_`, `size_t size_`. -/
structure Vector where
  data_ : RawMemory
  capacity_ : Nat
  size_ : Nat
deriving DecidableEq, Repr

/-- The function `Vector::begin()`. -/
def Vector.begin (v : Vector) : Ptr := v.data_.GetAddress

/-- The function `Vector::end()`. -/
def Vector.end_ (v : Vector) : Ptr := v.data_.GetAddress.add v.size_

/-- The function `Vector::cbegin()`. -/
def Vector.cbegin (v : Vector) : Ptr := v.data_.GetAddress

/-- The function `Vector::cend()`. -/
def Vector.cend (v : Vector) : Ptr := v.data_.GetAddress.add v.size_

/-- The function `Vector::Size()`. -/
def Vector.Size (v : Vector) : Nat := v.size_

/-- The function `Vector::Capacity()`. -/
def Vector.Capacity (v : Vector) : Nat := v.capacity_

/-- The reference `Vector::operator[](index)` returns: `data_[index]`. -/
def Vector.index (v : Vector) (index : Nat) : Ptr := v.data_.GetAddress.add index

/-- The function `Vector::UninitializedMoveOrCopyN(src, size, dst)`. -/
def UninitializedMoveOrCopyN {T : Type} (E : ElemType T) (src : Ptr) (size : Nat) (dst : Ptr)
    (s : State T) : Res (State T) Unit :=
  if E.nothrow_move_constructible || !E.copy_constructible then
    (uninitialized_move_n E src size dst s).seq .thrown fun _ s => .ok () s
  else
    (uninitialized_copy_n src size dst s).seq .thrown fun _ s => .ok () s

/-- The function `Vector::MoveOrCopy(src_beg, src_end, dst)`. -/
def MoveOrCopy {T : Type} (E : ElemType T) (src_beg src_end dst : Ptr) (s : State T) :
    Res (State T) Ptr :=
  if E.nothrow_move_constructible || !E.copy_constructible then
    move E src_beg src_end dst s
  else
    copy src_beg src_end dst s

/-- What leaves a member function when an exception passes through a scope
that holds the local `RawMemory new_data`: its destructor runs first. -/
def unwind_new_data {T α : Type} (v : Vector) (new_data : RawMemory) (s : State T) :
    Res (Vector × State T) α :=
  (new_data.dtor s).rethrow (fun s => (v, s))

/-- The function `Vector::EmplaceReallocate(pos, args...)`. -/
def Vector.EmplaceReallocate {T : Type} (E : ElemType T) (v : Vector) (pos : Ptr) (args : Args T)
    (s : State T) : Res (Vector × State T) Ptr :=
  let new_capacity := if v.size_ ≠ 0 then (v.size_ * 2) % SIZE_T_MOD else 1
  (RawMemory.ctor_live new_capacity s).seq (fun s => .thrown (v, s)) fun new_data s =>
  match distance v.cbegin pos with
  | none => .ub
  | some pos_id =>
  let new_data_pos := new_data.GetAddress.add pos_id
  (construct_args E new_data_pos args s).seq (unwind_new_data v new_data) fun _ s =>
  let throw_end := new_data_pos.add 1
  let ncpos := pos
  (UninitializedMoveOrCopyN E v.begin pos_id new_data.GetAddress s).seq
    (fun s => (destroy new_data_pos throw_end s).seq (fun _ => .ub) fun _ s =>
      unwind_new_data v new_data s) fun _ s =>
  (UninitializedMoveOrCopyN E ncpos (usub v.size_ pos_id) (new_data_pos.add 1) s).seq
    (fun s => (destroy new_data.GetAddress throw_end s).seq (fun _ => .ub) fun _ s =>
      unwind_new_data v new_data s) fun _ s =>
  let swapped := v.data_.Swap new_data
  let v1 : Vector := { v with data_ := swapped.1, capacity_ := new_capacity }
  (destroy_n swapped.2.GetAddress v1.size_ s).seq (fun _ => .ub) fun _ s =>
  let v2 : Vector := { v1 with size_ := (v1.size_ + 1) % SIZE_T_MOD }
  (swapped.2.dtor s).seq (fun _ => .ub) fun _ s => .ok new_data_pos (v2, s)

/-- The function `Vector::Emplace(pos, args...)`. -/
def Vector.Emplace {T : Type} (E : ElemType T) (v : Vector) (pos : Ptr) (args : Args T)
    (s : State T) : Res (Vector × State T) Ptr :=
  if v.size_ = v.capacity_ then
    v.EmplaceReallocate E pos args s
  else
    let ncpos := pos
    if ncpos ≠ v.end_ then
      match v.end_.sub 1 with
      | none => .ub
      | some end_but_one =>
      (uninitialized_move_n E end_but_one 1 v.end_ s).seq (fun s => .thrown (v, s)) fun _ s =>
      (move_backward E ncpos end_but_one v.end_ s).seq (fun s => .thrown (v, s)) fun _ s =>
      (local_construct E args s).seq (fun s => .thrown (v, s)) fun temp s =>
      (assign_move_local E ncpos temp s).seq (fun s => .thrown (v, local_destroy s)) fun _ s =>
      .ok ncpos ({ v with size_ := (v.size_ + 1) % SIZE_T_MOD }, local_destroy s)
    else
      (construct_args E ncpos args s).seq (fun s => .thrown (v, s)) fun _ s =>
      .ok ncpos ({ v with size_ := (v.size_ + 1) % SIZE_T_MOD }, s)

/-- The function `Vector::Erase(pos)`. -/
def Vector.Erase {T : Type} (E : ElemType T) (v : Vector) (pos : Ptr) (s : State T) :
    Res (Vector × State T) Ptr :=
  let ncpos := pos
  let ncend := v.end_
  let ncpos_plus_one := ncpos.add 1
  (MoveOrCopy E ncpos_plus_one ncend ncpos s).seq (fun s => .thrown (v, s)) fun del s =>
  (Destroy del s).seq (fun _ => .ub) fun _ s =>
  .ok ncpos ({ v with size_ := usub v.size_ 1 }, s)

/-- The function `Vector::Insert(pos, const T& value)`. -/
def Vector.Insert {T : Type} (E : ElemType T) (v : Vector) (pos : Ptr) (value : Ptr)
    (s : State T) : Res (Vector × State T) Ptr :=
  if v.size_ = v.capacity_ then
    v.EmplaceReallocate E pos (.copyOf value) s
  else
    let ncpos := pos
    if ncpos ≠ v.end_ then
      (local_construct E (.copyOf value) s).seq (fun s => .thrown (v, s)) fun temp s =>
      match v.end_.sub 1 with
      | none => .ub
      | some end_but_one =>
      (uninitialized_move_n E end_but_one 1 v.end_ s).seq
        (fun s => .thrown (v, local_destroy s)) fun _ s =>
      (move_backward E ncpos end_but_one v.end_ s).seq
        (fun s => .thrown (v, local_destroy s)) fun _ s =>
      (assign_move_local E ncpos temp s).seq (fun s => .thrown (v, local_destroy s)) fun _ s =>
      .ok ncpos ({ v with size_ := (v.size_ + 1) % SIZE_T_MOD }, local_destroy s)
    else
      (construct_copy ncpos value s).seq (fun s => .thrown (v, s)) fun _ s =>
      .ok ncpos ({ v with size_ := (v.size_ + 1) % SIZE_T_MOD }, s)

/-- The function `Vector::Insert(pos, T&& value)`. -/
def Vector.Insert_rvalue {T : Type} (E : ElemType T) (v : Vector) (pos : Ptr) (value : Ptr)
    (s : State T) : Res (Vector × State T) Ptr :=
  v.Emplace E pos (.moveOf value) s

/-- The constructor `Vector()`. -/
def Vector.ctor_default : Vector := ⟨RawMemory.ctor_default, 0, 0⟩

/-- The constructor `Vector(size_t size)`; when it throws no object exists,
the member `data_` having been destructed. -/
def Vector.ctor_size {T : Type} (E : ElemType T) (size : Nat) (s : State T) :
    Res (State T) Vector :=
  (RawMemory.ctor E size s).seq .thrown fun data_ s =>
  let v : Vector := ⟨data_, size, size⟩
  (uninitialized_value_construct_n E v.data_.GetAddress v.size_ s).seq
    (fun s => (data_.dtor s).rethrow id) fun _ s => .ok v s

/-- The constructor `Vector(const Vector& other)`. -/
def Vector.ctor_copy {T : Type} (other : Vector) (s : State T) : Res (State T) Vector :=
  (RawMemory.ctor_live other.size_ s).seq .thrown fun data_ s =>
  let v : Vector := ⟨data_, other.size_, other.size_⟩
  (uninitialized_copy_n other.data_.GetAddress other.size_ v.data_.GetAddress s).seq
    (fun s => (data_.dtor s).rethrow id) fun _ s => .ok v s

/-- The constructor `Vector(Vector&& other)`: the new object, and `other` afterwards. -/
def Vector.ctor_move (other : Vector) : Vector × Vector :=
  let moved := RawMemory.ctor_move other.data_
  (⟨moved.1, other.capacity_, other.size_⟩, ⟨moved.2, 0, 0⟩)

/-- The destructor `~Vector()`, followed by the destructor of the member `data_`. -/
def Vector.dtor {T : Type} (v : Vector) (s : State T) : Res (State T) Unit :=
  (destroy_n v.data_.GetAddress v.size_ s).seq (fun _ => .ub) fun _ s => v.data_.dtor s

/-- The function `Vector::Swap(other)`: this vector and `other` afterwards. -/
def Vector.Swap (v other : Vector) : Vector × Vector :=
  let swapped := v.data_.Swap other.data_
  (⟨swapped.1, other.capacity_, other.size_⟩, ⟨swapped.2, v.capacity_, v.size_⟩)

/-- The function `Vector::Reserve(capacity)`. -/
def Vector.Reserve {T : Type} (E : ElemType T) (v : Vector) (capacity : Nat) (s : State T) :
    Res (Vector × State T) Unit :=
  if v.capacity_ ≥ capacity then .ok () (v, s)
  else
    (RawMemory.ctor E capacity s).seq (fun s => .thrown (v, s)) fun new_data s =>
    (UninitializedMoveOrCopyN E v.data_.GetAddress v.size_ new_data.GetAddress s).seq
      (unwind_new_data v new_data) fun _ s =>
    let swapped := v.data_.Swap new_data
    let v1 : Vector := { v with data_ := swapped.1, capacity_ := capacity }
    (destroy_n swapped.2.GetAddress v1.size_ s).seq (fun _ => .ub) fun _ s =>
    (swapped.2.dtor s).seq (fun _ => .ub) fun _ s => .ok () (v1, s)

/-- The function `Vector::Resize(new_size)`; the two subtractions are guarded
by the comparisons before them. -/
def Vector.Resize {T : Type} (E : ElemType T) (v : Vector) (new_size : Nat) (s : State T) :
    Res (Vector × State T) Unit :=
  if new_size < v.size_ then
    (destroy_n (v.data_.GetAddress.add new_size) (v.size_ - new_size) s).seq (fun _ => .ub)
      fun _ s => .ok () ({ v with size_ := new_size }, s)
  else
    (if new_size > v.capacity_ then v.Reserve E new_size s else .ok () (v, s)).seq .thrown
      fun _ vs =>
    (uninitialized_value_construct_n E (vs.1.data_.GetAddress.add vs.1.size_)
        (new_size - vs.1.size_) vs.2).seq (fun s => .thrown (vs.1, s))
      fun _ s => .ok () ({ vs.1 with size_ := new_size }, s)

/-- The function `Vector::EmplaceBack(args...)`; the result is the reference it returns. -/
def Vector.EmplaceBack {T : Type} (E : ElemType T) (v : Vector) (args : Args T) (s : State T) :
    Res (Vector × State T) Ptr :=
  (if v.size_ = v.capacity_ then
    let new_capacity := if v.size_ ≠ 0 then (v.size_ * 2) % SIZE_T_MOD else 1
    (RawMemory.ctor_live new_capacity s).seq (fun s => .thrown (v, s)) fun new_data s =>
    (construct_args E (new_data.GetAddress.add v.size_) args s).seq
      (unwind_new_data v new_data) fun _ s =>
    (UninitializedMoveOrCopyN E v.data_.GetAddress v.size_ new_data.GetAddress s).seq
      (unwind_new_data v new_data) fun _ s =>
    let swapped := v.data_.Swap new_data
    let v1 : Vector := { v with data_ := swapped.1, capacity_ := new_capacity }
    (destroy_n swapped.2.GetAddress v1.size_ s).seq (fun _ => .ub) fun _ s =>
    (swapped.2.dtor s).seq (fun _ => .ub) fun _ s => .ok () (v1, s)
  else
    (construct_args E (v.data_.GetAddress.add v.size_) args s).seq (fun s => .thrown (v, s))
      fun _ s => .ok () (v, s)).seq .thrown fun _ vs =>
  let v2 : Vector := { vs.1 with size_ := (vs.1.size_ + 1) % SIZE_T_MOD }
  .ok (v2.data_.GetAddress.add (usub v2.size_ 1)) (v2, vs.2)

/-- The function `Vector::PushBack(const T& value)`. -/
def Vector.PushBack {T : Type} (E : ElemType T) (v : Vector) (value : Ptr) (s : State T) :
    Res (Vector × State T) Unit :=
  (v.EmplaceBack E (.copyOf value) s).seq .thrown fun _ vs => .ok () vs

/-- The function `Vector::PushBack(T&& value)`. -/
def Vector.PushBack_rvalue {T : Type} (E : ElemType T) (v : Vector) (value : Ptr) (s : State T) :
    Res (Vector × State T) Unit :=
  (v.EmplaceBack E (.moveOf value) s).seq .thrown fun _ vs => .ok () vs

/-- The function `Vector::PopBack()`. -/
def Vector.PopBack {T : Type} (v : Vector) (s : State T) : Res (Vector × State T) Unit :=
  let v1 : Vector := { v with size_ := usub v.size_ 1 }
  let des := v1.data_.GetAddress.add v1.size_
  (Destroy des s).seq (fun _ => .ub) fun _ s => .ok () (v1, s)

/-- The copy assignment `Vector::operator=(const Vector& other)`: the state of
this vector afterwards; `other` is not written through its reference.  The two
subtractions are guarded by the comparisons before them. -/
def Vector.copy_assign {T : Type} (v other : Vector) (s : State T) :
    Res (Vector × State T) Unit :=
  if v.capacity_ ≥ other.size_ then
    let src := other.data_.GetAddress
    let dst := v.data_.GetAddress
    (if v.size_ ≤ other.size_ then
      let src_mid := src.add v.size_
      (copy src src_mid dst s).seq .thrown fun output_it s =>
      (uninitialized_copy_n src_mid (other.size_ - v.size_) output_it s).seq .thrown
        fun _ s => .ok () s
    else
      let src_end := src.add other.size_
      (copy src src_end dst s).seq .thrown fun output_it s =>
      (destroy_n output_it (v.size_ - other.size_) s).seq (fun _ => .ub) fun _ s => .ok () s).seq
      (fun s => .thrown (v, s)) fun _ s =>
    .ok () ({ v with size_ := other.size_ }, s)
  else
    (Vector.ctor_copy other s).seq (fun s => .thrown (v, s)) fun copy_other s =>
    let swapped := v.Swap copy_other
    (swapped.2.dtor s).seq (fun _ => .ub) fun _ s => .ok () (swapped.1, s)

/-- The move assignment `Vector::operator=(Vector&& other)`: this vector and
`other` afterwards. -/
def Vector.move_assign (v other : Vector) : Vector × Vector :=
  v.Swap other

/-! ## The abstraction -/

/-- The slots of a buffer of `cap` slots whose first `xs.length` slots hold `xs`. -/
def slotsOf {T : Type} (xs : List T) (cap : Nat) : List (Slot T) :=
  xs.map Slot.live ++ List.replicate (cap - xs.length) Slot.raw

/-- The vector `v` is a well-formed vector with element sequence `xs` in state
`s`: `data_` owns a block of `capacity_` slots that starts at `buffer_`, the
first `size_` slots hold `xs` as live objects and the other slots are raw, the
buffer is null when the capacity is zero, and the capacity cache agrees. -/
def Vector.Holds {T : Type} (s : State T) (v : Vector) (xs : List T) : Prop :=
  v.data_.buffer_.off = 0 ∧
  (v.capacity_ = 0 → v.data_.buffer_ = nullptr) ∧
  v.data_.capacity_ = v.capacity_ ∧
  v.size_ = xs.length ∧
  v.size_ ≤ v.capacity_ ∧
  v.capacity_ < SIZE_T_MOD ∧
  s.block v.data_.buffer_.blk = some (slotsOf xs v.capacity_)

instance {T : Type} [DecidableEq T] (s : State T) (v : Vector) (xs : List T) :
    Decidable (v.Holds s xs) := by
  unfold Vector.Holds; infer_instance

/-! ## Specification vocabulary -/

/-- Replace the segment of `l` that starts at index `b` by `ys`. -/
def splice {α : Type} (l : List α) (b : Nat) (ys : List α) : List α :=
  l.take b ++ ys ++ l.drop (b + ys.length)

/-- Specification of an outcome `r`: a normal return satisfies `Q`, and the
function does return normally when `q` holds. -/
def Res.Sat {σ α : Type} (r : Res σ α) (q : Prop) (Q : α → σ → Prop) : Prop :=
  (∀ a s, r = .ok a s → Q a s) ∧ (q → ∃ a s, r = .ok a s)

/-- State `t` is state `s` with slot `p` overwritten by `y`: the block of `p`
changed at that offset only, and no other block changed. -/
def Wrote {T : Type} (s t : State T) (p : Ptr) (y : Slot T) : Prop :=
  ∃ bl, s.block p.blk = some bl ∧ p.off < bl.length ∧ t.block p.blk = some (bl.set p.off y) ∧
    ∀ c, c ≠ p.blk → t.block c = s.block c

/-- No failure is pending in `t` if none was pending in `s`. -/
def Quiet {T : Type} (s t : State T) : Prop := s.fuse = none → t.fuse = none

/-- Every block allocated in `s`, other than block `A`, has the same contents in `t`. -/
def Frame {T : Type} (s t : State T) (A : Nat) : Prop :=
  ∀ c, c ≠ A → (s.block c).isSome → t.block c = s.block c

/-- The value the constructor arguments denote in state `s`, if their source is live. -/
def Args.value {T : Type} (s : State T) : Args T → Option T
  | .copyOf p => match s.read p with
    | some (.live x) => some x
    | _ => none
  | .moveOf p => match s.read p with
    | some (.live x) => some x
    | _ => none
  | .make x => some x

/-- Constructing from the arguments writes into block `c` (a moved-from source). -/
def Args.writes {T : Type} : Args T → Nat → Prop
  | .copyOf _, _ => False
  | .moveOf p, c => p.blk = c
  | .make _, _ => False

/-- The arguments refer to an object in block `c`. -/
def Args.inBlock {T : Type} : Args T → Nat → Prop
  | .copyOf p, c => p.blk = c
  | .moveOf p, c => p.blk = c
  | .make _, _ => False

/-- Every block allocated in `s`, other than block `A` and the block a
moved-from argument lives in, has the same contents in `t`. -/
def FrameArgs {T : Type} (s t : State T) (A : Nat) (args : Args T) : Prop :=
  ∀ c, c ≠ A → ¬ args.writes c → (s.block c).isSome → t.block c = s.block c

/-- The capacity the growth policy prescribes after one insertion into `v`. -/
def Vector.grown (v : Vector) : Nat :=
  if v.Size = v.Capacity then max 1 (2 * v.Capacity) else v.Capacity

/-- The request for `n` slots fits `size_t`: the block that
`RawMemory::Allocate(n)` obtains has room for `n` objects.  This is so for
`n = 0` and whenever `n * sizeof(T)` does not wrap (`ElemType.fits_iff`). -/
def ElemType.fits {T : Type} (E : ElemType T) (n : Nat) : Prop := E.slots n = n

instance {T : Type} (E : ElemType T) (n : Nat) : Decidable (E.fits n) :=
  inferInstanceAs (Decidable (E.slots n = n))

/-- The element sequence of `v` in state `s` is `xs`: the storage of `v` starts
with the live objects `xs` and is raw after them.  Unlike `Vector.Holds` this
does not say that the storage has room for `Capacity()` objects. -/
def Vector.Stores {T : Type} (s : State T) (v : Vector) (xs : List T) : Prop :=
  v.data_.buffer_.off = 0 ∧ v.size_ = xs.length ∧
    ∃ room, xs.length ≤ room ∧ s.block v.data_.buffer_.blk = some (slotsOf xs room)

/-! ## Example inputs -/

/-- An element type like `int`: nothing throws, a moved-from object keeps its value. -/
def intElem : ElemType Nat := ⟨true, true, true, id, 0, 4⟩

/-- An element type whose move constructor may throw and that can be copied:
transfers copy.  A moved-from object holds `0`. -/
def copyingElem : ElemType Nat := ⟨false, true, false, fun _ => 0, 0, 4⟩

/-- A heap with the full buffer `[10, 20, 30, 40]` in block 1 and the value `99` in block 2. -/
def fullState : State Nat :=
  ⟨[some [.live 10, .live 20, .live 30, .live 40], some [.live 99]], none, 0, 0, 0, 0⟩

/-- The vector `[10, 20, 30, 40]` with capacity exactly 4 in `fullState`. -/
def fullVector : Vector := ⟨⟨⟨1, 0⟩, 4⟩, 4, 4⟩

/-- A heap with the buffer `[1, 2, 3, 4, 5]` of capacity 8 in block 1 and the value `99` in block 2. -/
def roomyState : State Nat :=
  ⟨[some [.live 1, .live 2, .live 3, .live 4, .live 5, .raw, .raw, .raw], some [.live 99]],
    none, 0, 0, 0, 0⟩

/-- The vector `[1, 2, 3, 4, 5]` with capacity 8 in `roomyState`. -/
def roomyVector : Vector := ⟨⟨⟨1, 0⟩, 8⟩, 8, 5⟩

/-- The vector `[99]` with capacity 1 that owns block 2 of `fullState` and of `roomyState`. -/
def singleVector : Vector := ⟨⟨⟨2, 0⟩, 1⟩, 1, 1⟩

/-- A heap with the buffer `[1, 2, 3]` of capacity 4 in block 1; three constructor
calls have been counted. -/
def tripleState : State Nat :=
  ⟨[some [.live 1, .live 2, .live 3, .raw]], none, 3, 0, 1, 0⟩

/-- The vector `[1, 2, 3]` with capacity 4 in `tripleState`. -/
def tripleVector : Vector := ⟨⟨⟨1, 0⟩, 4⟩, 4, 3⟩

/-- The class invariant: `Size() ≤ Capacity()`, and the vector is well formed
in state `s` for some element sequence. -/
def Vector.Inv {T : Type} (s : State T) (v : Vector) : Prop :=
  v.Size ≤ v.Capacity ∧ ∃ xs : List T, v.Holds s xs

/-- The vector `[1, 2]` with capacity exactly 2 in `pairState`. -/
def pairVector : Vector := ⟨⟨⟨1, 0⟩, 2⟩, 2, 2⟩

/-- A heap with the full buffer `[1, 2]` in block 1 and the value `99` in block 2;
the three live objects have been counted as constructed. -/
def pairState : State Nat :=
  ⟨[some [.live 1, .live 2], some [.live 99]], none, 3, 0, 2, 0⟩

/-- The number of live objects in the allocated blocks of the heap. -/
def State.liveCount {T : Type} (s : State T) : Nat :=
  (s.blocks.map fun b =>
    match b with
    | some bl => bl.countP fun y => match y with
      | .live _ => true
      | .raw => false
    | none => 0).sum

/-- The loop `for (i = 0; i < n; ++i) v.PushBack(src[i]);` of a client. -/
def PushBack_range {T : Type} (E : ElemType T) :
    Nat → Ptr → Vector → State T → Res (Vector × State T) Unit
  | 0, _, v, s => .ok () (v, s)
  | n + 1, src, v, s =>
    (v.PushBack E src s).seq .thrown fun _ vs => PushBack_range E n (src.add 1) vs.1 vs.2

/-- Complete specification of an outcome `r`: it is not undefined behaviour, a
normal return satisfies `Q`, and an exception leaves a state that satisfies `R`. -/
def Res.Full {σ α : Type} (r : Res σ α) (Q : α → σ → Prop) (R : σ → Prop) : Prop :=
  match r with
  | .ok a s => Q a s
  | .thrown s => R s
  | .ub => False

/-- Between `s` and `t`, `n` operations that may throw have succeeded. -/
def Spent {T : Type} (s t : State T) (n : Nat) : Prop :=
  (s.fuse = none → t.fuse = none) ∧ ∀ m, s.fuse = some m → n ≤ m ∧ t.fuse = some (m - n)

/-- Between `s` and `t`, `n` operations that may throw have succeeded, and `c`
constructors and `d` destructors have run. -/
def Step {T : Type} (s t : State T) (n c d : Nat) : Prop :=
  Spent s t n ∧ t.ctors = s.ctors + c ∧ t.dtors = s.dtors + d

/-- After `s`, `n` operations that may throw have succeeded and the next one
has thrown; up to `t`, `c` constructors and `d` destructors have run. -/
def Fail {T : Type} (s t : State T) (n c d : Nat) : Prop :=
  s.fuse = some n ∧ t.fuse = none ∧ t.ctors = s.ctors + c ∧ t.dtors = s.dtors + d

/-- A heap with the full buffer `[1, 2, 3]` in block 1 and the full buffer
`[7, 8]` in block 2, in which the second operation that may throw will throw. -/
def assignState : State Nat :=
  ⟨[some [.live 1, .live 2, .live 3], some [.live 7, .live 8]], some 1, 5, 0, 2, 0⟩

/-- The vector `[1, 2, 3]` with capacity 3 in `assignState`. -/
def assignTarget : Vector := ⟨⟨⟨1, 0⟩, 3⟩, 3, 3⟩

/-- The vector `[7, 8]` with capacity 2 in `assignState`. -/
def assignSource : Vector := ⟨⟨⟨2, 0⟩, 2⟩, 2, 2⟩

/-! ## Outcomes and the heap -/

theorem Res.Sat.of_ok {a : α} {s : σ} {q : Prop} {Q : α → σ → Prop} (h : Q a s) :
    (Res.ok a s).Sat q Q :=
  ⟨fun a' s' e => (by cases e; exact h), fun _ => ⟨a, s, rfl⟩⟩

theorem Res.Sat.of_ub {q : Prop} {Q : α → σ → Prop} (h : ¬ q) :
    (Res.ub : Res σ α).Sat q Q :=
  ⟨fun a' s' e => (by cases e), fun hq => absurd hq h⟩

theorem Res.Sat.mono {r : Res σ α} {q q' : Prop} {Q Q' : α → σ → Prop}
    (h : r.Sat q Q) (hq : q' → q) (hQ : ∀ a s, Q a s → Q' a s) : r.Sat q' Q' :=
  ⟨fun a s e => hQ a s (h.1 a s e), fun h' => h.2 (hq h')⟩

theorem Res.Sat.seq {r : Res σ α} {h : σ → Res τ β} {k : α → σ → Res τ β} {q : Prop}
    {Q : α → σ → Prop} {R : β → τ → Prop}
    (hr : r.Sat q Q) (hh : ∀ s b t, h s ≠ .ok b t)
    (hk : ∀ a s, Q a s → (k a s).Sat q R) : (r.seq h k).Sat q R := by
  cases r with
  | ok a s => exact hk a s (hr.1 a s rfl)
  | thrown s =>
    refine ⟨fun b t e => absurd e (hh s b t), fun hq => ?_⟩
    obtain ⟨a, s', e⟩ := hr.2 hq
    cases e
  | ub =>
    refine ⟨fun b t e => (by cases e), fun hq => ?_⟩
    obtain ⟨a, s', e⟩ := hr.2 hq
    cases e

theorem Res.rethrow_ne_ok {γ : Type} (c : Res σ α) (f : σ → τ) (b : γ) (t : τ) :
    (c.rethrow f : Res τ γ) ≠ .ok b t := by
  cases c <;> simp [Res.rethrow]

theorem block_zero (s : State T) : s.block 0 = some [] := by simp [State.block]

theorem block_ne_nil_blk {s : State T} {b : Nat} {bl : List (Slot T)} {i : Nat}
    (h : s.block b = some bl) (hi : i < bl.length) : b ≠ 0 ∧ b ≤ s.blocks.length := by
  constructor
  · rintro rfl
    rw [block_zero] at h
    cases h
    simp at hi
  · by_contra hlt
    have hb : b ≠ 0 := by omega
    have : s.blocks[b - 1]? = none := List.getElem?_eq_none (by omega)
    simp [State.block, hb, this] at h

theorem read_of_block {s : State T} {p : Ptr} {bl : List (Slot T)}
    (h : s.block p.blk = some bl) : s.read p = bl[p.off]? := by
  simp [State.read, h]

theorem read_eq_some {s : State T} {p : Ptr} {y : Slot T} (h : s.read p = some y) :
    ∃ bl, s.block p.blk = some bl ∧ p.off < bl.length ∧ bl[p.off]? = some y := by
  unfold State.read at h
  cases hb : s.block p.blk with
  | none => simp [hb] at h
  | some bl =>
    simp [hb] at h
    exact ⟨bl, rfl, (List.getElem?_eq_some_iff.1 h).1, h⟩

theorem write_spec {s : State T} {p : Ptr} {bl : List (Slot T)} (y : Slot T)
    (h : s.block p.blk = some bl) (hi : p.off < bl.length) :
    ∃ t, s.write p y = some t ∧ Wrote s t p y ∧ t.fuse = s.fuse ∧ t.dtors = s.dtors := by
  have hb := (block_ne_nil_blk h hi).1
  have hr : s.read p = some bl[p.off] := by
    rw [read_of_block h]; exact List.getElem?_eq_getElem hi
  refine ⟨{ s with blocks := s.blocks.modify (Option.map (fun bl => bl.set p.off y)) (p.blk - 1) },
    by simp [State.write, hr], ⟨bl, h, hi, ?_, ?_⟩, rfl, rfl⟩
  · simp only [State.block, hb, if_false] at h ⊢
    rw [List.getElem?_modify]
    cases hx : s.blocks[p.blk - 1]? with
    | none => simp [hx] at h
    | some o =>
      simp [hx] at h
      subst h
      simp
  · intro c hc
    simp only [State.block]
    by_cases hc0 : c = 0
    · simp [hc0]
    · simp only [hc0, if_false]
      rw [List.getElem?_modify]
      have : p.blk - 1 ≠ c - 1 := by omega
      simp [this]

theorem write_eq_some {s t : State T} {p : Ptr} {y : Slot T} (h : s.write p y = some t) :
    Wrote s t p y ∧ t.fuse = s.fuse ∧ t.dtors = s.dtors := by
  cases hr : s.read p with
  | none => simp [State.write, hr] at h
  | some z =>
    obtain ⟨bl, hb, hi, _⟩ := read_eq_some hr
    obtain ⟨t', ht, hw⟩ := write_spec y hb hi
    rw [ht] at h
    cases h
    exact hw

theorem write_eq_none {s : State T} {p : Ptr} {y : Slot T} (h : s.read p = none) :
    s.write p y = none := by
  simp [State.write, h]

/-! ## Element operations -/

theorem block_of_blocks_eq {s t : State T} (h : t.blocks = s.blocks) (c : Nat) :
    t.block c = s.block c := by
  simp [State.block, h]

theorem read_of_blocks_eq {s t : State T} (h : t.blocks = s.blocks) (p : Ptr) :
    t.read p = s.read p := by
  simp [State.read, block_of_blocks_eq h]

theorem Wrote.of_blocks_eq {s s1 t t1 : State T} {p : Ptr} {y : Slot T} (h : Wrote s1 t1 p y)
    (hs : s1.blocks = s.blocks) (ht : t.blocks = t1.blocks) : Wrote s t p y := by
  obtain ⟨bl, h1, h2, h3, h4⟩ := h
  refine ⟨bl, ?_, h2, ?_, fun c hc => ?_⟩
  · rw [← block_of_blocks_eq hs]; exact h1
  · rw [block_of_blocks_eq ht]; exact h3
  · rw [block_of_blocks_eq ht, h4 c hc, block_of_blocks_eq hs]

theorem Quiet.refl (s : State T) : Quiet s s := fun h => h

theorem Quiet.trans {s t u : State T} (h1 : Quiet s t) (h2 : Quiet t u) : Quiet s u :=
  fun h => h2 (h1 h)

theorem fallible_sat (s : State T) :
    (fallible s).Sat (s.fuse = none)
      (fun _ t => t.blocks = s.blocks ∧ Quiet s t ∧ t.dtors = s.dtors) := by
  unfold fallible
  split
  · exact ⟨fun a t e => (by cases e), fun hq => (by simp_all)⟩
  · refine Res.Sat.of_ok ⟨rfl, fun h => ?_, rfl⟩
    simp_all
  · exact Res.Sat.of_ok ⟨rfl, fun h => h, rfl⟩

theorem fallibleUnless_sat (b : Bool) (s : State T) :
    (fallibleUnless b s).Sat (s.fuse = none)
      (fun _ t => t.blocks = s.blocks ∧ Quiet s t ∧ t.dtors = s.dtors) := by
  unfold fallibleUnless
  split
  · exact Res.Sat.of_ok ⟨rfl, fun h => h, rfl⟩
  · exact fallible_sat s

theorem thrown_ne_ok (s : σ) (b : β) (t : σ) : (Res.thrown s : Res σ β) ≠ .ok b t := by
  intro h; cases h

theorem Wrote.isSome_read {s t : State T} {p : Ptr} {y : Slot T} (h : Wrote s t p y) (q : Ptr) :
    (t.read q).isSome = (s.read q).isSome := by
  obtain ⟨bl, h1, h2, h3, h4⟩ := h
  by_cases hq : q.blk = p.blk
  · rw [← hq] at h1 h3
    rw [read_of_block h1, read_of_block h3]
    by_cases hlt : q.off < bl.length
    · rw [List.getElem?_eq_getElem hlt, List.getElem?_eq_getElem (by simpa using hlt)]
      rfl
    · rw [List.getElem?_eq_none (by rw [List.length_set]; omega), List.getElem?_eq_none (by omega)]
  · simp [State.read, h4 q.blk hq]

theorem Wrote.read_self {s t : State T} {p : Ptr} {y : Slot T} (h : Wrote s t p y) :
    t.read p = some y := by
  obtain ⟨bl, h1, h2, h3, h4⟩ := h
  rw [read_of_block h3]
  exact List.getElem?_set_self h2

theorem Wrote.read_other {s t : State T} {p : Ptr} {y : Slot T} (h : Wrote s t p y) {q : Ptr}
    (hq : q ≠ p) : t.read q = s.read q := by
  obtain ⟨bl, h1, h2, h3, h4⟩ := h
  by_cases hb : q.blk = p.blk
  · have ho : p.off ≠ q.off := by
      intro ho
      apply hq
      cases q; cases p; simp_all
    rw [← hb] at h1 h3
    rw [read_of_block h1, read_of_block h3, List.getElem?_set_ne ho]
  · simp [State.read, h4 q.blk hb]

/-- A store into a slot known to exist, followed by the rest of the operation. -/
theorem write_seq_sat {s1 : State T} {dst : Ptr} (y : Slot T) {k : State T → Res (State T) α}
    {q : Prop} {Q : α → State T → Prop} (hd : (s1.read dst).isSome)
    (hk : ∀ t, Wrote s1 t dst y → t.fuse = s1.fuse → t.dtors = s1.dtors → (k t).Sat q Q) :
    (match s1.write dst y with
      | some t => k t
      | none => (Res.ub : Res (State T) α)).Sat q Q := by
  obtain ⟨z, hz⟩ := Option.isSome_iff_exists.1 hd
  obtain ⟨bl, h1, h2, _⟩ := read_eq_some hz
  obtain ⟨t, ht, hw, hfu, hdt⟩ := write_spec y h1 h2
  rw [ht]
  exact hk t hw hfu hdt

theorem Wrote.of_blocks_eq_left {s s1 t : State T} {p : Ptr} {y : Slot T} (h : Wrote s1 t p y)
    (hs : s1.blocks = s.blocks) : Wrote s t p y :=
  h.of_blocks_eq hs rfl

theorem construct_copy_sat {s : State T} {dst src : Ptr} {x : T}
    (hs : s.read src = some (.live x)) :
    (construct_copy dst src s).Sat (s.fuse = none ∧ (s.read dst).isSome)
      (fun _ t => Wrote s t dst (.live x) ∧ Quiet s t) := by
  unfold construct_copy
  rw [hs]
  cases hd : s.read dst with
  | none => exact Res.Sat.of_ub (by simp)
  | some z =>
    refine ((fallible_sat s).mono (fun h => h.1) (fun _ _ h => h)).seq thrown_ne_ok ?_
    intro _ s1 ⟨hb, hq, _⟩
    refine write_seq_sat _ (by rw [read_of_blocks_eq hb, hd]; rfl) ?_
    intro t hw hf _
    exact Res.Sat.of_ok ⟨hw.of_blocks_eq hb rfl, fun h => hf.trans (hq h)⟩

theorem construct_move_sat (E : ElemType T) {s : State T} {dst src : Ptr} {x : T}
    (hs : s.read src = some (.live x)) :
    (construct_move E dst src s).Sat (s.fuse = none ∧ (s.read dst).isSome)
      (fun _ t => (∃ t1, Wrote s t1 dst (.live x) ∧ Wrote t1 t src (.live (E.movedFrom x))) ∧
        Quiet s t) := by
  unfold construct_move
  rw [hs]
  cases hd : s.read dst with
  | none => exact Res.Sat.of_ub (by simp)
  | some z =>
    refine ((fallibleUnless_sat _ s).mono (fun h => h.1) (fun _ _ h => h)).seq thrown_ne_ok ?_
    intro _ s1 ⟨hb, hq, _⟩
    refine write_seq_sat _ (by rw [read_of_blocks_eq hb, hd]; rfl) ?_
    intro t1 hw hf _
    refine write_seq_sat _ (by rw [hw.isSome_read, read_of_blocks_eq hb, hs]; rfl) ?_
    intro t hw2 hf2 _
    exact Res.Sat.of_ok ⟨⟨t1, hw.of_blocks_eq hb rfl, hw2.of_blocks_eq rfl rfl⟩,
      fun h => hf2.trans (hf.trans (hq h))⟩

theorem construct_value_sat (E : ElemType T) (s : State T) (dst : Ptr) :
    (construct_value E dst s).Sat (s.fuse = none ∧ (s.read dst).isSome)
      (fun _ t => Wrote s t dst (.live E.value_init) ∧ Quiet s t) := by
  unfold construct_value
  cases hd : s.read dst with
  | none => exact Res.Sat.of_ub (by simp)
  | some z =>
    refine ((fallible_sat s).mono (fun h => h.1) (fun _ _ h => h)).seq thrown_ne_ok ?_
    intro _ s1 ⟨hb, hq, _⟩
    refine write_seq_sat _ (by rw [read_of_blocks_eq hb, hd]; rfl) ?_
    intro t hw hf _
    exact Res.Sat.of_ok ⟨hw.of_blocks_eq hb rfl, fun h => hf.trans (hq h)⟩

theorem assign_copy_sat {s : State T} {dst src : Ptr} {x y : T}
    (hs : s.read src = some (.live x)) (hd : s.read dst = some (.live y)) :
    (assign_copy dst src s).Sat (s.fuse = none)
      (fun _ t => Wrote s t dst (.live x) ∧ Quiet s t) := by
  unfold assign_copy
  rw [hs, hd]
  refine (fallible_sat s).seq thrown_ne_ok ?_
  intro _ s1 ⟨hb, hq, _⟩
  refine write_seq_sat _ (by rw [read_of_blocks_eq hb, hd]; rfl) ?_
  intro t hw hf _
  exact Res.Sat.of_ok ⟨hw.of_blocks_eq hb rfl, fun h => hf.trans (hq h)⟩

theorem assign_move_sat (E : ElemType T) {s : State T} {dst src : Ptr} {x y : T}
    (hs : s.read src = some (.live x)) (hd : s.read dst = some (.live y)) :
    (assign_move E dst src s).Sat (s.fuse = none)
      (fun _ t => (∃ t1, Wrote s t1 dst (.live x) ∧ Wrote t1 t src (.live (E.movedFrom x))) ∧
        Quiet s t) := by
  unfold assign_move
  rw [hs, hd]
  refine (fallibleUnless_sat _ s).seq thrown_ne_ok ?_
  intro _ s1 ⟨hb, hq, _⟩
  refine write_seq_sat _ (by rw [read_of_blocks_eq hb, hd]; rfl) ?_
  intro t1 hw hf _
  refine write_seq_sat _ (by rw [hw.isSome_read, read_of_blocks_eq hb, hs]; rfl) ?_
  intro t hw2 hf2 _
  exact Res.Sat.of_ok ⟨⟨t1, hw.of_blocks_eq hb rfl, hw2.of_blocks_eq rfl rfl⟩,
    fun h => hf2.trans (hf.trans (hq h))⟩

theorem Destroy_sat {s : State T} {buf : Ptr} {x : T} (hs : s.read buf = some (.live x)) :
    (Destroy buf s).Sat True
      (fun _ t => Wrote s t buf .raw ∧ t.fuse = s.fuse ∧ t.dtors = s.dtors + 1) := by
  unfold Destroy
  rw [hs]
  refine write_seq_sat _ (by rw [hs]; rfl) ?_
  intro t hw hf hd
  exact Res.Sat.of_ok ⟨hw.of_blocks_eq rfl rfl, hf, by simp [hd]⟩

theorem assign_move_local_sat (E : ElemType T) {s : State T} {dst : Ptr} {y : T} (temp : T)
    (hd : s.read dst = some (.live y)) :
    (assign_move_local E dst temp s).Sat (s.fuse = none)
      (fun _ t => Wrote s t dst (.live temp) ∧ Quiet s t) := by
  unfold assign_move_local
  rw [hd]
  refine (fallibleUnless_sat _ s).seq thrown_ne_ok ?_
  intro _ s1 ⟨hb, hq, _⟩
  refine write_seq_sat _ (by rw [read_of_blocks_eq hb, hd]; rfl) ?_
  intro t hw hf _
  exact Res.Sat.of_ok ⟨hw.of_blocks_eq hb rfl, fun h => hf.trans (hq h)⟩

theorem local_construct_copy_sat (E : ElemType T) {s : State T} {p : Ptr} {x : T}
    (hs : s.read p = some (.live x)) :
    (local_construct E (.copyOf p) s).Sat (s.fuse = none)
      (fun temp t => temp = x ∧ t.blocks = s.blocks ∧ Quiet s t) := by
  unfold local_construct
  simp only [hs]
  refine (fallible_sat s).seq thrown_ne_ok ?_
  intro _ s1 ⟨hb, hq, _⟩
  exact Res.Sat.of_ok ⟨rfl, hb, hq⟩

theorem local_construct_make_sat (E : ElemType T) (s : State T) (x : T) :
    (local_construct E (.make x) s).Sat (s.fuse = none)
      (fun temp t => temp = x ∧ t.blocks = s.blocks ∧ Quiet s t) := by
  unfold local_construct
  refine (fallible_sat s).seq thrown_ne_ok ?_
  intro _ s1 ⟨hb, hq, _⟩
  exact Res.Sat.of_ok ⟨rfl, hb, hq⟩

theorem construct_args_copy_sat (E : ElemType T) {s : State T} {dst p : Ptr} {x : T}
    (hs : s.read p = some (.live x)) :
    (construct_args E dst (.copyOf p) s).Sat (s.fuse = none ∧ (s.read dst).isSome)
      (fun _ t => Wrote s t dst (.live x) ∧ Quiet s t) :=
  construct_copy_sat hs

theorem construct_args_make_sat (E : ElemType T) (s : State T) (dst : Ptr) (x : T) :
    (construct_args E dst (.make x) s).Sat (s.fuse = none ∧ (s.read dst).isSome)
      (fun _ t => Wrote s t dst (.live x) ∧ Quiet s t) := by
  unfold construct_args
  simp only
  cases hd : s.read dst with
  | none => exact Res.Sat.of_ub (by simp)
  | some z =>
    refine ((fallible_sat s).mono (fun h => h.1) (fun _ _ h => h)).seq thrown_ne_ok ?_
    intro _ s1 ⟨hb, hq, _⟩
    refine write_seq_sat _ (by rw [read_of_blocks_eq hb, hd]; rfl) ?_
    intro t hw hf _
    exact Res.Sat.of_ok ⟨hw.of_blocks_eq hb rfl, fun h => hf.trans (hq h)⟩

/-! ## Lists of slots -/

theorem length_splice {l : List α} {b : Nat} {ys : List α} (h : b + ys.length ≤ l.length) :
    (splice l b ys).length = l.length := by
  simp [splice]
  omega

theorem getElem?_splice {l : List α} {b : Nat} {ys : List α} (h : b + ys.length ≤ l.length)
    (i : Nat) :
    (splice l b ys)[i]? =
      if i < b then l[i]? else if i < b + ys.length then ys[i - b]? else l[i]? := by
  have hb : (List.take b l).length = b := by simp; omega
  simp only [splice, List.append_assoc]
  rw [List.getElem?_append, hb]
  by_cases h1 : i < b
  · simp [List.getElem?_take, h1]
  · rw [if_neg h1, if_neg h1]
    by_cases h2 : i < b + ys.length
    · rw [if_pos h2, List.getElem?_append, if_pos (by omega)]
    · rw [if_neg h2, List.getElem?_append, if_neg (by omega), List.getElem?_drop]
      congr 1
      omega

theorem splice_nil (l : List α) (b : Nat) : splice l b [] = l := by
  simp [splice]

theorem splice_set_cons {l : List α} {b : Nat} (y : α) (ys : List α) (h : b < l.length) :
    splice (l.set b y) (b + 1) ys = splice l b (y :: ys) := by
  simp only [splice, List.length_cons]
  rw [List.set_eq_take_append_cons_drop, if_pos h]
  have hb : (List.take b l).length = b := by simp; omega
  have e1 : List.take (b + 1) (List.take b l ++ y :: List.drop (b + 1) l) =
      List.take b l ++ [y] := by
    rw [List.take_append_eq_append_take, hb]
    simp
  have e2 : List.drop (b + 1 + ys.length) (List.take b l ++ y :: List.drop (b + 1) l) =
      List.drop (b + (ys.length + 1)) l := by
    rw [List.drop_append_eq_append_drop, hb]
    have : b + 1 + ys.length - b = ys.length + 1 := by omega
    rw [this, List.drop_eq_nil_of_le (by rw [hb]; omega)]
    simp
    congr 1
    omega
  rw [e1, e2]
  simp

/-! ## The standard algorithms -/

theorem destroy_n_sat (n : Nat) : ∀ (B b : Nat) (s : State T) (lb : List (Slot T)),
    s.block B = some lb → (∀ j, j < n → ∃ y, lb[b + j]? = some (.live y)) →
    (destroy_n ⟨B, b⟩ n s).Sat True
      (fun ret t => ret = ⟨B, b + n⟩ ∧ t.block B = some (splice lb b (List.replicate n Slot.raw)) ∧
        (∀ c, c ≠ B → t.block c = s.block c) ∧ t.fuse = s.fuse ∧ t.dtors = s.dtors + n) := by
  induction n with
  | zero =>
    intro B b s lb hb _
    exact Res.Sat.of_ok ⟨rfl, by simpa [splice_nil] using hb, fun _ _ => rfl, rfl, rfl⟩
  | succ n ih =>
    intro B b s lb hb hlive
    obtain ⟨y, hy⟩ := hlive 0 (by omega)
    have hr : s.read ⟨B, b⟩ = some (.live y) := by
      rw [read_of_block (p := ⟨B, b⟩) hb]; simpa using hy
    unfold destroy_n
    refine (Destroy_sat hr).seq thrown_ne_ok ?_
    rintro _ s1 ⟨⟨bl, h1, h2, h3, h4⟩, hf, hd⟩
    simp only at h1 h2 h3 h4
    rw [hb] at h1
    cases h1
    have hlive1 : ∀ j, j < n → ∃ y, (lb.set b Slot.raw)[b + 1 + j]? = some (.live y) := by
      intro j hj
      obtain ⟨y, hy⟩ := hlive (j + 1) (by omega)
      refine ⟨y, ?_⟩
      rw [List.getElem?_set_ne (by omega)]
      rw [← hy]
      congr 1
      omega
    refine (ih B (b + 1) s1 _ h3 hlive1).mono (fun h => h) ?_
    rintro ret t ⟨e1, e2, e3, e4, e5⟩
    refine ⟨by rw [e1]; congr 1; omega, ?_, fun c hc => (e3 c hc).trans (h4 c hc),
      e4.trans hf, by rw [e5, hd]; omega⟩
    rw [e2, splice_set_cons _ _ h2]
    rfl

theorem rethrow_handler_ne_ok (c : State T → Res (State T) Unit) (f : State T → State T) :
    ∀ (s : State T) (b : β) (t : State T), ((c s).rethrow f : Res (State T) β) ≠ .ok b t :=
  fun s b t => Res.rethrow_ne_ok (c s) f b t

theorem uninitialized_copy_loop_sat (d_first : Ptr) {A B : Nat} (hAB : A ≠ B) (vals : List T) :
    ∀ (a b : Nat) (s : State T) (la lb : List (Slot T)),
    s.block A = some la → s.block B = some lb →
    (∀ j x, vals[j]? = some x → la[a + j]? = some (.live x)) →
    (uninitialized_copy_loop d_first vals.length ⟨A, a⟩ ⟨B, b⟩ s).Sat
      (s.fuse = none ∧ b + vals.length ≤ lb.length)
      (fun ret t => ret = ⟨B, b + vals.length⟩ ∧ (vals = [] ∨ b + vals.length ≤ lb.length) ∧
        t.block B = some (splice lb b (vals.map Slot.live)) ∧
        (∀ c, c ≠ B → t.block c = s.block c) ∧ Quiet s t) := by
  induction vals with
  | nil =>
    intro a b s la lb _ hb _
    exact Res.Sat.of_ok ⟨rfl, Or.inl rfl, by simpa [splice_nil] using hb, fun _ _ => rfl,
      Quiet.refl s⟩
  | cons v vs ih =>
    intro a b s la lb ha hb hsrc
    have hr : s.read ⟨A, a⟩ = some (.live v) := by
      rw [read_of_block (p := ⟨A, a⟩) ha]
      simpa using hsrc 0 v (by simp)
    simp only [List.length_cons]
    unfold uninitialized_copy_loop
    refine Res.Sat.seq (Q := fun _ t => Wrote s t ⟨B, b⟩ (.live v) ∧ Quiet s t) ?_
      (rethrow_handler_ne_ok _ _) ?_
    · refine (construct_copy_sat hr).mono ?_ (fun _ _ h => h)
      rintro ⟨hq, hlen⟩
      refine ⟨hq, ?_⟩
      rw [read_of_block (p := ⟨B, b⟩) hb, List.getElem?_eq_getElem (by simp; omega)]
      rfl
    · rintro _ s1 ⟨⟨bl, h1, h2, h3, h4⟩, hq1⟩
      simp only at h1 h2 h3 h4
      rw [hb] at h1
      cases h1
      have ha1 : s1.block A = some la := by rw [h4 A hAB, ha]
      have hsrc1 : ∀ j x, vs[j]? = some x → la[a + 1 + j]? = some (.live x) := by
        intro j x hx
        have := hsrc (j + 1) x (by simpa using hx)
        rw [← this]
        congr 1
        omega
      refine (ih (a + 1) (b + 1) s1 la _ ha1 h3 hsrc1).mono ?_ ?_
      · rintro ⟨hq, hlen⟩
        exact ⟨hq1 hq, by rw [List.length_set]; omega⟩
      · rintro ret t ⟨e1, e2, e3, e4, e5⟩
        rw [List.length_set] at e2
        refine ⟨by rw [e1]; congr 1; omega, Or.inr ?_, ?_,
          fun c hc => (e4 c hc).trans (h4 c hc), hq1.trans e5⟩
        · rcases e2 with rfl | e2
          · simp; omega
          · omega
        · rw [e3, splice_set_cons _ _ h2]
          rfl

theorem uninitialized_move_loop_sat (E : ElemType T) (d_first : Ptr) {A B : Nat} (hAB : A ≠ B)
    (vals : List T) :
    ∀ (a b : Nat) (s : State T) (la lb : List (Slot T)),
    s.block A = some la → s.block B = some lb →
    (∀ j x, vals[j]? = some x → la[a + j]? = some (.live x)) →
    (uninitialized_move_loop E d_first vals.length ⟨A, a⟩ ⟨B, b⟩ s).Sat
      (s.fuse = none ∧ b + vals.length ≤ lb.length)
      (fun ret t => ret = ⟨B, b + vals.length⟩ ∧ (vals = [] ∨ b + vals.length ≤ lb.length) ∧
        t.block B = some (splice lb b (vals.map Slot.live)) ∧
        t.block A = some (splice la a (vals.map (fun x => Slot.live (E.movedFrom x)))) ∧
        (∀ c, c ≠ A → c ≠ B → t.block c = s.block c) ∧ Quiet s t) := by
  induction vals with
  | nil =>
    intro a b s la lb ha hb _
    exact Res.Sat.of_ok ⟨rfl, Or.inl rfl, by simpa [splice_nil] using hb,
      by simpa [splice_nil] using ha, fun _ _ _ => rfl, Quiet.refl s⟩
  | cons v vs ih =>
    intro a b s la lb ha hb hsrc
    have hv : la[a]? = some (.live v) := by simpa using hsrc 0 v (by simp)
    have hr : s.read ⟨A, a⟩ = some (.live v) := by
      rw [read_of_block (p := ⟨A, a⟩) ha]
      exact hv
    have hlt : a < la.length := (List.getElem?_eq_some_iff.1 hv).1
    simp only [List.length_cons]
    unfold uninitialized_move_loop
    refine Res.Sat.seq (Q := fun _ t => (∃ t1, Wrote s t1 ⟨B, b⟩ (.live v) ∧
      Wrote t1 t ⟨A, a⟩ (.live (E.movedFrom v))) ∧ Quiet s t) ?_ (rethrow_handler_ne_ok _ _) ?_
    · refine (construct_move_sat E hr).mono ?_ (fun _ _ h => h)
      rintro ⟨hq, hlen⟩
      refine ⟨hq, ?_⟩
      rw [read_of_block (p := ⟨B, b⟩) hb, List.getElem?_eq_getElem (by simp; omega)]
      rfl
    · rintro _ s1 ⟨⟨t1, ⟨bl, h1, h2, h3, h4⟩, ⟨bl2, g1, g2, g3, g4⟩⟩, hq1⟩
      simp only at h1 h2 h3 h4 g1 g2 g3 g4
      rw [hb] at h1
      cases h1
      rw [h4 A hAB, ha] at g1
      cases g1
      have hb1 : s1.block B = some (lb.set b (.live v)) := by rw [g4 B (Ne.symm hAB), h3]
      have hsrc1 : ∀ j x, vs[j]? = some x →
          (la.set a (Slot.live (E.movedFrom v)))[a + 1 + j]? = some (.live x) := by
        intro j x hx
        have := hsrc (j + 1) x (by simpa using hx)
        rw [List.getElem?_set_ne (by omega), ← this]
        congr 1
        omega
      refine (ih (a + 1) (b + 1) s1 _ _ g3 hb1 hsrc1).mono ?_ ?_
      · rintro ⟨hq, hlen⟩
        exact ⟨hq1 hq, by rw [List.length_set]; omega⟩
      · rintro ret t ⟨e1, e2, e3, e4, e5, e6⟩
        rw [List.length_set] at e2
        refine ⟨by rw [e1]; congr 1; omega, Or.inr ?_, ?_, ?_,
          fun c hcA hcB => ((e5 c hcA hcB).trans (g4 c hcA)).trans (h4 c hcB), hq1.trans e6⟩
        · rcases e2 with rfl | e2
          · simp; omega
          · omega
        · rw [e3, splice_set_cons _ _ h2]
          rfl
        · rw [e4, splice_set_cons _ _ hlt]
          rfl

theorem uninitialized_value_construct_loop_sat (E : ElemType T) (first : Ptr) (n : Nat) :
    ∀ (B b : Nat) (s : State T) (lb : List (Slot T)), s.block B = some lb →
    (uninitialized_value_construct_loop E first n ⟨B, b⟩ s).Sat
      (s.fuse = none ∧ b + n ≤ lb.length)
      (fun ret t => ret = ⟨B, b + n⟩ ∧ (n = 0 ∨ b + n ≤ lb.length) ∧
        t.block B = some (splice lb b (List.replicate n (Slot.live E.value_init))) ∧
        (∀ c, c ≠ B → t.block c = s.block c) ∧ Quiet s t) := by
  induction n with
  | zero =>
    intro B b s lb hb
    exact Res.Sat.of_ok ⟨rfl, Or.inl rfl, by simpa [splice_nil] using hb, fun _ _ => rfl,
      Quiet.refl s⟩
  | succ n ih =>
    intro B b s lb hb
    unfold uninitialized_value_construct_loop
    refine Res.Sat.seq (Q := fun _ t => Wrote s t ⟨B, b⟩ (.live E.value_init) ∧ Quiet s t) ?_
      (rethrow_handler_ne_ok _ _) ?_
    · refine (construct_value_sat E s ⟨B, b⟩).mono ?_ (fun _ _ h => h)
      rintro ⟨hq, hlen⟩
      refine ⟨hq, ?_⟩
      rw [read_of_block (p := ⟨B, b⟩) hb, List.getElem?_eq_getElem (by simp; omega)]
      rfl
    · rintro _ s1 ⟨⟨bl, h1, h2, h3, h4⟩, hq1⟩
      simp only at h1 h2 h3 h4
      rw [hb] at h1
      cases h1
      refine (ih B (b + 1) s1 _ h3).mono ?_ ?_
      · rintro ⟨hq, hlen⟩
        exact ⟨hq1 hq, by rw [List.length_set]; omega⟩
      · rintro ret t ⟨e1, e2, e3, e4, e5⟩
        rw [List.length_set] at e2
        refine ⟨by rw [e1]; congr 1; omega, Or.inr (by omega), ?_,
          fun c hc => (e4 c hc).trans (h4 c hc), hq1.trans e5⟩
        rw [e3, splice_set_cons _ _ h2]
        rfl

/-- The source block after a transfer: same length, untouched outside the
transferred range, live objects inside it. -/
theorem UninitializedMoveOrCopyN_sat (E : ElemType T) {A B : Nat} (hAB : A ≠ B) (vals : List T)
    (a b : Nat) (s : State T) (la lb : List (Slot T))
    (ha : s.block A = some la) (hb : s.block B = some lb)
    (hsrc : ∀ j x, vals[j]? = some x → la[a + j]? = some (.live x)) :
    (UninitializedMoveOrCopyN E ⟨A, a⟩ vals.length ⟨B, b⟩ s).Sat
      (s.fuse = none ∧ b + vals.length ≤ lb.length)
      (fun _ t => (vals = [] ∨ b + vals.length ≤ lb.length) ∧
        t.block B = some (splice lb b (vals.map Slot.live)) ∧
        (∃ la1, t.block A = some la1 ∧ la1.length = la.length ∧
          (∀ i, i < a ∨ a + vals.length ≤ i → la1[i]? = la[i]?) ∧
          (∀ i, a ≤ i → i < a + vals.length → ∃ y, la1[i]? = some (.live y))) ∧
        (∀ c, c ≠ A → c ≠ B → t.block c = s.block c) ∧ Quiet s t) := by
  have hbound : vals = [] ∨ a + vals.length ≤ la.length := by
    cases hv : vals.getLast? with
    | none => left; simpa using hv
    | some x =>
      right
      have hne : vals ≠ [] := by rintro rfl; simp at hv
      have hpos : 0 < vals.length := List.length_pos.2 hne
      have : vals[vals.length - 1]? = some x := by
        rw [← hv, List.getLast?_eq_getElem?]
      have := (List.getElem?_eq_some_iff.1 (hsrc _ x this)).1
      omega
  unfold UninitializedMoveOrCopyN
  split
  · refine Res.Sat.seq (uninitialized_move_loop_sat E _ hAB vals a b s la lb ha hb hsrc)
      thrown_ne_ok ?_
    rintro ret t ⟨_, e2, e3, e4, e5, e6⟩
    refine Res.Sat.of_ok ⟨e2, e3, ⟨_, e4, ?_, ?_, ?_⟩, e5, e6⟩
    · rcases hbound with rfl | hbound
      · simp [splice_nil]
      · exact length_splice (by simpa using hbound)
    · intro i hi
      rcases hbound with rfl | hbound
      · simp [splice_nil]
      · rw [getElem?_splice (by simpa using hbound)]
        simp only [List.length_map]
        split_ifs <;> first | rfl | omega
    · intro i h1 h2
      have hbound : a + vals.length ≤ la.length := by
        rcases hbound with rfl | hbound
        · simp at h2; omega
        · exact hbound
      rw [getElem?_splice (by simpa using hbound)]
      simp only [List.length_map]
      rw [if_neg (by omega), if_pos h2, List.getElem?_map,
        List.getElem?_eq_getElem (by omega)]
      exact ⟨_, rfl⟩
  · refine Res.Sat.seq (uninitialized_copy_loop_sat _ hAB vals a b s la lb ha hb hsrc)
      thrown_ne_ok ?_
    rintro ret t ⟨_, e2, e3, e4, e5⟩
    refine Res.Sat.of_ok ⟨e2, e3, ⟨la, (e4 A hAB).trans ha, rfl, fun _ _ => rfl, ?_⟩,
      fun c _ hc => e4 c hc, e5⟩
    intro i h1 h2
    have hlt : i - a < vals.length := by omega
    have := hsrc (i - a) _ (List.getElem?_eq_getElem hlt)
    refine ⟨vals[i - a], ?_⟩
    rw [← this]
    congr 1
    omega

/-! ## The allocation request -/

/-- The block obtained for `n` objects never has room for more than `n`. -/
theorem ElemType.slots_le (E : ElemType T) (n : Nat) : E.slots n ≤ n := by
  unfold ElemType.slots ElemType.request
  by_cases h0 : E.sizeof = 0
  · rw [h0, Nat.div_zero]
    exact Nat.zero_le n
  · calc n * E.sizeof % SIZE_T_MOD / E.sizeof ≤ n * E.sizeof / E.sizeof :=
          Nat.div_le_div_right (Nat.mod_le _ _)
      _ = n := Nat.mul_div_cancel n (Nat.pos_of_ne_zero h0)

/-- A request fits exactly when it is for no object, or the type has a size
and the product `n * sizeof(T)` is below `2 ^ 64`. -/
theorem ElemType.fits_iff (E : ElemType T) (n : Nat) :
    E.fits n ↔ n = 0 ∨ (0 < E.sizeof ∧ n * E.sizeof < SIZE_T_MOD) := by
  unfold ElemType.fits ElemType.slots ElemType.request
  constructor
  · intro h
    by_cases hn : n = 0
    · exact Or.inl hn
    · right
      have h0 : 0 < E.sizeof := by
        rcases Nat.eq_zero_or_pos E.sizeof with h0 | h0
        · rw [h0, Nat.div_zero] at h
          exact absurd h.symm hn
        · exact h0
      refine ⟨h0, ?_⟩
      by_contra hge
      have hM : 0 < SIZE_T_MOD := by decide
      have hlt : n * E.sizeof % SIZE_T_MOD < n * E.sizeof :=
        Nat.lt_of_lt_of_le (Nat.mod_lt _ hM) (Nat.le_of_not_lt hge)
      have : n * E.sizeof % SIZE_T_MOD / E.sizeof < n :=
        (Nat.div_lt_iff_lt_mul h0).2 hlt
      omega
  · rintro (rfl | ⟨h0, h⟩)
    · simp
    · rw [Nat.mod_eq_of_lt h]
      exact Nat.mul_div_cancel n h0

/-- A request that fits is for a number of slots that is a `size_t` value. -/
theorem ElemType.lt_of_fits (E : ElemType T) {n : Nat} (h : E.fits n) : n < SIZE_T_MOD := by
  rcases (E.fits_iff n).1 h with rfl | ⟨h0, h1⟩
  · decide
  · exact Nat.lt_of_le_of_lt (Nat.le_mul_of_pos_right n h0) h1

/-- A request that does not fit: with `sizeof(T) = 4` the call
`Allocate(2 ^ 62 + 1)` asks `operator new` for 4 bytes, room for one object. -/
theorem ElemType.slots_wrapped :
    intElem.request (2 ^ 62 + 1) = 4 ∧ intElem.slots (2 ^ 62 + 1) = 1 ∧
      ¬ intElem.fits (2 ^ 62 + 1) := by
  decide

/-! ## `RawMemory` -/

theorem Ptr.eta (p : Ptr) : (⟨p.blk, p.off⟩ : Ptr) = p := rfl

theorem operator_new_sat (room : Nat) (s : State T) :
    (operator_new room s).Sat (s.fuse = none)
      (fun p t => p.off = 0 ∧ s.block p.blk = none ∧
        t.block p.blk = some (List.replicate room Slot.raw) ∧
        (∀ c, c ≠ p.blk → t.block c = s.block c) ∧ Quiet s t) := by
  unfold operator_new
  refine Res.Sat.seq (fallible_sat s) thrown_ne_ok ?_
  rintro _ s1 ⟨hb, hq, _⟩
  refine Res.Sat.of_ok ⟨rfl, ?_, ?_, ?_, hq⟩
  · simp [State.block, ← hb]
  · simp [State.block]
  · intro c hc
    simp only at hc
    simp only [State.block, ← hb]
    by_cases hc0 : c = 0
    · simp [hc0]
    · simp only [hc0, if_false]
      by_cases hlt : c - 1 < s1.blocks.length
      · rw [List.getElem?_append_left hlt]
      · rw [List.getElem?_eq_none (by simp; omega), List.getElem?_eq_none (by omega)]

theorem RawMemory_ctor_sat (E : ElemType T) (n : Nat) (s : State T) :
    (RawMemory.ctor E n s).Sat (s.fuse = none)
      (fun m t => m.capacity_ = n ∧ m.buffer_.off = 0 ∧ (n = 0 → m.buffer_ = nullptr) ∧
        (n ≠ 0 → s.block m.buffer_.blk = none) ∧
        t.block m.buffer_.blk = some (List.replicate (E.slots n) Slot.raw) ∧
        (∀ c, c ≠ m.buffer_.blk → t.block c = s.block c) ∧ Quiet s t) := by
  unfold RawMemory.ctor
  refine Res.Sat.seq (Q := fun p t => p.off = 0 ∧ (n = 0 → p = nullptr) ∧
      (n ≠ 0 → s.block p.blk = none) ∧
      t.block p.blk = some (List.replicate (E.slots n) Slot.raw) ∧
      (∀ c, c ≠ p.blk → t.block c = s.block c) ∧ Quiet s t) ?_ thrown_ne_ok
    (fun p t h => Res.Sat.of_ok ⟨rfl, h⟩)
  unfold RawMemory.Allocate
  split
  · rename_i hn
    refine (operator_new_sat (E.slots n) s).mono (fun hq => hq) ?_
    rintro p t ⟨h1, h2, h3, h4, h5⟩
    exact ⟨h1, fun h => absurd h hn, fun _ => h2, h3, h4, h5⟩
  · rename_i hn
    have hn : n = 0 := by simpa using hn
    subst hn
    have h0 : E.slots 0 = 0 := Nat.le_zero.1 (E.slots_le 0)
    rw [h0]
    exact Res.Sat.of_ok ⟨rfl, fun _ => rfl, fun h => absurd rfl h, block_zero s,
      fun _ _ => rfl, Quiet.refl s⟩

theorem RawMemory_ctor_live_sat (n : Nat) (s : State T) :
    (RawMemory.ctor_live n s).Sat (s.fuse = none)
      (fun m t => m.capacity_ = n ∧ m.buffer_.off = 0 ∧ (n = 0 → m.buffer_ = nullptr) ∧
        (n ≠ 0 → s.block m.buffer_.blk = none) ∧
        t.block m.buffer_.blk = some (List.replicate n Slot.raw) ∧
        (∀ c, c ≠ m.buffer_.blk → t.block c = s.block c) ∧ Quiet s t) := by
  unfold RawMemory.ctor_live
  refine Res.Sat.seq (Q := fun p t => p.off = 0 ∧ (n = 0 → p = nullptr) ∧
      (n ≠ 0 → s.block p.blk = none) ∧ t.block p.blk = some (List.replicate n Slot.raw) ∧
      (∀ c, c ≠ p.blk → t.block c = s.block c) ∧ Quiet s t) ?_ thrown_ne_ok
    (fun p t h => Res.Sat.of_ok ⟨rfl, h⟩)
  unfold RawMemory.Allocate_live
  split
  · rename_i hn
    refine (operator_new_sat n s).mono (fun hq => hq) ?_
    rintro p t ⟨h1, h2, h3, h4, h5⟩
    exact ⟨h1, fun h => absurd h hn, fun _ => h2, h3, h4, h5⟩
  · rename_i hn
    have hn : n = 0 := by simpa using hn
    subst hn
    exact Res.Sat.of_ok ⟨rfl, fun _ => rfl, fun h => absurd rfl h, block_zero s,
      fun _ _ => rfl, Quiet.refl s⟩

/-- For a request that fits, the constructor is the one of the live call sites. -/
theorem RawMemory_ctor_of_fits (E : ElemType T) {n : Nat} (h : E.fits n) (s : State T) :
    RawMemory.ctor E n s = RawMemory.ctor_live n s := by
  unfold RawMemory.ctor RawMemory.ctor_live RawMemory.Allocate RawMemory.Allocate_live
  rw [show E.slots n = n from h]

theorem RawMemory_dtor_sat (m : RawMemory) (s : State T) (hoff : m.buffer_.off = 0)
    (hb : (s.block m.buffer_.blk).isSome) :
    (m.dtor s).Sat True
      (fun _ t => (∀ c, c ≠ m.buffer_.blk → t.block c = s.block c) ∧ t.fuse = s.fuse ∧
        t.dtors = s.dtors) := by
  unfold RawMemory.dtor RawMemory.Deallocate
  split
  · exact Res.Sat.of_ok ⟨fun _ _ => rfl, rfl, rfl⟩
  · rename_i hne
    have hblk : m.buffer_.blk ≠ 0 := by
      intro h0
      apply hne
      rw [← Ptr.eta m.buffer_, h0, hoff]
      rfl
    rw [if_pos ⟨hoff, hblk, hb⟩]
    refine Res.Sat.of_ok ⟨fun c hc => ?_, rfl, rfl⟩
    simp only [State.block]
    by_cases hc0 : c = 0
    · simp [hc0]
    · simp only [hc0, if_false]
      rw [List.getElem?_set_ne (by omega)]

/-! ## The abstraction -/

theorem length_slotsOf {xs : List T} {cap : Nat} (h : xs.length ≤ cap) :
    (slotsOf xs cap).length = cap := by
  simp [slotsOf]
  omega

theorem slotsOf_room {xs : List T} {a b : Nat} (ha : xs.length ≤ a) (hb : xs.length ≤ b)
    (h : slotsOf xs a = slotsOf xs b) : a = b := by
  have := congrArg List.length h
  rwa [length_slotsOf ha, length_slotsOf hb] at this

theorem getElem?_slotsOf_live {xs : List T} {cap j : Nat} {x : T} (h : xs[j]? = some x) :
    (slotsOf xs cap)[j]? = some (.live x) := by
  have hlt : j < xs.length := (List.getElem?_eq_some_iff.1 h).1
  rw [slotsOf, List.getElem?_append, if_pos (by simpa using hlt), List.getElem?_map, h]
  rfl

theorem getElem?_slotsOf (xs : List T) (cap j : Nat) :
    (slotsOf xs cap)[j]? =
      if j < xs.length then xs[j]?.map Slot.live
      else if j < cap then some Slot.raw else none := by
  simp only [slotsOf, List.getElem?_append, List.length_map, List.getElem?_map,
    List.getElem?_replicate]
  split_ifs <;> first | rfl | omega

theorem splice_replicate_zero (xs : List T) (n : Nat) :
    splice (List.replicate n Slot.raw) 0 (xs.map Slot.live) = slotsOf xs n := by
  simp [splice, slotsOf]

theorem Vector.Holds.begin_eq {s : State T} {v : Vector} {xs : List T} (h : v.Holds s xs) :
    v.data_.buffer_ = ⟨v.data_.buffer_.blk, 0⟩ := by
  rw [← h.1]

theorem Vector.Holds.isSome_block {s : State T} {v : Vector} {xs : List T} (h : v.Holds s xs) :
    (s.block v.data_.buffer_.blk).isSome := by
  rw [h.2.2.2.2.2.2]; rfl


/-! ## `Vector::Reserve` -/

theorem unwind_new_data_ne_ok (v : Vector) (m : RawMemory) :
    ∀ (s : State T) (b : β) (t : Vector × State T), unwind_new_data v m s ≠ .ok b t :=
  fun _ b t => Res.rethrow_ne_ok _ _ b t

theorem Frame.same (s : State T) (A : Nat) : Frame s s A := fun _ _ _ => rfl

theorem Vector.Holds.stores {s : State T} {v : Vector} {xs : List T} (h : v.Holds s xs) :
    v.Stores s xs :=
  ⟨h.1, h.2.2.2.1, v.capacity_, by rw [← h.2.2.2.1]; exact h.2.2.2.2.1, h.2.2.2.2.2.2⟩

theorem Reserve_sat (E : ElemType T) {s : State T} {v : Vector} {xs : List T}
    (h : v.Holds s xs) (n : Nat) (hn : n < SIZE_T_MOD) :
    (v.Reserve E n s).Sat (s.fuse = none ∧ (v.capacity_ < n → xs.length ≤ E.slots n))
      (fun _ vs => vs.1.Stores vs.2 xs ∧ vs.1.size_ = v.size_ ∧
        ((v.capacity_ < n → E.fits n) → vs.1.Holds vs.2 xs) ∧
        vs.1.capacity_ = max v.capacity_ n ∧
        (n ≤ v.capacity_ → vs = (v, s)) ∧
        (v.capacity_ < n → s.block vs.1.data_.buffer_.blk = none) ∧
        Frame s vs.2 v.data_.buffer_.blk ∧ Quiet s vs.2 ∧
        (v.capacity_ < n → xs.length ≤ E.slots n ∧
          vs.2.block vs.1.data_.buffer_.blk = some (slotsOf xs (E.slots n)))) := by
  obtain ⟨hoff, hnull, hcap, hsize, hle, hlt, hblk⟩ := id h
  unfold Vector.Reserve
  split
  · rename_i hge
    exact Res.Sat.of_ok ⟨h.stores, rfl, fun _ => h, by simp only; omega, fun _ => rfl,
      fun hlt => absurd hlt (by omega), Frame.same s _, Quiet.refl s,
      fun hlt => absurd hlt (by omega)⟩
  · rename_i hgt
    have hgt1 : v.capacity_ < n := by omega
    have hn0 : n ≠ 0 := by omega
    refine Res.Sat.seq ((RawMemory_ctor_sat E n s).mono (fun hq => hq.1) (fun _ _ h => h))
      (by intro s b t e; cases e) ?_
    rintro m s1 ⟨m1, m2, m3, m4, m5, m6, m7⟩
    have hAB : v.data_.buffer_.blk ≠ m.buffer_.blk := by
      intro e
      rw [← e, hblk] at m4
      exact absurd (m4 hn0) (by simp)
    have ha1 : s1.block v.data_.buffer_.blk = some (slotsOf xs v.capacity_) := by
      rw [m6 _ hAB, hblk]
    have e1 : v.data_.GetAddress = ⟨v.data_.buffer_.blk, 0⟩ := h.begin_eq
    have e2 : m.GetAddress = ⟨m.buffer_.blk, 0⟩ := by
      show m.buffer_ = _
      rw [← m2]
    rw [e1, e2, hsize]
    refine Res.Sat.seq ((UninitializedMoveOrCopyN_sat E hAB xs 0 0 s1 _ _ ha1 m5
      (fun j x hx => by rw [Nat.zero_add]; exact getElem?_slotsOf_live hx)).mono ?_
      (fun _ _ h => h)) (unwind_new_data_ne_ok v m) ?_
    · intro hq
      refine ⟨m7 hq.1, ?_⟩
      have := hq.2 hgt1
      simp only [List.length_replicate]
      omega
    · rintro _ s2 ⟨tb, t2, ⟨la1, t3, t4, t5, t6⟩, t7, t8⟩
      have hroom : xs.length ≤ E.slots n := by
        rcases tb with rfl | tb
        · exact Nat.zero_le _
        · simp only [List.length_replicate] at tb
          omega
      simp only [RawMemory.Swap, RawMemory.GetAddress]
      rw [h.begin_eq]
      refine Res.Sat.seq (Q := fun _ t => (∀ c, c ≠ v.data_.buffer_.blk → t.block c = s2.block c) ∧
        (t.block v.data_.buffer_.blk).isSome ∧ t.fuse = s2.fuse)
        ((destroy_n_sat xs.length _ 0 s2 la1 t3 (fun j hj => t6 (0 + j) (by omega)
          (by omega))).mono (fun _ => trivial) ?_) (by intro s b t e; cases e) ?_
      · rintro _ t ⟨_, d2, d3, d4, _⟩
        exact ⟨d3, by rw [d2]; rfl, d4⟩
      · rintro _ s3 ⟨d1, d2, d3⟩
        refine Res.Sat.seq ((RawMemory_dtor_sat ⟨⟨v.data_.buffer_.blk, 0⟩, v.data_.capacity_⟩
          s3 rfl d2).mono (fun _ => trivial) (fun _ _ h => h)) (by intro s b t e; cases e) ?_
        rintro _ s4 ⟨f1, f2, _⟩
        simp only at f1
        have hB : s4.block m.buffer_.blk = some (slotsOf xs (E.slots n)) := by
          rw [f1 _ (Ne.symm hAB), d1 _ (Ne.symm hAB), t2, splice_replicate_zero]
        refine Res.Sat.of_ok ⟨⟨m2, rfl, E.slots n, hroom, hB⟩, rfl, fun hf => ?_,
          by simp only; omega, fun hle => absurd hle (by omega), fun _ => m4 hn0, ?_, ?_,
          fun _ => ⟨hroom, hB⟩⟩
        · have hfit : E.slots n = n := hf hgt1
          rw [hfit] at hB
          exact ⟨m2, fun h0 => absurd h0 hn0, m1, rfl, (by show xs.length ≤ n; omega), hn, hB⟩
        · intro c hc hs
          have hcB : c ≠ m.buffer_.blk := by
            rintro rfl
            rw [m4 hn0] at hs
            cases hs
          rw [f1 c hc, d1 c hc, t7 c hc hcB, m6 c hcB]
        · intro hq
          rw [f2, d3]
          exact t8 (m7 hq)

/-- A request that does not fit, on the empty vector: with `sizeof(T) = 4` the
call `Reserve(2 ^ 62 + 1)` returns normally with `Capacity() = 2 ^ 62 + 1` on a
block with room for one object. -/
theorem Reserve_wrapped_request :
    ∃ v1 s1, Vector.ctor_default.Reserve intElem (2 ^ 62 + 1) fullState = .ok () (v1, s1) ∧
      v1.Size = 0 ∧ v1.Capacity = 2 ^ 62 + 1 ∧ v1.Stores s1 [] ∧
      s1.block v1.data_.buffer_.blk = some [Slot.raw] ∧ ¬ v1.Holds s1 [] :=
  ⟨_, _, rfl, rfl, rfl, ⟨rfl, rfl, 1, by decide, rfl⟩, rfl, by decide⟩

/-! ## Construction from arguments -/

theorem read_live_of_match {s : State T} {p : Ptr} {x : T}
    (h : (match s.read p with
      | some (.live x) => some x
      | _ => none) = some x) : s.read p = some (.live x) := by
  split at h
  · rename_i y hy
    cases h
    exact hy
  · cases h

theorem Args.writes_of_not_inBlock {args : Args T} {c : Nat} (h : ¬ args.inBlock c) :
    ¬ args.writes c := by
  cases args <;> simp_all [Args.writes, Args.inBlock]

theorem construct_args_sat (E : ElemType T) {s : State T} {dst : Ptr} {args : Args T} {x : T}
    (hv : args.value s = some x) (hw : ¬ args.writes dst.blk) :
    (construct_args E dst args s).Sat (s.fuse = none ∧ (s.read dst).isSome)
      (fun _ t => ∃ bl, s.block dst.blk = some bl ∧ dst.off < bl.length ∧
        t.block dst.blk = some (bl.set dst.off (.live x)) ∧
        (∀ c, c ≠ dst.blk → ¬ args.writes c → t.block c = s.block c) ∧ Quiet s t) := by
  cases args with
  | copyOf p =>
    refine (construct_copy_sat (read_live_of_match hv)).mono (fun h => h) ?_
    rintro _ t ⟨⟨bl, h1, h2, h3, h4⟩, hq⟩
    exact ⟨bl, h1, h2, h3, fun c hc _ => h4 c hc, hq⟩
  | moveOf p =>
    refine (construct_move_sat E (read_live_of_match hv)).mono (fun h => h) ?_
    rintro _ t ⟨⟨t1, ⟨bl, h1, h2, h3, h4⟩, ⟨bl2, g1, g2, g3, g4⟩⟩, hq⟩
    have hne : dst.blk ≠ p.blk := fun e => hw e.symm
    refine ⟨bl, h1, h2, (g4 _ hne).trans h3, fun c hc hcw => ?_, hq⟩
    have hcp : c ≠ p.blk := fun e => hcw e.symm
    rw [g4 c hcp, h4 c hc]
  | make y =>
    simp only [Args.value, Option.some.injEq] at hv
    subst hv
    refine (construct_args_make_sat E s dst y).mono (fun h => h) ?_
    rintro _ t ⟨⟨bl, h1, h2, h3, h4⟩, hq⟩
    exact ⟨bl, h1, h2, h3, fun c hc _ => h4 c hc, hq⟩

theorem local_construct_sat (E : ElemType T) {s : State T} {args : Args T} {x : T}
    (hv : args.value s = some x) :
    (local_construct E args s).Sat (s.fuse = none)
      (fun temp t => temp = x ∧ (∀ c, ¬ args.writes c → t.block c = s.block c) ∧ Quiet s t) := by
  cases args with
  | copyOf p =>
    refine (local_construct_copy_sat E (read_live_of_match hv)).mono (fun h => h) ?_
    rintro _ t ⟨h1, h2, h3⟩
    exact ⟨h1, fun c _ => block_of_blocks_eq h2 c, h3⟩
  | moveOf p =>
    have hr := read_live_of_match hv
    unfold local_construct
    simp only [hr]
    refine (fallibleUnless_sat _ s).seq thrown_ne_ok ?_
    intro _ s1 ⟨hb, hq, _⟩
    refine write_seq_sat _ (by rw [read_of_blocks_eq hb, hr]; rfl) ?_
    intro t hw hf _
    refine Res.Sat.of_ok ⟨rfl, fun c hc => ?_, fun h => hf.trans (hq h)⟩
    obtain ⟨bl, _, _, _, h4⟩ := hw
    have hcp : c ≠ p.blk := fun e => hc e.symm
    show t.block c = s.block c
    rw [h4 c hcp, block_of_blocks_eq hb]
  | make y =>
    simp only [Args.value, Option.some.injEq] at hv
    subst hv
    refine (local_construct_make_sat E s y).mono (fun h => h) ?_
    rintro _ t ⟨h1, h2, h3⟩
    exact ⟨h1, fun c _ => block_of_blocks_eq h2 c, h3⟩

/-! ## Layout of the new block after a reallocating insertion -/

theorem getElem?_insert (xs : List T) (k : Nat) (x : T) (hk : k ≤ xs.length) (i : Nat) :
    (xs.take k ++ [x] ++ xs.drop k)[i]? =
      if i < k then xs[i]? else if i = k then some x else xs[i - 1]? := by
  have hl : (List.take k xs).length = k := by simp; omega
  rw [List.append_assoc, List.getElem?_append, hl]
  by_cases h1 : i < k
  · simp [h1, List.getElem?_take]
  · rw [if_neg h1, if_neg h1]
    by_cases h2 : i = k
    · simp [h2]
    · rw [if_neg h2]
      have : i - k = (i - k - 1) + 1 := by omega
      rw [this]
      simp only [List.singleton_append, List.getElem?_cons_succ, List.getElem?_drop]
      congr 1
      omega

theorem length_insert (xs : List T) (k : Nat) (x : T) (hk : k ≤ xs.length) :
    (xs.take k ++ [x] ++ xs.drop k).length = xs.length + 1 := by
  simp
  omega

theorem realloc_layout (xs : List T) (k c : Nat) (x : T) (hk : k ≤ xs.length)
    (hc : xs.length < c) :
    splice (splice ((List.replicate c Slot.raw).set k (.live x)) 0 ((xs.take k).map Slot.live))
      (k + 1) ((xs.drop k).map Slot.live) = slotsOf (xs.take k ++ [x] ++ xs.drop k) c := by
  have hl1 : (List.take k xs).length = k := by simp; omega
  have hl2 : (List.drop k xs).length = xs.length - k := by simp
  have b1 : 0 + ((xs.take k).map Slot.live).length ≤
      ((List.replicate c (Slot.raw : Slot T)).set k (.live x)).length := by
    simp; omega
  have b2 : k + 1 + ((xs.drop k).map Slot.live).length ≤
      (splice ((List.replicate c Slot.raw).set k (.live x)) 0
        ((xs.take k).map Slot.live)).length := by
    rw [length_splice b1]; simp; omega
  apply List.ext_getElem?
  intro i
  rw [getElem?_splice b2, getElem?_splice b1, getElem?_slotsOf, length_insert _ _ _ hk,
    getElem?_insert _ _ _ hk]
  simp only [List.length_map, hl1, hl2, List.getElem?_map, List.getElem?_take,
    List.getElem?_drop, List.getElem?_set, List.getElem?_replicate, List.length_replicate,
    Nat.zero_add, Nat.sub_zero, Nat.not_lt_zero, if_false]
  by_cases h1 : i < k
  · have : i < k + 1 := by omega
    have h3 : i < xs.length + 1 := by omega
    simp [h1, this, h3]
  · by_cases h2 : i = k
    · subst h2
      have h3 : i < c := by omega
      have h4 : i < xs.length + 1 := by omega
      simp [h3, h4]
    · have h3 : ¬ i < k + 1 := by omega
      have h4 : k ≠ i := fun e => h2 e.symm
      simp only [h1, h2, h3, h4, if_false]
      by_cases h5 : i < k + 1 + (xs.length - k)
      · have h6 : i < xs.length + 1 := by omega
        have h7 : k + (i - (k + 1)) = i - 1 := by omega
        simp [h5, h6, h7]
      · have h6 : ¬ i < xs.length + 1 := by omega
        simp [h5, h6]

/-! ## `Vector::EmplaceBack` -/

theorem realloc_layout_end (xs : List T) (cap : Nat) (x : T) (h : xs.length < cap) :
    splice ((List.replicate cap Slot.raw).set xs.length (.live x)) 0 (xs.map Slot.live) =
      slotsOf (xs ++ [x]) cap := by
  have := realloc_layout xs xs.length cap x (Nat.le_refl _) h
  simpa only [List.take_length, List.drop_length, List.map_nil, splice_nil,
    List.append_nil] using this

theorem slotsOf_set_end (xs : List T) (cap : Nat) (x : T) (h : xs.length < cap) :
    (slotsOf xs cap).set xs.length (.live x) = slotsOf (xs ++ [x]) cap := by
  apply List.ext_getElem?
  intro i
  rw [List.getElem?_set, getElem?_slotsOf, getElem?_slotsOf, length_slotsOf (by omega)]
  simp only [List.length_append, List.length_singleton, List.getElem?_append,
    List.getElem?_map]
  by_cases h1 : i < xs.length
  · have h2 : xs.length ≠ i := by omega
    have h3 : i < xs.length + 1 := by omega
    simp [h1, h2, h3]
  · by_cases h2 : xs.length = i
    · subst h2
      simp [h]
    · have h3 : ¬ i < xs.length + 1 := by omega
      simp [h1, h2, h3]

theorem grow_capacity {size c : Nat} (hs : size < SIZE_T_MOD)
    (hc : c = if size ≠ 0 then (size * 2) % SIZE_T_MOD else 1) (hlt : size < c) :
    c = max 1 (2 * size) ∧ c < SIZE_T_MOD ∧ c ≠ 0 := by
  unfold SIZE_T_MOD at *
  split at hc <;> omega

theorem grow_capacity_pos {size c : Nat} (hs : 2 * size < SIZE_T_MOD)
    (hc : c = if size ≠ 0 then (size * 2) % SIZE_T_MOD else 1) : size < c := by
  unfold SIZE_T_MOD at *
  split at hc <;> omega

theorem Vector.Holds.read_end {s : State T} {v : Vector} {xs : List T} (h : v.Holds s xs)
    (hlt : v.size_ < v.capacity_) : (s.read ⟨v.data_.buffer_.blk, xs.length⟩).isSome := by
  obtain ⟨hoff, hnull, hcap, hsize, hle, hlt', hblk⟩ := h
  have hlen := @length_slotsOf _ xs v.capacity_ (by omega)
  rw [read_of_block (p := ⟨v.data_.buffer_.blk, xs.length⟩) hblk,
    List.getElem?_eq_getElem (show xs.length < _ by rw [hlen]; omega)]
  rfl

theorem fresh_of_ctor {s : State T} {m : RawMemory} {n : Nat}
    (h0 : n = 0 → m.buffer_ = nullptr) (hf : n ≠ 0 → s.block m.buffer_.blk = none)
    {c : Nat} {bl : List (Slot T)} {i : Nat} (hc : s.block c = some bl) (hi : i < bl.length) :
    c ≠ m.buffer_.blk := by
  rintro rfl
  by_cases hn : n = 0
  · have := (block_ne_nil_blk hc hi).1
    rw [h0 hn] at this
    exact this rfl
  · rw [hf hn] at hc
    cases hc

theorem read_fresh {s s1 : State T} {B : Nat}
    (hfresh : ∀ (c : Nat) (bl : List (Slot T)) (i : Nat), s.block c = some bl → i < bl.length →
      c ≠ B)
    (hframe : ∀ c, c ≠ B → s1.block c = s.block c) {p : Ptr} {y : Slot T}
    (hp : s.read p = some y) : s1.read p = some y ∧ p.blk ≠ B := by
  obtain ⟨bl, h1, h2, h3⟩ := read_eq_some hp
  have hne := hfresh _ _ _ h1 h2
  refine ⟨?_, hne⟩
  rw [read_of_block (hframe _ hne ▸ h1), h3]

theorem Args.value_fresh {s s1 : State T} {B : Nat} {args : Args T} {x : T}
    (hfresh : ∀ (c : Nat) (bl : List (Slot T)) (i : Nat), s.block c = some bl → i < bl.length →
      c ≠ B)
    (hframe : ∀ c, c ≠ B → s1.block c = s.block c) (hv : args.value s = some x) :
    args.value s1 = some x ∧ ¬ args.writes B := by
  cases args with
  | copyOf p =>
    have hr := read_live_of_match hv
    simp [Args.value, (read_fresh hfresh hframe hr).1, Args.writes]
  | moveOf p =>
    have hr := read_live_of_match hv
    simp only [Args.value, (read_fresh hfresh hframe hr).1, Args.writes, true_and]
    exact (read_fresh hfresh hframe hr).2
  | make y =>
    exact ⟨hv, fun h => h⟩

/-- Destroying the old elements and freeing the old buffer after a reallocation. -/
theorem release_old_sat {τ : Type} {A n cap : Nat} {s2 : State T} {la1 : List (Slot T)}
    {q : Prop} {R : β → τ → Prop} (k : State T → Res τ β)
    (hA : s2.block A = some la1) (hlive : ∀ j, j < n → ∃ y, la1[j]? = some (.live y))
    (hk : ∀ s4, (∀ c, c ≠ A → s4.block c = s2.block c) → s4.fuse = s2.fuse → (k s4).Sat q R) :
    ((destroy_n ⟨A, 0⟩ n s2).seq (fun _ => Res.ub) fun _ s =>
      ((⟨⟨A, 0⟩, cap⟩ : RawMemory).dtor s).seq (fun _ => Res.ub) fun _ s => k s).Sat q R := by
  refine Res.Sat.seq (Q := fun _ t => (∀ c, c ≠ A → t.block c = s2.block c) ∧
    (t.block A).isSome ∧ t.fuse = s2.fuse)
    ((destroy_n_sat n A 0 s2 la1 hA (fun j hj => by
      simpa using hlive j hj)).mono (fun _ => trivial) ?_) (by intro s b t e; cases e) ?_
  · rintro _ t ⟨_, d2, d3, d4, _⟩
    exact ⟨d3, by rw [d2]; rfl, d4⟩
  · rintro _ s3 ⟨d1, d2, d3⟩
    refine Res.Sat.seq ((RawMemory_dtor_sat ⟨⟨A, 0⟩, cap⟩ s3 rfl d2).mono (fun _ => trivial)
      (fun _ _ h => h)) (by intro s b t e; cases e) ?_
    rintro _ s4 ⟨f1, f2, _⟩
    exact hk s4 (fun c hc => (f1 c hc).trans (d1 c hc)) (f2.trans d3)

theorem EmplaceBack_sat (E : ElemType T) {s : State T} {v : Vector} {xs : List T}
    {args : Args T} {x : T} (h : v.Holds s xs) (hv : args.value s = some x)
    (hw : ¬ args.writes v.data_.buffer_.blk) :
    (v.EmplaceBack E args s).Sat
      (s.fuse = none ∧ (v.size_ = v.capacity_ → 2 * v.size_ < SIZE_T_MOD))
      (fun ret vs => vs.1.Holds vs.2 (xs ++ [x]) ∧ ret = ⟨vs.1.data_.buffer_.blk, xs.length⟩ ∧
        vs.1.capacity_ = (if v.size_ = v.capacity_ then max 1 (2 * v.capacity_)
          else v.capacity_) ∧
        (v.size_ < v.capacity_ → vs.1.data_ = v.data_) ∧
        FrameArgs s vs.2 v.data_.buffer_.blk args ∧ Quiet s vs.2) := by
  obtain ⟨hoff, hnull, hcap, hsize, hle, hlt, hblk⟩ := id h
  unfold Vector.EmplaceBack
  refine Res.Sat.seq (Q := fun _ vs => vs.1.size_ = xs.length ∧ vs.1.data_.buffer_.off = 0 ∧
    vs.1.data_.capacity_ = vs.1.capacity_ ∧ xs.length < vs.1.capacity_ ∧
    vs.1.capacity_ < SIZE_T_MOD ∧
    vs.2.block vs.1.data_.buffer_.blk = some (slotsOf (xs ++ [x]) vs.1.capacity_) ∧
    vs.1.capacity_ = (if v.size_ = v.capacity_ then max 1 (2 * v.capacity_)
          else v.capacity_) ∧ (v.size_ < v.capacity_ → vs.1.data_ = v.data_) ∧
    FrameArgs s vs.2 v.data_.buffer_.blk args ∧ Quiet s vs.2) ?_ thrown_ne_ok ?_
  · split
    · rename_i hfull
      simp only
      generalize hc : (if v.size_ ≠ 0 then v.size_ * 2 % SIZE_T_MOD else 1) = c
      refine Res.Sat.seq ((RawMemory_ctor_live_sat c s).mono (fun h => h.1) (fun _ _ h => h))
        (by intro s b t e; cases e) ?_
      rintro m s1 ⟨m1, m2, m3, m4, m5, m6, m7⟩
      have hfresh := fun (c' : Nat) (bl : List (Slot T)) (i : Nat) =>
        @fresh_of_ctor _ _ _ _ m3 m4 c' bl i
      obtain ⟨hv1, hwB⟩ := Args.value_fresh hfresh m6 hv
      have e2 : m.GetAddress.add v.size_ = ⟨m.buffer_.blk, xs.length⟩ := by
        simp only [RawMemory.GetAddress, Ptr.add, m2, hsize, Nat.zero_add]
      rw [e2]
      refine Res.Sat.seq ((@construct_args_sat _ E _ ⟨m.buffer_.blk, xs.length⟩ _ _
        hv1 hwB).mono ?_ (fun _ _ h => h)) (unwind_new_data_ne_ok v m) ?_
      · rintro ⟨hq, hnw⟩
        refine ⟨m7 hq, ?_⟩
        have := grow_capacity_pos (hnw hfull) hc.symm
        rw [read_of_block (p := ⟨m.buffer_.blk, xs.length⟩) m5,
          List.getElem?_eq_getElem (by simp; omega)]
        rfl
      · rintro _ s2 ⟨bl, c1, c2, c3, c4, c5⟩
        simp only at c1 c2 c3 c4
        rw [m5] at c1
        cases c1
        rw [List.length_replicate] at c2
        obtain ⟨hcmax, hcM, hc0⟩ := @grow_capacity v.size_ _ (by omega) hc.symm
          (by omega)
        have hAB : v.data_.buffer_.blk ≠ m.buffer_.blk := by
          intro e
          rw [← e, hblk] at m4
          exact absurd (m4 hc0) (by simp)
        have ha2 : s2.block v.data_.buffer_.blk = some (slotsOf xs v.capacity_) := by
          rw [c4 _ hAB hw, m6 _ hAB, hblk]
        have e3 : v.data_.GetAddress = ⟨v.data_.buffer_.blk, 0⟩ := h.begin_eq
        have e4 : m.GetAddress = ⟨m.buffer_.blk, 0⟩ := by
          show m.buffer_ = _
          rw [← m2]
        rw [e3, e4, hsize]
        refine Res.Sat.seq ((UninitializedMoveOrCopyN_sat E hAB xs 0 0 s2 _ _ ha2 c3
          (fun j x hx => by rw [Nat.zero_add]; exact getElem?_slotsOf_live hx)).mono ?_
          (fun _ _ h => h)) (unwind_new_data_ne_ok v m) ?_
        · rintro ⟨hq, _⟩
          exact ⟨c5 (m7 hq), by simp; omega⟩
        · rintro _ s3 ⟨_, t2, ⟨la1, t3, t4, t5, t6⟩, t7, t8⟩
          simp only [RawMemory.Swap, RawMemory.GetAddress]
          rw [h.begin_eq]
          refine release_old_sat _ t3 (fun j hj => t6 j (by omega) (by omega)) ?_
          intro s4 f1 f2
          refine Res.Sat.of_ok ⟨rfl, m2, m1, c2, hcM, ?_, ?_, fun hroom => absurd hfull
            (by omega), ?_, ?_⟩
          · show s4.block m.buffer_.blk = _
            rw [f1 _ (Ne.symm hAB), t2, realloc_layout_end _ _ _ c2]
          · show c = _
            rw [← hfull]
            exact hcmax
          · intro c' hc' hcw hs
            obtain ⟨bl', hbl'⟩ := Option.isSome_iff_exists.1 hs
            show s4.block c' = s.block c'
            have hcB : c' ≠ m.buffer_.blk := by
              rintro rfl
              rw [m4 hc0] at hs
              cases hs
            rw [f1 c' hc', t7 c' hc' hcB, c4 c' hcB hcw, m6 c' hcB]
          · intro hq
            show s4.fuse = none
            rw [f2]
            exact t8 (c5 (m7 hq))
    · rename_i hfull
      have hroom : v.size_ < v.capacity_ := by omega
      have e1 : v.data_.GetAddress.add v.size_ = ⟨v.data_.buffer_.blk, xs.length⟩ := by
        simp only [RawMemory.GetAddress, Ptr.add, hoff, hsize, Nat.zero_add]
      rw [e1]
      refine Res.Sat.seq ((@construct_args_sat _ E _ ⟨v.data_.buffer_.blk, xs.length⟩ _ _
        hv hw).mono ?_ (fun _ _ h => h)) (by intro s b t e; cases e) ?_
      · rintro ⟨hq, _⟩
        exact ⟨hq, h.read_end hroom⟩
      · rintro _ s1 ⟨bl, c1, c2, c3, c4, c5⟩
        simp only at c1 c2 c3 c4
        rw [hblk] at c1
        cases c1
        refine Res.Sat.of_ok ⟨hsize, hoff, hcap, (by simp only; omega), hlt, ?_,
          (by simp only [if_neg hfull]), fun _ => rfl, fun c hc hcw _ => c4 c hc hcw, c5⟩
        show s1.block v.data_.buffer_.blk = _
        rw [c3, slotsOf_set_end _ _ _ (by omega)]
  · rintro _ ⟨v1, s1⟩ ⟨q1, q2, q3, q4, q5, q6, q7, q8, q9, q10⟩
    simp only at q1 q2 q3 q4 q5 q6 q7 q8 q9 q10
    have hmod : (xs.length + 1) % SIZE_T_MOD = xs.length + 1 := Nat.mod_eq_of_lt (by omega)
    have hsub : usub (xs.length + 1) 1 = xs.length := by
      unfold usub
      rw [if_pos (by omega)]
      rfl
    refine Res.Sat.of_ok ⟨⟨q2, fun h0 => ?_, q3, ?_, ?_, q5, q6⟩, ?_, q7, q8, q9, q10⟩
    · simp only at h0; omega
    · simp [q1, hmod]
    · simp only [q1, hmod]; omega
    · simp only [q1, hmod, hsub, RawMemory.GetAddress, Ptr.add]
      rw [q2, Nat.zero_add]

/-! ## `Vector::EmplaceReallocate` -/

theorem UninitializedMoveOrCopyN_sat_len (E : ElemType T) {A B : Nat} (hAB : A ≠ B)
    (vals : List T) {n : Nat} (hn : vals.length = n)
    (a b : Nat) (s : State T) (la lb : List (Slot T))
    (ha : s.block A = some la) (hb : s.block B = some lb)
    (hsrc : ∀ j x, vals[j]? = some x → la[a + j]? = some (.live x)) :
    (UninitializedMoveOrCopyN E ⟨A, a⟩ n ⟨B, b⟩ s).Sat
      (s.fuse = none ∧ b + n ≤ lb.length)
      (fun _ t => (vals = [] ∨ b + n ≤ lb.length) ∧
        t.block B = some (splice lb b (vals.map Slot.live)) ∧
        (∃ la1, t.block A = some la1 ∧ la1.length = la.length ∧
          (∀ i, i < a ∨ a + n ≤ i → la1[i]? = la[i]?) ∧
          (∀ i, a ≤ i → i < a + n → ∃ y, la1[i]? = some (.live y))) ∧
        (∀ c, c ≠ A → c ≠ B → t.block c = s.block c) ∧ Quiet s t) := by
  subst hn
  exact UninitializedMoveOrCopyN_sat E hAB vals a b s la lb ha hb hsrc

theorem Res.seq_ne_ok {γ : Type} (r : Res σ α) {h : σ → Res τ γ} {k : α → σ → Res τ γ}
    (hh : ∀ s b t, h s ≠ .ok b t) (hk : ∀ a s b t, k a s ≠ .ok b t) (b : γ) (t : τ) :
    r.seq h k ≠ .ok b t := by
  cases r with
  | ok a s => exact hk a s b t
  | thrown s => exact hh s b t
  | ub => intro e; cases e

theorem catch_handler_ne_ok (v : Vector) (m : RawMemory) (p q : Ptr) :
    ∀ (s : State T) (b : β) (t : Vector × State T),
      ((destroy p q s).seq (fun _ => Res.ub) fun _ s => unwind_new_data v m s) ≠ .ok b t :=
  fun s b t => Res.seq_ne_ok _ (by intro s b t e; cases e)
    (fun _ s b t => unwind_new_data_ne_ok v m s b t) b t

theorem usub_of_le {a b : Nat} (hb : b ≤ a) : usub a b = a - b := by
  unfold usub
  rw [if_pos hb]

theorem usub_eq_mod {a b : Nat} (ha : a < SIZE_T_MOD) (hb : b < SIZE_T_MOD) :
    usub a b = (a + SIZE_T_MOD - b) % SIZE_T_MOD := by
  unfold usub SIZE_T_MOD at *
  split <;> omega

theorem EmplaceReallocate_sat (E : ElemType T) {s : State T} {v : Vector} {xs : List T}
    {args : Args T} {x : T} {k : Nat} (h : v.Holds s xs) (hk : k ≤ xs.length)
    (hv : args.value s = some x) (hw : ¬ args.writes v.data_.buffer_.blk) :
    (v.EmplaceReallocate E ⟨v.data_.buffer_.blk, k⟩ args s).Sat
      (s.fuse = none ∧ 2 * v.size_ < SIZE_T_MOD)
      (fun ret vs => vs.1.Holds vs.2 (xs.take k ++ [x] ++ xs.drop k) ∧
        ret = ⟨vs.1.data_.buffer_.blk, k⟩ ∧ vs.1.capacity_ = max 1 (2 * v.size_) ∧
        FrameArgs s vs.2 v.data_.buffer_.blk args ∧ Quiet s vs.2) := by
  obtain ⟨hoff, hnull, hcap, hsize, hle, hlt, hblk⟩ := id h
  have hl1 : (xs.take k).length = k := by simp; omega
  have hl2 : (xs.drop k).length = xs.length - k := by simp
  unfold Vector.EmplaceReallocate
  simp only
  generalize hc : (if v.size_ ≠ 0 then v.size_ * 2 % SIZE_T_MOD else 1) = c
  refine Res.Sat.seq ((RawMemory_ctor_live_sat c s).mono (fun h => h.1) (fun _ _ h => h))
    (by intro s b t e; cases e) ?_
  rintro m s1 ⟨m1, m2, m3, m4, m5, m6, m7⟩
  have hfresh := fun (c' : Nat) (bl : List (Slot T)) (i : Nat) =>
    @fresh_of_ctor _ _ _ _ m3 m4 c' bl i
  obtain ⟨hv1, hwB⟩ := Args.value_fresh hfresh m6 hv
  have e0 : distance v.cbegin ⟨v.data_.buffer_.blk, k⟩ = some k := by
    simp [distance, Vector.cbegin, RawMemory.GetAddress, hoff]
  have e3 : v.begin = ⟨v.data_.buffer_.blk, 0⟩ := h.begin_eq
  have e4 : m.GetAddress = ⟨m.buffer_.blk, 0⟩ := by
    show m.buffer_ = _
    rw [← m2]
  have e5 : usub v.size_ k = xs.length - k := by rw [usub_of_le (by omega), hsize]
  rw [e0]
  simp only [e3, e4, e5, Ptr.add, Nat.zero_add]
  refine Res.Sat.seq ((@construct_args_sat _ E _ ⟨m.buffer_.blk, k⟩ _ _
    hv1 hwB).mono ?_ (fun _ _ h => h)) (unwind_new_data_ne_ok v m) ?_
  · rintro ⟨hq, hnw⟩
    refine ⟨m7 hq, ?_⟩
    have := grow_capacity_pos hnw hc.symm
    rw [read_of_block (p := ⟨m.buffer_.blk, k⟩) m5, List.getElem?_eq_getElem (by simp; omega)]
    rfl
  · rintro _ s2 ⟨bl, c1, c2, c3, c4, c5⟩
    simp only at c1 c2 c3 c4
    rw [m5] at c1
    cases c1
    rw [List.length_replicate] at c2
    have hc0 : c ≠ 0 := by omega
    have hAB : v.data_.buffer_.blk ≠ m.buffer_.blk := by
      intro e
      rw [← e, hblk] at m4
      exact absurd (m4 hc0) (by simp)
    have ha2 : s2.block v.data_.buffer_.blk = some (slotsOf xs v.capacity_) := by
      rw [c4 _ hAB hw, m6 _ hAB, hblk]
    refine Res.Sat.seq ((UninitializedMoveOrCopyN_sat_len E hAB (xs.take k) hl1 0 0 s2 _ _ ha2 c3
      (fun j y hy => ?_)).mono ?_ (fun _ _ h => h))
      (catch_handler_ne_ok v m _ _) ?_
    · rw [Nat.zero_add]
      rw [List.getElem?_take] at hy
      split at hy
      · exact getElem?_slotsOf_live hy
      · cases hy
    · rintro ⟨hq, _⟩
      exact ⟨c5 (m7 hq), by simp; omega⟩
    · rintro _ s3 ⟨_, t2, ⟨la1, t3, t4, t5, t6⟩, t7, t8⟩
      have hlb2 : (splice ((List.replicate c Slot.raw).set k (Slot.live x)) 0
          ((xs.take k).map Slot.live)).length = c := by
        rw [length_splice (by simp; omega)]
        simp
      refine Res.Sat.seq ((UninitializedMoveOrCopyN_sat_len E hAB (xs.drop k) hl2 k (k + 1) s3
        _ _ t3 t2 (fun j y hy => ?_)).mono ?_ (fun _ _ h => h))
        (catch_handler_ne_ok v m _ _) ?_
      · rw [List.getElem?_drop] at hy
        rw [t5 (k + j) (Or.inr (by omega))]
        exact getElem?_slotsOf_live hy
      · rintro ⟨hq, hnw⟩
        have := grow_capacity_pos hnw hc.symm
        exact ⟨t8 (c5 (m7 hq)), by rw [hlb2]; omega⟩
      · rintro _ s4 ⟨u1, u2, ⟨la2, u3, u4, u5, u6⟩, u7, u8⟩
        rw [hlb2] at u1
        have hsz : xs.length < c := by
          rcases u1 with u1 | u1
          · have : (xs.drop k).length = 0 := by rw [u1]; rfl
            omega
          · omega
        obtain ⟨hcmax, hcM, _⟩ := @grow_capacity v.size_ _ (by omega) hc.symm
          (by omega)
        simp only [RawMemory.Swap, RawMemory.GetAddress]
        rw [h.begin_eq]
        refine release_old_sat _ u3 (fun j hj => ?_) ?_
        · by_cases hjk : j < k
          · rw [u5 j (Or.inl hjk)]
            exact t6 j (by omega) (by omega)
          · exact u6 j (by omega) (by omega)
        · intro s5 f1 f2
          have hmod : (v.size_ + 1) % SIZE_T_MOD = xs.length + 1 := by
            rw [hsize]
            exact Nat.mod_eq_of_lt (by omega)
          refine Res.Sat.of_ok ⟨⟨m2, fun h0 => absurd h0 hc0, m1, ?_, ?_, hcM, ?_⟩, ?_, hcmax,
            ?_, ?_⟩
          · show (v.size_ + 1) % SIZE_T_MOD = _
            rw [hmod, length_insert _ _ _ hk]
          · show (v.size_ + 1) % SIZE_T_MOD ≤ c
            rw [hmod]
            omega
          · show s5.block m.buffer_.blk = _
            rw [f1 _ (Ne.symm hAB), u2, realloc_layout _ _ _ _ hk hsz]
          · show (⟨m.buffer_.blk, k⟩ : Ptr) = ⟨m.buffer_.blk, k⟩
            rfl
          · intro c' hc' hcw hs
            show s5.block c' = s.block c'
            have hcB : c' ≠ m.buffer_.blk := by
              rintro rfl
              rw [m4 hc0] at hs
              cases hs
            rw [f1 c' hc', u7 c' hc' hcB, t7 c' hc' hcB, c4 c' hcB hcw, m6 c' hcB]
          · intro hq
            show s5.fuse = none
            rw [f2]
            exact u8 (t8 (c5 (m7 hq)))

/-! ## Shifting inside one block -/

theorem Wrote.block_eq {s t : State T} {A a : Nat} {y : Slot T} {lb : List (Slot T)}
    (h : Wrote s t ⟨A, a⟩ y) (hb : s.block A = some lb) :
    a < lb.length ∧ t.block A = some (lb.set a y) ∧ ∀ c, c ≠ A → t.block c = s.block c := by
  obtain ⟨bl, h1, h2, h3, h4⟩ := h
  simp only at h1 h2 h3 h4
  rw [hb] at h1
  cases h1
  exact ⟨h2, h3, h4⟩

theorem read_live_of_block {s : State T} {A a : Nat} {lb : List (Slot T)} {x : T}
    (hb : s.block A = some lb) (hx : lb[a]? = some (.live x)) :
    s.read ⟨A, a⟩ = some (.live x) := by
  rw [read_of_block (p := ⟨A, a⟩) hb]
  exact hx

theorem assign_move_block_sat (E : ElemType T) {s : State T} {A d a : Nat}
    {lb : List (Slot T)} {x y : T} (hb : s.block A = some lb)
    (hx : lb[a]? = some (.live x)) (hy : lb[d]? = some (.live y)) :
    (assign_move E ⟨A, d⟩ ⟨A, a⟩ s).Sat (s.fuse = none)
      (fun _ t => t.block A = some ((lb.set d (.live x)).set a (.live (E.movedFrom x))) ∧
        (∀ c, c ≠ A → t.block c = s.block c) ∧ Quiet s t) := by
  refine (assign_move_sat E (read_live_of_block hb hx) (read_live_of_block hb hy)).mono
    (fun h => h) ?_
  rintro _ t ⟨⟨t1, w1, w2⟩, hq⟩
  obtain ⟨_, b1, f1⟩ := w1.block_eq hb
  obtain ⟨_, b2, f2⟩ := w2.block_eq b1
  exact ⟨b2, fun c hc => (f2 c hc).trans (f1 c hc), hq⟩

theorem assign_copy_block_sat {s : State T} {A B d a : Nat}
    {la lb : List (Slot T)} {x y : T} (ha : s.block A = some la) (hb : s.block B = some lb)
    (hx : lb[a]? = some (.live x)) (hy : la[d]? = some (.live y)) :
    (assign_copy ⟨A, d⟩ ⟨B, a⟩ s).Sat (s.fuse = none)
      (fun _ t => t.block A = some (la.set d (.live x)) ∧
        (∀ c, c ≠ A → t.block c = s.block c) ∧ Quiet s t) := by
  refine (assign_copy_sat (read_live_of_block hb hx) (read_live_of_block ha hy)).mono
    (fun h => h) ?_
  rintro _ t ⟨w1, hq⟩
  obtain ⟨_, b1, f1⟩ := w1.block_eq ha
  exact ⟨b1, f1, hq⟩

theorem move_backward_loop_sat (E : ElemType T) (A k n : Nat) :
    ∀ (s : State T) (lb : List (Slot T)), s.block A = some lb →
    (∀ j, j ≤ n → ∃ y, lb[k + j]? = some (.live y)) →
    (move_backward_loop E ⟨A, k⟩ ⟨A, k + 1⟩ n s).Sat (s.fuse = none)
      (fun _ t => ∃ lb1, t.block A = some lb1 ∧ lb1.length = lb.length ∧
        (∀ i, k + 1 ≤ i → i ≤ k + n → lb1[i]? = lb[i - 1]?) ∧
        (∀ i, i < k ∨ k + n < i → lb1[i]? = lb[i]?) ∧
        (∃ y, lb1[k]? = some (.live y)) ∧
        (∀ c, c ≠ A → t.block c = s.block c) ∧ Quiet s t) := by
  induction n with
  | zero =>
    intro s lb hb hlive
    refine Res.Sat.of_ok ⟨lb, hb, rfl, fun i h1 h2 => by omega, fun _ _ => rfl, ?_,
      fun _ _ => rfl, Quiet.refl s⟩
    simpa using hlive 0 (Nat.le_refl _)
  | succ n ih =>
    intro s lb hb hlive
    obtain ⟨xn, hxn⟩ := hlive n (by omega)
    obtain ⟨yn, hyn⟩ := hlive (n + 1) (by omega)
    have hlen1 : k + n < lb.length := (List.getElem?_eq_some_iff.1 hxn).1
    have hlen2 : k + (n + 1) < lb.length := (List.getElem?_eq_some_iff.1 hyn).1
    unfold move_backward_loop
    simp only [Ptr.add]
    refine Res.Sat.seq (assign_move_block_sat E hb hxn (by rw [← hyn]; congr 1; omega))
      thrown_ne_ok ?_
    rintro _ s1 ⟨b1, f1, q1⟩
    have hlive1 : ∀ j, j ≤ n → ∃ y,
        ((lb.set (k + 1 + n) (Slot.live xn)).set (k + n) (Slot.live (E.movedFrom xn)))[k + j]? =
          some (.live y) := by
      intro j hj
      by_cases hjn : j = n
      · subst hjn
        exact ⟨_, List.getElem?_set_self (by simpa using hlen1)⟩
      · rw [List.getElem?_set_ne (by omega), List.getElem?_set_ne (by omega)]
        exact hlive j (by omega)
    refine (ih s1 _ b1 hlive1).mono (fun h => q1 h) ?_
    rintro _ t ⟨lb1, r1, r2, r3, r4, r5, r6, r7⟩
    refine ⟨lb1, r1, by simpa using r2, fun i h1 h2 => ?_, fun i hi => ?_, r5,
      fun c hc => (r6 c hc).trans (f1 c hc), q1.trans r7⟩
    · by_cases hi : i ≤ k + n
      · rw [r3 i h1 hi, List.getElem?_set_ne (by omega), List.getElem?_set_ne (by omega)]
      · have hi' : i = k + 1 + n := by omega
        subst hi'
        rw [r4 _ (Or.inr (by omega)), List.getElem?_set_ne (by omega),
          List.getElem?_set_self (by omega), ← hxn]
        congr 1
        omega
    · rw [r4 i (by omega), List.getElem?_set_ne (by omega), List.getElem?_set_ne (by omega)]

theorem move_backward_sat (E : ElemType T) (A k e : Nat) (hke : k ≤ e)
    (s : State T) (lb : List (Slot T)) (hb : s.block A = some lb)
    (hlive : ∀ i, k ≤ i → i ≤ e → ∃ y, lb[i]? = some (.live y)) :
    (move_backward E ⟨A, k⟩ ⟨A, e⟩ ⟨A, e + 1⟩ s).Sat (s.fuse = none)
      (fun _ t => ∃ lb1, t.block A = some lb1 ∧ lb1.length = lb.length ∧
        (∀ i, k + 1 ≤ i → i ≤ e → lb1[i]? = lb[i - 1]?) ∧
        (∀ i, i < k ∨ e < i → lb1[i]? = lb[i]?) ∧
        (∃ y, lb1[k]? = some (.live y)) ∧
        (∀ c, c ≠ A → t.block c = s.block c) ∧ Quiet s t) := by
  unfold move_backward
  have e1 : distance ⟨A, k⟩ ⟨A, e⟩ = some (e - k) := by simp [distance, hke]
  have e2 : Ptr.sub ⟨A, e + 1⟩ (e - k) = some ⟨A, k + 1⟩ := by
    simp only [Ptr.sub]
    rw [if_pos (by omega)]
    congr 2
    omega
  rw [e1]
  simp only [e2]
  refine Res.Sat.seq (move_backward_loop_sat E A k (e - k) s lb hb (fun j hj =>
    hlive (k + j) (by omega) (by omega))) thrown_ne_ok ?_
  rintro _ t ⟨lb1, r1, r2, r3, r4, r5, r6, r7⟩
  exact Res.Sat.of_ok ⟨lb1, r1, r2, fun i h1 h2 => r3 i h1 (by omega),
    fun i hi => r4 i (by omega), r5, r6, r7⟩

theorem move_loop_sat (E : ElemType T) (A n : Nat) :
    ∀ (d : Nat) (s : State T) (lb : List (Slot T)), s.block A = some lb →
    (∀ j, j ≤ n → ∃ y, lb[d + j]? = some (.live y)) →
    (move_loop E n ⟨A, d + 1⟩ ⟨A, d⟩ s).Sat (s.fuse = none)
      (fun ret t => ret = ⟨A, d + n⟩ ∧ ∃ lb1, t.block A = some lb1 ∧ lb1.length = lb.length ∧
        (∀ i, d ≤ i → i < d + n → lb1[i]? = lb[i + 1]?) ∧
        (∀ i, i < d ∨ d + n < i → lb1[i]? = lb[i]?) ∧
        (∃ y, lb1[d + n]? = some (.live y)) ∧
        (∀ c, c ≠ A → t.block c = s.block c) ∧ Quiet s t) := by
  induction n with
  | zero =>
    intro d s lb hb hlive
    exact Res.Sat.of_ok ⟨rfl, lb, hb, rfl, fun i h1 h2 => by omega, fun _ _ => rfl,
      hlive 0 (Nat.le_refl _), fun _ _ => rfl, Quiet.refl s⟩
  | succ n ih =>
    intro d s lb hb hlive
    obtain ⟨x0, hx0⟩ := hlive 1 (by omega)
    obtain ⟨y0, hy0⟩ := hlive 0 (by omega)
    have hlen0 : d < lb.length := (List.getElem?_eq_some_iff.1 hy0).1
    have hlen1 : d + 1 < lb.length := (List.getElem?_eq_some_iff.1 hx0).1
    unfold move_loop
    simp only [Ptr.add]
    refine Res.Sat.seq (assign_move_block_sat E hb hx0 hy0) thrown_ne_ok ?_
    rintro _ s1 ⟨b1, f1, q1⟩
    have hlive1 : ∀ j, j ≤ n → ∃ y,
        ((lb.set d (Slot.live x0)).set (d + 1) (Slot.live (E.movedFrom x0)))[d + 1 + j]? =
          some (.live y) := by
      intro j hj
      by_cases hj0 : j = 0
      · subst hj0
        exact ⟨_, List.getElem?_set_self (by simpa using hlen1)⟩
      · rw [List.getElem?_set_ne (by omega), List.getElem?_set_ne (by omega)]
        obtain ⟨y, hy⟩ := hlive (j + 1) (by omega)
        exact ⟨y, by rw [← hy]; congr 1; omega⟩
    refine (ih (d + 1) s1 _ b1 hlive1).mono (fun h => q1 h) ?_
    rintro _ t ⟨r0, lb1, r1, r2, r3, r4, r5, r6, r7⟩
    refine ⟨by rw [r0]; congr 1; omega, lb1, r1, by simpa using r2, fun i h1 h2 => ?_,
      fun i hi => ?_, ?_, fun c hc => (r6 c hc).trans (f1 c hc), q1.trans r7⟩
    · by_cases hi : i = d
      · subst hi
        rw [r4 _ (Or.inl (by omega)), List.getElem?_set_ne (by omega),
          List.getElem?_set_self hlen0, hx0]
      · rw [r3 i (by omega) (by omega), List.getElem?_set_ne (by omega),
          List.getElem?_set_ne (by omega)]
    · rw [r4 i (by omega), List.getElem?_set_ne (by omega), List.getElem?_set_ne (by omega)]
    · obtain ⟨y, hy⟩ := r5
      exact ⟨y, by rw [← hy]; congr 1; omega⟩

theorem copy_loop_shift_sat (A n : Nat) :
    ∀ (d : Nat) (s : State T) (lb : List (Slot T)), s.block A = some lb →
    (∀ j, j ≤ n → ∃ y, lb[d + j]? = some (.live y)) →
    (copy_loop n ⟨A, d + 1⟩ ⟨A, d⟩ s).Sat (s.fuse = none)
      (fun ret t => ret = ⟨A, d + n⟩ ∧ ∃ lb1, t.block A = some lb1 ∧ lb1.length = lb.length ∧
        (∀ i, d ≤ i → i < d + n → lb1[i]? = lb[i + 1]?) ∧
        (∀ i, i < d ∨ d + n < i → lb1[i]? = lb[i]?) ∧
        (∃ y, lb1[d + n]? = some (.live y)) ∧
        (∀ c, c ≠ A → t.block c = s.block c) ∧ Quiet s t) := by
  induction n with
  | zero =>
    intro d s lb hb hlive
    exact Res.Sat.of_ok ⟨rfl, lb, hb, rfl, fun i h1 h2 => by omega, fun _ _ => rfl,
      hlive 0 (Nat.le_refl _), fun _ _ => rfl, Quiet.refl s⟩
  | succ n ih =>
    intro d s lb hb hlive
    obtain ⟨x0, hx0⟩ := hlive 1 (by omega)
    obtain ⟨y0, hy0⟩ := hlive 0 (by omega)
    have hlen0 : d < lb.length := (List.getElem?_eq_some_iff.1 hy0).1
    have hlen1 : d + 1 < lb.length := (List.getElem?_eq_some_iff.1 hx0).1
    unfold copy_loop
    simp only [Ptr.add]
    refine Res.Sat.seq (assign_copy_block_sat hb hb hx0 hy0) thrown_ne_ok ?_
    rintro _ s1 ⟨b1, f1, q1⟩
    have hlive1 : ∀ j, j ≤ n → ∃ y, (lb.set d (Slot.live x0))[d + 1 + j]? = some (.live y) := by
      intro j hj
      rw [List.getElem?_set_ne (by omega)]
      obtain ⟨y, hy⟩ := hlive (j + 1) (by omega)
      exact ⟨y, by rw [← hy]; congr 1; omega⟩
    refine (ih (d + 1) s1 _ b1 hlive1).mono (fun h => q1 h) ?_
    rintro _ t ⟨r0, lb1, r1, r2, r3, r4, r5, r6, r7⟩
    refine ⟨by rw [r0]; congr 1; omega, lb1, r1, by simpa using r2, fun i h1 h2 => ?_,
      fun i hi => ?_, ?_, fun c hc => (r6 c hc).trans (f1 c hc), q1.trans r7⟩
    · by_cases hi : i = d
      · subst hi
        rw [r4 _ (Or.inl (by omega)), List.getElem?_set_self hlen0, hx0]
      · rw [r3 i (by omega) (by omega), List.getElem?_set_ne (by omega)]
    · rw [r4 i (by omega), List.getElem?_set_ne (by omega)]
    · obtain ⟨y, hy⟩ := r5
      exact ⟨y, by rw [← hy]; congr 1; omega⟩

/-- The call `MoveOrCopy(pos + 1, end(), pos)` of `Erase`, on slots `d .. e - 1` of one block. -/
theorem MoveOrCopy_sat (E : ElemType T) (A d e : Nat) (hde : d + 1 ≤ e)
    (s : State T) (lb : List (Slot T)) (hb : s.block A = some lb)
    (hlive : ∀ i, d ≤ i → i < e → ∃ y, lb[i]? = some (.live y)) :
    (MoveOrCopy E ⟨A, d + 1⟩ ⟨A, e⟩ ⟨A, d⟩ s).Sat (s.fuse = none)
      (fun ret t => ret = ⟨A, e - 1⟩ ∧ ∃ lb1, t.block A = some lb1 ∧ lb1.length = lb.length ∧
        (∀ i, d ≤ i → i < e - 1 → lb1[i]? = lb[i + 1]?) ∧
        (∀ i, i < d ∨ e - 1 < i → lb1[i]? = lb[i]?) ∧
        (∃ y, lb1[e - 1]? = some (.live y)) ∧
        (∀ c, c ≠ A → t.block c = s.block c) ∧ Quiet s t) := by
  have e1 : distance ⟨A, d + 1⟩ ⟨A, e⟩ = some (e - (d + 1)) := by simp [distance, hde]
  have hn : d + (e - (d + 1)) = e - 1 := by omega
  have hl : ∀ j, j ≤ e - (d + 1) → ∃ y, lb[d + j]? = some (.live y) :=
    fun j hj => hlive (d + j) (by omega) (by omega)
  unfold MoveOrCopy
  split
  · unfold move
    rw [e1]
    refine (move_loop_sat E A (e - (d + 1)) d s lb hb hl).mono (fun h => h) ?_
    rintro ret t ⟨r0, lb1, r1, r2, r3, r4, r5, r6, r7⟩
    rw [hn] at r0 r5
    exact ⟨r0, lb1, r1, r2, fun i h1 h2 => r3 i h1 (by omega), fun i hi => r4 i (by omega),
      r5, r6, r7⟩
  · unfold copy
    rw [e1]
    refine (copy_loop_shift_sat A (e - (d + 1)) d s lb hb hl).mono (fun h => h) ?_
    rintro ret t ⟨r0, lb1, r1, r2, r3, r4, r5, r6, r7⟩
    rw [hn] at r0 r5
    exact ⟨r0, lb1, r1, r2, fun i h1 h2 => r3 i h1 (by omega), fun i hi => r4 i (by omega),
      r5, r6, r7⟩

/-- The call `std::uninitialized_move_n(end() - 1, 1, end())` of an in-place insertion. -/
theorem uninitialized_move_one_sat (E : ElemType T) {s : State T} {A a : Nat}
    {lb : List (Slot T)} {x : T} (hb : s.block A = some lb)
    (hx : lb[a]? = some (.live x)) (hd : a + 1 < lb.length) :
    (uninitialized_move_n E ⟨A, a⟩ 1 ⟨A, a + 1⟩ s).Sat (s.fuse = none)
      (fun _ t => t.block A = some ((lb.set (a + 1) (.live x)).set a (.live (E.movedFrom x))) ∧
        (∀ c, c ≠ A → t.block c = s.block c) ∧ Quiet s t) := by
  unfold uninitialized_move_n uninitialized_move_loop
  refine Res.Sat.seq ((construct_move_sat E (read_live_of_block hb hx)).mono ?_
    (fun _ _ h => h)) (rethrow_handler_ne_ok _ _) ?_
  · intro hq
    refine ⟨hq, ?_⟩
    rw [read_of_block (p := ⟨A, a + 1⟩) hb, List.getElem?_eq_getElem hd]
    rfl
  · rintro _ t ⟨⟨t1, w1, w2⟩, hq⟩
    obtain ⟨_, b1, f1⟩ := w1.block_eq hb
    obtain ⟨_, b2, f2⟩ := w2.block_eq b1
    unfold uninitialized_move_loop
    exact Res.Sat.of_ok ⟨b2, fun c hc => (f2 c hc).trans (f1 c hc), hq⟩

/-! ## In-place insertion -/

theorem insert_layout (xs : List T) (cap k e : Nat) (xl : T) (g : T → T)
    (he : xs.length = e + 1) (hk : k ≤ e) (hcap : xs.length < cap)
    (hxl : xs[e]? = some xl) (lb1 : List (Slot T))
    (hlen : lb1.length = (slotsOf xs cap).length)
    (h3 : ∀ i, k + 1 ≤ i → i ≤ e → lb1[i]? =
      (((slotsOf xs cap).set (e + 1) (.live xl)).set e (.live (g xl)))[i - 1]?)
    (h4 : ∀ i, i < k ∨ e < i → lb1[i]? =
      (((slotsOf xs cap).set (e + 1) (.live xl)).set e (.live (g xl)))[i]?) (x : T) :
    lb1.set k (.live x) = slotsOf (xs.take k ++ [x] ++ xs.drop k) cap := by
  have hlen0 : (slotsOf xs cap).length = cap := length_slotsOf (by omega)
  have hkl : k ≤ xs.length := by omega
  apply List.ext_getElem?
  intro i
  rw [List.getElem?_set, getElem?_slotsOf, length_insert _ _ _ hkl, getElem?_insert _ _ _ hkl]
  by_cases hik : k = i
  · subst hik
    have h1 : k < lb1.length := by rw [hlen, hlen0]; omega
    have h2 : k < xs.length + 1 := by omega
    simp [h1, h2]
  · rw [if_neg hik]
    by_cases hlt : i < k
    · have h2 : i < xs.length + 1 := by omega
      rw [h4 i (Or.inl hlt), List.getElem?_set_ne (by omega), List.getElem?_set_ne (by omega),
        getElem?_slotsOf, if_pos (by omega), if_pos h2, if_pos hlt]
    · have hne : ¬ i = k := fun e => hik e.symm
      rw [if_neg hlt, if_neg hne]
      by_cases hie : i ≤ e
      · rw [h3 i (by omega) hie, List.getElem?_set_ne (by omega),
          List.getElem?_set_ne (by omega), getElem?_slotsOf, if_pos (by omega),
          if_pos (by omega)]
      · rw [h4 i (Or.inr (by omega)), List.getElem?_set_ne (by omega)]
        by_cases hi1 : i = e + 1
        · subst hi1
          rw [List.getElem?_set_self (by rw [hlen0]; omega), if_pos (by omega)]
          simp [hxl]
        · rw [List.getElem?_set_ne (by omega), getElem?_slotsOf,
            if_neg (show ¬ i < xs.length by omega),
            if_neg (show ¬ i < xs.length + 1 by omega)]

theorem shift_right_sat (E : ElemType T) {τ : Type} {A k cap : Nat} {xs : List T}
    {s : State T} (hblk : s.block A = some (slotsOf xs cap)) (hk : k < xs.length)
    (hcap : xs.length < cap) {q : Prop} {R : β → τ → Prop}
    {h1 h2 : State T → Res τ β} {K : State T → Res τ β}
    (hh1 : ∀ s b t, h1 s ≠ .ok b t) (hh2 : ∀ s b t, h2 s ≠ .ok b t) (hq : q → s.fuse = none)
    (hK : ∀ t lb1, t.block A = some lb1 → (∃ y, lb1[k]? = some (.live y)) →
      (∀ x, lb1.set k (.live x) = slotsOf (xs.take k ++ [x] ++ xs.drop k) cap) →
      (∀ c, c ≠ A → t.block c = s.block c) → Quiet s t → (K t).Sat q R) :
    ((uninitialized_move_n E ⟨A, xs.length - 1⟩ 1 ⟨A, xs.length⟩ s).seq h1 fun _ s =>
      (move_backward E ⟨A, k⟩ ⟨A, xs.length - 1⟩ ⟨A, xs.length⟩ s).seq h2 fun _ s =>
        K s).Sat q R := by
  obtain ⟨e, he⟩ : ∃ e, xs.length = e + 1 := ⟨xs.length - 1, by omega⟩
  have hxl : xs[e]? = some xs[e] := List.getElem?_eq_getElem (by omega)
  have hlen0 : (slotsOf xs cap).length = cap := length_slotsOf (by omega)
  rw [he]
  simp only [Nat.add_sub_cancel]
  refine Res.Sat.seq ((uninitialized_move_one_sat E hblk (getElem?_slotsOf_live hxl)
    (by rw [hlen0]; omega)).mono hq (fun _ _ h => h)) hh1 ?_
  rintro _ s1 ⟨b1, f1, q1⟩
  refine Res.Sat.seq ((move_backward_sat E A k e (by omega) s1 _ b1 ?_).mono
    (fun h => q1 (hq h)) (fun _ _ h => h)) hh2 ?_
  · intro i h1 h2
    by_cases hie : i = e
    · subst hie
      exact ⟨_, List.getElem?_set_self (by simp; omega)⟩
    · rw [List.getElem?_set_ne (by omega), List.getElem?_set_ne (by omega)]
      exact ⟨xs.get ⟨i, by omega⟩, getElem?_slotsOf_live (List.getElem?_eq_getElem (by omega))⟩
  · rintro _ s2 ⟨lb1, r1, r2, r3, r4, r5, r6, r7⟩
    refine hK s2 lb1 r1 r5 (fun x => ?_) (fun c hc => (r6 c hc).trans (f1 c hc)) (q1.trans r7)
    exact insert_layout xs cap k e xs[e] E.movedFrom he (by omega) hcap hxl lb1
      (by simpa using r2) r3 r4 x

/-! ## `Vector::Emplace` and `Vector::Insert` -/

theorem Args.value_frame {s t : State T} {A : Nat} {args : Args T}
    (hframe : ∀ c, c ≠ A → t.block c = s.block c) (hw : ¬ args.inBlock A) :
    args.value t = args.value s := by
  cases args with
  | copyOf p =>
    have hp : p.blk ≠ A := hw
    simp [Args.value, State.read, hframe _ hp]
  | moveOf p =>
    have hp : p.blk ≠ A := hw
    simp [Args.value, State.read, hframe _ hp]
  | make y => rfl

theorem Vector.Holds.end_eq {s : State T} {v : Vector} {xs : List T} (h : v.Holds s xs) :
    v.end_ = ⟨v.data_.buffer_.blk, xs.length⟩ := by
  obtain ⟨hoff, _, _, hsize, _, _, _⟩ := h
  simp only [Vector.end_, RawMemory.GetAddress, Ptr.add, hoff, hsize, Nat.zero_add]

theorem insert_at_end (xs : List T) (x : T) :
    xs.take xs.length ++ [x] ++ xs.drop xs.length = xs ++ [x] := by
  simp

theorem Emplace_sat (E : ElemType T) {s : State T} {v : Vector} {xs : List T}
    {args : Args T} {x : T} {k : Nat} (h : v.Holds s xs) (hk : k ≤ xs.length)
    (hv : args.value s = some x) (hw : ¬ args.inBlock v.data_.buffer_.blk) :
    (v.Emplace E ⟨v.data_.buffer_.blk, k⟩ args s).Sat
      (s.fuse = none ∧ (v.size_ = v.capacity_ → 2 * v.size_ < SIZE_T_MOD))
      (fun ret vs => vs.1.Holds vs.2 (xs.take k ++ [x] ++ xs.drop k) ∧
        ret = ⟨vs.1.data_.buffer_.blk, k⟩ ∧
        vs.1.capacity_ = (if v.size_ = v.capacity_ then max 1 (2 * v.capacity_)
          else v.capacity_) ∧
        (v.size_ < v.capacity_ → vs.1.data_ = v.data_) ∧
        FrameArgs s vs.2 v.data_.buffer_.blk args ∧ Quiet s vs.2) := by
  obtain ⟨hoff, hnull, hcap, hsize, hle, hlt, hblk⟩ := id h
  unfold Vector.Emplace
  split
  · rename_i hfull
    refine (EmplaceReallocate_sat E h hk hv (Args.writes_of_not_inBlock hw)).mono
      (fun hq => ⟨hq.1, hq.2 hfull⟩) ?_
    rintro ret vs ⟨r1, r2, r3, r4, r5⟩
    exact ⟨r1, r2, by rw [r3, hfull], fun hroom => absurd hfull (by omega), r4, r5⟩
  · rename_i hfull
    have hroom : xs.length < v.capacity_ := by omega
    have hmod : (v.size_ + 1) % SIZE_T_MOD = xs.length + 1 := by
      rw [hsize]
      exact Nat.mod_eq_of_lt (by omega)
    simp only [h.end_eq]
    split
    · rename_i hne
      have hklt : k < xs.length := by
        rcases Nat.lt_or_ge k xs.length with h1 | h1
        · exact h1
        · exact absurd (by rw [show k = xs.length by omega]) hne
      have e1 : Ptr.sub ⟨v.data_.buffer_.blk, xs.length⟩ 1 =
          some ⟨v.data_.buffer_.blk, xs.length - 1⟩ := by
        simp only [Ptr.sub]
        rw [if_pos (by omega)]
      simp only [e1]
      refine shift_right_sat E hblk hklt hroom (by intro s b t e; cases e)
        (by intro s b t e; cases e) (fun hq => hq.1) ?_
      intro s2 lb1 b1 l1 l2 f1 q1
      have hv2 : args.value s2 = some x := by rw [Args.value_frame f1 hw, hv]
      refine Res.Sat.seq ((local_construct_sat E hv2).mono (fun hq => q1 hq.1)
        (fun _ _ h => h)) (by intro s b t e; cases e) ?_
      rintro temp s3 ⟨rfl, g1, g2⟩
      have b3 : s3.block v.data_.buffer_.blk = some lb1 := by
        rw [g1 _ (Args.writes_of_not_inBlock hw), b1]
      obtain ⟨y, hy⟩ := l1
      refine Res.Sat.seq ((assign_move_local_sat E temp (read_live_of_block b3 hy)).mono
        (fun hq => g2 (q1 hq.1)) (fun _ _ h => h)) (by intro s b t e; cases e) ?_
      rintro _ s4 ⟨w1, w2⟩
      obtain ⟨_, b4, f4⟩ := w1.block_eq b3
      refine Res.Sat.of_ok ⟨⟨hoff, hnull, hcap, ?_, ?_, hlt, ?_⟩, rfl, rfl,
        fun _ => rfl, ?_, ?_⟩
      · show (v.size_ + 1) % SIZE_T_MOD = _
        rw [hmod, length_insert _ _ _ hk]
      · show (v.size_ + 1) % SIZE_T_MOD ≤ v.capacity_
        rw [hmod]
        omega
      · show (local_destroy s4).block v.data_.buffer_.blk = _
        rw [← l2 temp, ← b4]
        rfl
      · intro c hc hcw _
        show (local_destroy s4).block c = s.block c
        rw [← f1 c hc, ← g1 c hcw, ← f4 c hc]
        rfl
      · intro hq
        exact w2 (g2 (q1 hq))
    · rename_i heq
      have hkeq : k = xs.length := by
        have := not_not.1 heq
        cases this
        rfl
      subst hkeq
      refine Res.Sat.seq ((@construct_args_sat _ E _ ⟨v.data_.buffer_.blk, xs.length⟩ _ _
        hv (Args.writes_of_not_inBlock hw)).mono ?_ (fun _ _ h => h))
        (by intro s b t e; cases e) ?_
      · rintro ⟨hq, _⟩
        exact ⟨hq, h.read_end (by omega)⟩
      · rintro _ s1 ⟨bl, c1, c2, c3, c4, c5⟩
        simp only at c1 c2 c3 c4
        rw [hblk] at c1
        cases c1
        refine Res.Sat.of_ok ⟨⟨hoff, hnull, hcap, ?_, ?_, hlt, ?_⟩, rfl, rfl,
          fun _ => rfl, fun c hc hcw _ => c4 c hc hcw, c5⟩
        · show (v.size_ + 1) % SIZE_T_MOD = _
          rw [hmod, length_insert _ _ _ hk]
        · show (v.size_ + 1) % SIZE_T_MOD ≤ v.capacity_
          rw [hmod]
          omega
        · show s1.block v.data_.buffer_.blk = _
          rw [c3, slotsOf_set_end _ _ _ hroom, insert_at_end]

theorem Insert_sat (E : ElemType T) {s : State T} {v : Vector} {xs : List T}
    {value : Ptr} {x : T} {k : Nat} (h : v.Holds s xs) (hk : k ≤ xs.length)
    (hv : s.read value = some (.live x)) :
    (v.Insert E ⟨v.data_.buffer_.blk, k⟩ value s).Sat
      (s.fuse = none ∧ (v.size_ = v.capacity_ → 2 * v.size_ < SIZE_T_MOD))
      (fun ret vs => vs.1.Holds vs.2 (xs.take k ++ [x] ++ xs.drop k) ∧
        ret = ⟨vs.1.data_.buffer_.blk, k⟩ ∧
        vs.1.capacity_ = (if v.size_ = v.capacity_ then max 1 (2 * v.capacity_)
          else v.capacity_) ∧
        (v.size_ < v.capacity_ → vs.1.data_ = v.data_) ∧
        Frame s vs.2 v.data_.buffer_.blk ∧ Quiet s vs.2) := by
  obtain ⟨hoff, hnull, hcap, hsize, hle, hlt, hblk⟩ := id h
  have hva : (Args.copyOf value).value s = some x := by simp [Args.value, hv]
  unfold Vector.Insert
  split
  · rename_i hfull
    refine (EmplaceReallocate_sat E h hk hva (fun hw => hw)).mono
      (fun hq => ⟨hq.1, hq.2 hfull⟩) ?_
    rintro ret vs ⟨r1, r2, r3, r4, r5⟩
    exact ⟨r1, r2, by rw [r3, hfull], fun hroom => absurd hfull (by omega),
      fun c hc hs => r4 c hc (fun hw => hw) hs, r5⟩
  · rename_i hfull
    have hroom : xs.length < v.capacity_ := by omega
    have hmod : (v.size_ + 1) % SIZE_T_MOD = xs.length + 1 := by
      rw [hsize]
      exact Nat.mod_eq_of_lt (by omega)
    simp only [h.end_eq]
    split
    · rename_i hne
      have hklt : k < xs.length := by
        rcases Nat.lt_or_ge k xs.length with h1 | h1
        · exact h1
        · exact absurd (by rw [show k = xs.length by omega]) hne
      have e1 : Ptr.sub ⟨v.data_.buffer_.blk, xs.length⟩ 1 =
          some ⟨v.data_.buffer_.blk, xs.length - 1⟩ := by
        simp only [Ptr.sub]
        rw [if_pos (by omega)]
      simp only [e1]
      refine Res.Sat.seq ((local_construct_copy_sat E hv).mono (fun hq => hq.1)
        (fun _ _ h => h)) (by intro s b t e; cases e) ?_
      rintro temp s1 ⟨rfl, g1, g2⟩
      have b1 : s1.block v.data_.buffer_.blk = some (slotsOf xs v.capacity_) := by
        rw [block_of_blocks_eq g1, hblk]
      refine shift_right_sat E b1 hklt hroom (by intro s b t e; cases e)
        (by intro s b t e; cases e) (fun hq => g2 hq.1) ?_
      intro s2 lb1 b2 l1 l2 f1 q1
      obtain ⟨y, hy⟩ := l1
      refine Res.Sat.seq ((assign_move_local_sat E temp (read_live_of_block b2 hy)).mono
        (fun hq => q1 (g2 hq.1)) (fun _ _ h => h)) (by intro s b t e; cases e) ?_
      rintro _ s4 ⟨w1, w2⟩
      obtain ⟨_, b4, f4⟩ := w1.block_eq b2
      refine Res.Sat.of_ok ⟨⟨hoff, hnull, hcap, ?_, ?_, hlt, ?_⟩, rfl, rfl,
        fun _ => rfl, ?_, ?_⟩
      · show (v.size_ + 1) % SIZE_T_MOD = _
        rw [hmod, length_insert _ _ _ hk]
      · show (v.size_ + 1) % SIZE_T_MOD ≤ v.capacity_
        rw [hmod]
        omega
      · show (local_destroy s4).block v.data_.buffer_.blk = _
        rw [← l2 temp, ← b4]
        rfl
      · intro c hc _
        show (local_destroy s4).block c = s.block c
        rw [← block_of_blocks_eq g1, ← f1 c hc, ← f4 c hc]
        rfl
      · intro hq
        exact w2 (q1 (g2 hq))
    · rename_i heq
      have hkeq : k = xs.length := by
        have := not_not.1 heq
        cases this
        rfl
      subst hkeq
      refine Res.Sat.seq ((@construct_copy_sat _ _ ⟨v.data_.buffer_.blk, xs.length⟩ _ _
        hv).mono ?_ (fun _ _ h => h)) (by intro s b t e; cases e) ?_
      · rintro ⟨hq, _⟩
        exact ⟨hq, h.read_end (by omega)⟩
      · rintro _ s1 ⟨w1, w2⟩
        obtain ⟨_, b1, f1⟩ := w1.block_eq hblk
        refine Res.Sat.of_ok ⟨⟨hoff, hnull, hcap, ?_, ?_, hlt, ?_⟩, rfl, rfl,
          fun _ => rfl, fun c hc _ => f1 c hc, w2⟩
        · show (v.size_ + 1) % SIZE_T_MOD = _
          rw [hmod, length_insert _ _ _ hk]
        · show (v.size_ + 1) % SIZE_T_MOD ≤ v.capacity_
          rw [hmod]
          omega
        · show s1.block v.data_.buffer_.blk = _
          rw [b1, slotsOf_set_end _ _ _ hroom, insert_at_end]

/-! ## `Vector::Erase` and `Vector::PopBack` -/

theorem erase_layout (xs : List T) (cap k : Nat) (hk : k < xs.length) (hcap : xs.length ≤ cap)
    (lb1 : List (Slot T)) (hlen : lb1.length = (slotsOf xs cap).length)
    (h3 : ∀ i, k ≤ i → i < xs.length - 1 → lb1[i]? = (slotsOf xs cap)[i + 1]?)
    (h4 : ∀ i, i < k ∨ xs.length - 1 < i → lb1[i]? = (slotsOf xs cap)[i]?) :
    lb1.set (xs.length - 1) .raw = slotsOf (xs.eraseIdx k) cap := by
  have hlen0 : (slotsOf xs cap).length = cap := length_slotsOf hcap
  have hlenE : (xs.eraseIdx k).length = xs.length - 1 := by
    rw [List.length_eraseIdx, if_pos hk]
  apply List.ext_getElem?
  intro i
  rw [List.getElem?_set, getElem?_slotsOf, hlenE, List.getElem?_eraseIdx]
  by_cases hil : xs.length - 1 = i
  · subst hil
    rw [if_pos rfl, if_pos (by rw [hlen, hlen0]; omega),
      if_neg (show ¬ xs.length - 1 < xs.length - 1 by omega),
      if_pos (show xs.length - 1 < cap by omega)]
  · rw [if_neg hil]
    by_cases hlt : i < k
    · rw [h4 i (Or.inl hlt), getElem?_slotsOf, if_pos (show i < xs.length by omega),
        if_pos (show i < xs.length - 1 by omega), if_pos hlt]
    · by_cases hi2 : i < xs.length - 1
      · rw [h3 i (by omega) hi2, getElem?_slotsOf, if_pos (show i + 1 < xs.length by omega),
          if_pos hi2, if_neg hlt]
      · rw [h4 i (Or.inr (by omega)), getElem?_slotsOf,
          if_neg (show ¬ i < xs.length by omega), if_neg hi2]

theorem usub_one {a : Nat} (h0 : 0 < a) : usub a 1 = a - 1 :=
  usub_of_le (by omega)

theorem Erase_sat (E : ElemType T) {s : State T} {v : Vector} {xs : List T} {k : Nat}
    (h : v.Holds s xs) (hk : k < xs.length) :
    (v.Erase E ⟨v.data_.buffer_.blk, k⟩ s).Sat (s.fuse = none)
      (fun ret vs => vs.1.Holds vs.2 (xs.eraseIdx k) ∧ ret = ⟨vs.1.data_.buffer_.blk, k⟩ ∧
        vs.1.capacity_ = v.capacity_ ∧ vs.1.data_ = v.data_ ∧
        Frame s vs.2 v.data_.buffer_.blk ∧ Quiet s vs.2) := by
  obtain ⟨hoff, hnull, hcap, hsize, hle, hlt, hblk⟩ := id h
  have hlenE : (xs.eraseIdx k).length = xs.length - 1 := by
    rw [List.length_eraseIdx, if_pos hk]
  unfold Vector.Erase
  simp only [h.end_eq, Ptr.add]
  refine Res.Sat.seq (MoveOrCopy_sat E _ k xs.length (by omega) s _ hblk (fun i h1 h2 =>
    ⟨xs[i], getElem?_slotsOf_live (List.getElem?_eq_getElem h2)⟩))
    (by intro s b t e; cases e) ?_
  rintro del s1 ⟨rfl, lb1, r1, r2, r3, r4, ⟨y, r5⟩, r6, r7⟩
  refine Res.Sat.seq ((Destroy_sat (read_live_of_block r1 r5)).mono (fun _ => trivial)
    (fun _ _ h => h)) (by intro s b t e; cases e) ?_
  rintro _ s2 ⟨w1, w2, _⟩
  obtain ⟨_, b2, f2⟩ := w1.block_eq r1
  have hsub : usub v.size_ 1 = xs.length - 1 := by
    rw [usub_one (by omega), hsize]
  refine Res.Sat.of_ok ⟨⟨hoff, hnull, hcap, ?_, ?_, hlt, ?_⟩, rfl, rfl, rfl,
    fun c hc _ => (f2 c hc).trans (r6 c hc), fun hq => w2.trans (r7 hq)⟩
  · show usub v.size_ 1 = _
    rw [hsub, hlenE]
  · show usub v.size_ 1 ≤ v.capacity_
    rw [hsub]
    omega
  · show s2.block v.data_.buffer_.blk = _
    rw [b2, erase_layout xs v.capacity_ k hk (by omega) lb1 r2 r3 r4]

theorem eraseIdx_last (xs : List T) : xs.eraseIdx (xs.length - 1) = xs.dropLast := by
  apply List.ext_getElem?
  intro i
  rw [List.getElem?_eraseIdx, List.getElem?_dropLast]
  by_cases h : i < xs.length - 1
  · rw [if_pos h, if_pos h]
  · rw [if_neg h, if_neg h]
    exact List.getElem?_eq_none (by omega)

theorem dropLast_layout (xs : List T) (cap : Nat) (h0 : 0 < xs.length) (hcap : xs.length ≤ cap) :
    (slotsOf xs cap).set (xs.length - 1) .raw = slotsOf xs.dropLast cap := by
  have := erase_layout xs cap (xs.length - 1) (by omega) hcap (slotsOf xs cap) rfl
    (fun i h1 h2 => by omega) (fun _ _ => rfl)
  rw [this, eraseIdx_last]

theorem PopBack_sat {s : State T} {v : Vector} {xs : List T} (h : v.Holds s xs)
    (h0 : 0 < xs.length) :
    (v.PopBack s).Sat True
      (fun _ vs => vs.1.Holds vs.2 xs.dropLast ∧ vs.1.capacity_ = v.capacity_ ∧
        vs.1.data_ = v.data_ ∧ Frame s vs.2 v.data_.buffer_.blk ∧ vs.2.fuse = s.fuse) := by
  obtain ⟨hoff, hnull, hcap, hsize, hle, hlt, hblk⟩ := id h
  have hsub : usub v.size_ 1 = xs.length - 1 := by
    rw [usub_one (by omega), hsize]
  have e1 : v.data_.GetAddress.add (usub v.size_ 1) = ⟨v.data_.buffer_.blk, xs.length - 1⟩ := by
    simp only [RawMemory.GetAddress, Ptr.add, hoff, Nat.zero_add]
    rw [hsub]
  have hx : (slotsOf xs v.capacity_)[xs.length - 1]? =
      some (.live (xs.get ⟨xs.length - 1, by omega⟩)) :=
    getElem?_slotsOf_live (List.getElem?_eq_getElem (by omega))
  unfold Vector.PopBack
  show ((Destroy (v.data_.GetAddress.add (usub v.size_ 1)) s).seq _ _).Sat _ _
  rw [e1]
  refine Res.Sat.seq (Destroy_sat (read_live_of_block hblk hx)) (by intro s b t e; cases e) ?_
  rintro _ s1 ⟨w1, w2, _⟩
  obtain ⟨_, b1, f1⟩ := w1.block_eq hblk
  refine Res.Sat.of_ok ⟨⟨hoff, hnull, hcap, ?_, ?_, hlt, ?_⟩, rfl, rfl, fun c hc _ => f1 c hc,
    w2⟩
  · show usub v.size_ 1 = _
    rw [hsub, List.length_dropLast]
  · show usub v.size_ 1 ≤ v.capacity_
    rw [hsub]
    omega
  · show s1.block v.data_.buffer_.blk = _
    rw [b1, dropLast_layout xs _ h0 (by omega)]

/-! ## `Vector::Resize` -/

theorem shrink_layout (xs : List T) (cap n : Nat) (hn : n ≤ xs.length) (hcap : xs.length ≤ cap) :
    splice (slotsOf xs cap) n (List.replicate (xs.length - n) Slot.raw) =
      slotsOf (xs.take n) cap := by
  have hlen0 : (slotsOf xs cap).length = cap := length_slotsOf hcap
  apply List.ext_getElem?
  intro i
  rw [getElem?_splice (by rw [hlen0]; simp; omega), getElem?_slotsOf, getElem?_slotsOf]
  simp only [List.length_replicate, List.length_take, List.getElem?_replicate,
    List.getElem?_take, Nat.min_eq_left hn]
  by_cases h1 : i < n
  · have h2 : i < xs.length := by omega
    simp [h1, h2]
  · by_cases h2 : i < xs.length
    · have h3 : i < n + (xs.length - n) := by omega
      have h4 : i - n < xs.length - n := by omega
      have h5 : i < cap := by omega
      simp [h1, h2, h3, h4, h5]
    · have h3 : ¬ i < n + (xs.length - n) := by omega
      simp [h1, h2, h3]

theorem grow_layout (xs : List T) (cap n : Nat) (d : T) (hn : xs.length ≤ n) (hcap : n ≤ cap) :
    splice (slotsOf xs cap) xs.length (List.replicate (n - xs.length) (Slot.live d)) =
      slotsOf (xs ++ List.replicate (n - xs.length) d) cap := by
  have hlen0 : (slotsOf xs cap).length = cap := length_slotsOf (by omega)
  apply List.ext_getElem?
  intro i
  rw [getElem?_splice (by rw [hlen0]; simp; omega), getElem?_slotsOf, getElem?_slotsOf]
  simp only [List.length_replicate, List.length_append, List.getElem?_replicate,
    List.getElem?_append]
  by_cases h1 : i < xs.length
  · have h2 : i < xs.length + (n - xs.length) := by omega
    simp [h1, h2]
  · by_cases h2 : i < xs.length + (n - xs.length)
    · have h4 : i - xs.length < n - xs.length := by omega
      simp [h1, h2, h4]
    · simp [h1, h2]

theorem Resize_sat (E : ElemType T) {s : State T} {v : Vector} {xs : List T}
    (h : v.Holds s xs) (n : Nat) (hn : n < SIZE_T_MOD) :
    (v.Resize E n s).Sat (s.fuse = none ∧ (v.capacity_ < n → E.fits n))
      (fun _ vs =>
        vs.1.Holds vs.2 (xs.take n ++ List.replicate (n - xs.length) E.value_init) ∧
        vs.1.capacity_ = max v.capacity_ n ∧
        (n < xs.length → vs.2.dtors = s.dtors + (xs.length - n)) ∧
        (n ≤ v.capacity_ → vs.1.data_ = v.data_) ∧
        Frame s vs.2 v.data_.buffer_.blk ∧ Quiet s vs.2) := by
  obtain ⟨hoff, hnull, hcap, hsize, hle, hlt, hblk⟩ := id h
  unfold Vector.Resize
  split
  · rename_i hshrink
    have hnl : n < xs.length := by omega
    have e1 : v.data_.GetAddress.add n = ⟨v.data_.buffer_.blk, n⟩ := by
      simp only [RawMemory.GetAddress, Ptr.add, hoff, Nat.zero_add]
    rw [e1, hsize]
    refine Res.Sat.seq ((destroy_n_sat (xs.length - n) _ n s _ hblk (fun j hj =>
      ⟨xs.get ⟨n + j, by omega⟩, getElem?_slotsOf_live (List.getElem?_eq_getElem
        (by omega))⟩)).mono (fun _ => trivial) (fun _ _ h => h)) (by intro s b t e; cases e) ?_
    rintro _ s1 ⟨_, d2, d3, d4, d5⟩
    have hseq : xs.take n ++ List.replicate (n - xs.length) E.value_init = xs.take n := by
      rw [show n - xs.length = 0 by omega]
      simp
    refine Res.Sat.of_ok ⟨⟨hoff, hnull, hcap, ?_, ?_, hlt, ?_⟩, ?_, fun _ => d5, fun _ => rfl,
      fun c hc _ => d3 c hc, fun hq => d4.trans hq⟩
    · show n = _
      rw [hseq]
      simp
      omega
    · show n ≤ v.capacity_
      omega
    · show s1.block v.data_.buffer_.blk = _
      rw [d2, hseq, shrink_layout _ _ _ (by omega) (by omega)]
    · show v.capacity_ = max v.capacity_ n
      omega
  · rename_i hgrow
    have hnl : xs.length ≤ n := by omega
    have hseq : xs.take n ++ List.replicate (n - xs.length) E.value_init =
        xs ++ List.replicate (n - xs.length) E.value_init := by
      rw [List.take_of_length_le hnl]
    refine Res.Sat.seq (Q := fun _ vs => vs.1.Stores vs.2 xs ∧
      ((v.capacity_ < n → E.fits n) → vs.1.Holds vs.2 xs) ∧ n ≤ vs.1.capacity_ ∧
      vs.1.capacity_ = max v.capacity_ n ∧ (n ≤ v.capacity_ → vs.1.data_ = v.data_) ∧
      (v.capacity_ < n → s.block vs.1.data_.buffer_.blk = none) ∧
      Frame s vs.2 v.data_.buffer_.blk ∧ Quiet s vs.2 ∧
      (v.capacity_ < n → xs.length ≤ E.slots n ∧
        vs.2.block vs.1.data_.buffer_.blk = some (slotsOf xs (E.slots n)))) ?_ thrown_ne_ok ?_
    · split
      · rename_i hbig
        refine (Reserve_sat E h n hn).mono (fun hq => ⟨hq.1, fun hc => ?_⟩) ?_
        · rw [show E.slots n = n from hq.2 hc]
          omega
        · rintro _ vs ⟨r0, _, r1, r2, r3, r4, r5, r6, r7⟩
          exact ⟨r0, r1, by omega, r2, fun hle => absurd hle (by omega), r4, r5, r6, r7⟩
      · rename_i hbig
        exact Res.Sat.of_ok ⟨h.stores, fun _ => h, by simp only; omega, by simp only; omega,
          fun _ => rfl, fun hlt => absurd hlt (by omega), Frame.same s _, Quiet.refl s,
          fun hlt => absurd hlt (by omega)⟩
    · rintro _ ⟨v1, s1⟩ ⟨⟨hoff1, hsize1, room, hroom, hblk0⟩, hcond, q2, q3, q4, q7, q5, q6, q8⟩
      simp only at hoff1 hsize1 hblk0 hcond q2 q3 q4 q5 q6 q7 q8
      have e1 : v1.data_.GetAddress.add xs.length = ⟨v1.data_.buffer_.blk, xs.length⟩ := by
        simp only [RawMemory.GetAddress, Ptr.add, hoff1, Nat.zero_add]
      simp only [hsize1, e1]
      unfold uninitialized_value_construct_n
      have hlen0 : (slotsOf xs room).length = room := length_slotsOf hroom
      refine Res.Sat.seq ((uninitialized_value_construct_loop_sat E _ (n - xs.length) _
        xs.length s1 _ hblk0).mono (fun hq => ⟨q6 hq.1, ?_⟩) (fun _ _ h => h))
        (by intro s b t e; cases e) ?_
      · have h1 := hcond hq.2
        have hb := h1.2.2.2.2.2.2
        rw [hblk0] at hb
        have hr : room = v1.capacity_ := slotsOf_room hroom
          (by rw [← h1.2.2.2.1]; exact h1.2.2.2.2.1) (Option.some.inj hb)
        rw [hlen0, hr]
        omega
      · rintro _ s2 ⟨_, u2, u3, u4, u5⟩
        rw [hlen0] at u2
        have hfit : v.capacity_ < n → E.fits n := by
          intro hc
          obtain ⟨hb1, hb2⟩ := q8 hc
          rw [hblk0] at hb2
          have hr : room = E.slots n := slotsOf_room hroom hb1 (Option.some.inj hb2)
          have := E.slots_le n
          show E.slots n = n
          omega
        have h1 := hcond hfit
        obtain ⟨_, hnull1, hcap1, _, hle1, hlt1, hblk1⟩ := id h1
        have hr : room = v1.capacity_ := by
          have hb := hblk1
          rw [hblk0] at hb
          exact slotsOf_room hroom (by rw [← hsize1]; exact hle1) (Option.some.inj hb)
        subst hr
        refine Res.Sat.of_ok ⟨⟨hoff1, hnull1, hcap1, ?_, ?_, hlt1, ?_⟩, q3,
          fun hlt => absurd hlt (by omega), q4, ?_, q6.trans u5⟩
        · show n = _
          rw [hseq]
          simp
          omega
        · show n ≤ v1.capacity_
          exact q2
        · show s2.block v1.data_.buffer_.blk = _
          rw [u3, hseq, grow_layout _ _ _ _ hnl q2]
        · intro c hc hs
          show s2.block c = s.block c
          by_cases hc1 : c = v1.data_.buffer_.blk
          · by_cases hcase : n ≤ v.capacity_
            · rw [q4 hcase] at hc1
              exact absurd hc1 hc
            · rw [hc1, q7 (by omega)] at hs
              cases hs
          · rw [u4 c hc1, q5 c hc hs]

/-! ## Copying between vectors -/

theorem copy_loop_cross_sat {A B : Nat} (hAB : A ≠ B) (vals : List T) :
    ∀ (a d : Nat) (s : State T) (la lb : List (Slot T)),
    s.block A = some la → s.block B = some lb →
    (∀ j x, vals[j]? = some x → lb[a + j]? = some (.live x)) →
    (∀ j, j < vals.length → ∃ y, la[d + j]? = some (.live y)) →
    (copy_loop vals.length ⟨B, a⟩ ⟨A, d⟩ s).Sat (s.fuse = none)
      (fun ret t => ret = ⟨A, d + vals.length⟩ ∧
        t.block A = some (splice la d (vals.map Slot.live)) ∧
        (∀ c, c ≠ A → t.block c = s.block c) ∧ Quiet s t) := by
  induction vals with
  | nil =>
    intro a d s la lb ha _ _ _
    exact Res.Sat.of_ok ⟨rfl, by simpa [splice_nil] using ha, fun _ _ => rfl, Quiet.refl s⟩
  | cons v vs ih =>
    intro a d s la lb ha hb hsrc hdst
    have hv : lb[a]? = some (.live v) := by simpa using hsrc 0 v (by simp)
    obtain ⟨y, hy⟩ := hdst 0 (by simp)
    have hlt : d < la.length := (List.getElem?_eq_some_iff.1 hy).1
    simp only [List.length_cons]
    unfold copy_loop
    simp only [Ptr.add]
    refine Res.Sat.seq (assign_copy_block_sat ha hb hv (by simpa using hy)) thrown_ne_ok ?_
    rintro _ s1 ⟨b1, f1, q1⟩
    have hb1 : s1.block B = some lb := by rw [f1 B (Ne.symm hAB), hb]
    have hsrc1 : ∀ j x, vs[j]? = some x → lb[a + 1 + j]? = some (.live x) := by
      intro j x hx
      have := hsrc (j + 1) x (by simpa using hx)
      rw [← this]
      congr 1
      omega
    have hdst1 : ∀ j, j < vs.length → ∃ y, (la.set d (Slot.live v))[d + 1 + j]? =
        some (.live y) := by
      intro j hj
      rw [List.getElem?_set_ne (by omega)]
      obtain ⟨y, hy⟩ := hdst (j + 1) (by simp; omega)
      exact ⟨y, by rw [← hy]; congr 1; omega⟩
    refine (ih (a + 1) (d + 1) s1 _ lb b1 hb1 hsrc1 hdst1).mono (fun h => q1 h) ?_
    rintro ret t ⟨e1, e2, e3, e4⟩
    refine ⟨by rw [e1]; congr 1; omega, ?_, fun c hc => (e3 c hc).trans (f1 c hc), q1.trans e4⟩
    rw [e2, splice_set_cons _ _ hlt]
    rfl

theorem copy_loop_self_sat (A n : Nat) :
    ∀ (a : Nat) (s : State T) (la : List (Slot T)), s.block A = some la →
    (∀ j, j < n → ∃ y, la[a + j]? = some (.live y)) →
    (copy_loop n ⟨A, a⟩ ⟨A, a⟩ s).Sat (s.fuse = none)
      (fun ret t => ret = ⟨A, a + n⟩ ∧ (∀ c, t.block c = s.block c) ∧ Quiet s t) := by
  induction n with
  | zero =>
    intro a s la _ _
    exact Res.Sat.of_ok ⟨rfl, fun _ => rfl, Quiet.refl s⟩
  | succ n ih =>
    intro a s la ha hlive
    obtain ⟨y, hy⟩ := hlive 0 (by omega)
    have hy0 : la[a]? = some (.live y) := by simpa using hy
    have hlt : a < la.length := (List.getElem?_eq_some_iff.1 hy0).1
    unfold copy_loop
    simp only [Ptr.add]
    refine Res.Sat.seq (assign_copy_block_sat ha ha hy0 hy0) thrown_ne_ok ?_
    rintro _ s1 ⟨b1, f1, q1⟩
    have hset : la.set a (Slot.live y) = la := by
      apply List.ext_getElem?
      intro i
      by_cases h : a = i
      · subst h
        rw [List.getElem?_set_self hlt, hy0]
      · rw [List.getElem?_set_ne h]
    rw [hset] at b1
    have hsame : ∀ c, s1.block c = s.block c := by
      intro c
      by_cases hc : c = A
      · rw [hc, b1, ha]
      · exact f1 c hc
    refine (ih (a + 1) s1 la b1 (fun j hj => ?_)).mono (fun h => q1 h) ?_
    · obtain ⟨z, hz⟩ := hlive (j + 1) (by omega)
      exact ⟨z, by rw [← hz]; congr 1; omega⟩
    · rintro ret t ⟨e1, e2, e3⟩
      exact ⟨by rw [e1]; congr 1; omega, fun c => (e2 c).trans (hsame c), q1.trans e3⟩

theorem Vector.Holds.frame {s t : State T} {v : Vector} {xs : List T} (h : v.Holds s xs)
    (hb : t.block v.data_.buffer_.blk = s.block v.data_.buffer_.blk) : v.Holds t xs := by
  obtain ⟨h1, h2, h3, h4, h5, h6, h7⟩ := h
  exact ⟨h1, h2, h3, h4, h5, h6, hb.trans h7⟩

theorem Vector.Holds.blk_ne_zero {s : State T} {v : Vector} {xs : List T} (h : v.Holds s xs)
    (hc : v.capacity_ ≠ 0) : v.data_.buffer_.blk ≠ 0 := by
  obtain ⟨h1, h2, h3, h4, h5, h6, h7⟩ := h
  exact (block_ne_nil_blk (i := 0) h7 (by rw [length_slotsOf (by omega)]; omega)).1

theorem Vector.Holds.blk_zero {s : State T} {v : Vector} {xs : List T} (h : v.Holds s xs)
    (hc : v.capacity_ = 0) : v.data_.buffer_.blk = 0 := by
  rw [h.2.1 hc]
  rfl

/-- A block allocated in `s` and unchanged by the frame keeps a vector in it. -/
theorem Vector.Holds.of_frame {s t : State T} {v : Vector} {xs : List T} {A : Nat}
    (h : v.Holds s xs) (hf : Frame s t A)
    (hne : v.data_.buffer_.blk ≠ A ∨ v.capacity_ = 0) : v.Holds t xs := by
  by_cases hc : v.capacity_ = 0
  · refine h.frame ?_
    rw [h.blk_zero hc, block_zero, block_zero]
  · rcases hne with hne | hne
    · exact h.frame (hf _ hne h.isSome_block)
    · exact absurd hne hc

theorem ctor_layout (vals : List T) :
    splice (List.replicate vals.length Slot.raw) 0 (vals.map Slot.live) =
      slotsOf vals vals.length := by
  rw [splice_replicate_zero]

theorem Vector_ctor_size_sat (E : ElemType T) (n : Nat) (hn : n < SIZE_T_MOD) (s : State T) :
    (Vector.ctor_size E n s).Sat (s.fuse = none ∧ E.fits n)
      (fun v t => v.Holds t (List.replicate n E.value_init) ∧ v.capacity_ = n ∧ v.size_ = n ∧
        (∀ c, (s.block c).isSome → t.block c = s.block c) ∧ Quiet s t) := by
  unfold Vector.ctor_size
  refine Res.Sat.seq ((RawMemory_ctor_sat E n s).mono (fun hq => hq.1) (fun _ _ h => h))
    thrown_ne_ok ?_
  rintro m s1 ⟨m1, m2, m3, m4, m5, m6, m7⟩
  have e4 : m.GetAddress = ⟨m.buffer_.blk, 0⟩ := by
    show m.buffer_ = _
    rw [← m2]
  simp only [e4]
  unfold uninitialized_value_construct_n
  refine Res.Sat.seq ((uninitialized_value_construct_loop_sat E _ n _ 0 s1 _ m5).mono
    (fun hq => ⟨m7 hq.1, by rw [List.length_replicate, show E.slots n = n from hq.2]; omega⟩)
    (fun _ _ h => h)) (rethrow_handler_ne_ok _ _) ?_
  rintro _ s2 ⟨_, u2, u3, u4, u5⟩
  have hfit : E.slots n = n := by
    have := E.slots_le n
    rw [List.length_replicate] at u2
    omega
  rw [hfit] at u3
  refine Res.Sat.of_ok ⟨⟨m2, m3, m1, by simp, by simp, hn, ?_⟩, rfl, rfl, ?_, m7.trans u5⟩
  · show s2.block m.buffer_.blk = _
    rw [u3]
    have := splice_replicate_zero (List.replicate n E.value_init) n
    simpa using this
  · intro c hs
    have hcB : c ≠ m.buffer_.blk ∨ n = 0 := by
      by_cases hn0 : n = 0
      · exact Or.inr hn0
      · left
        rintro rfl
        rw [m4 hn0] at hs
        cases hs
    rcases hcB with hcB | hn0
    · rw [u4 c hcB, m6 c hcB]
    · by_cases hcB : c = m.buffer_.blk
      · rw [hcB, m3 hn0]
        show s2.block 0 = s.block 0
        rw [block_zero, block_zero]
      · rw [u4 c hcB, m6 c hcB]

theorem Vector_ctor_copy_sat {s : State T} {other : Vector} {ys : List T}
    (ho : other.Holds s ys) :
    (Vector.ctor_copy other s).Sat (s.fuse = none)
      (fun v t => v.Holds t ys ∧ v.capacity_ = ys.length ∧
        (ys ≠ [] → s.block v.data_.buffer_.blk = none) ∧
        (∀ c, (s.block c).isSome → t.block c = s.block c) ∧ Quiet s t) := by
  obtain ⟨hoff, hnull, hcap, hsize, hle, hlt, hblk⟩ := id ho
  unfold Vector.ctor_copy
  rw [hsize]
  refine Res.Sat.seq (RawMemory_ctor_live_sat ys.length s) thrown_ne_ok ?_
  rintro m s1 ⟨m1, m2, m3, m4, m5, m6, m7⟩
  have e3 : other.data_.GetAddress = ⟨other.data_.buffer_.blk, 0⟩ := ho.begin_eq
  have e4 : m.GetAddress = ⟨m.buffer_.blk, 0⟩ := by
    show m.buffer_ = _
    rw [← m2]
  simp only [e3, e4]
  unfold uninitialized_copy_n
  have hframe : ∀ (t : State T), (∀ c, c ≠ m.buffer_.blk → t.block c = s1.block c) →
      ∀ c, (s.block c).isSome → t.block c = s.block c := by
    intro t ht c hs
    by_cases hn0 : ys.length = 0
    · by_cases hcB : c = m.buffer_.blk
      · rw [hcB, m3 hn0]
        show t.block 0 = s.block 0
        rw [block_zero, block_zero]
      · rw [ht c hcB, m6 c hcB]
    · have hcB : c ≠ m.buffer_.blk := by
        rintro rfl
        rw [m4 hn0] at hs
        cases hs
      rw [ht c hcB, m6 c hcB]
  by_cases hys : ys = []
  · subst hys
    simp only [List.length_nil]
    unfold uninitialized_copy_loop
    refine Res.Sat.of_ok ⟨⟨m2, m3, m1, rfl, Nat.le_refl _, by simp [SIZE_T_MOD], ?_⟩, rfl,
      fun h => absurd rfl h, hframe s1 (fun _ _ => rfl), m7⟩
    show s1.block m.buffer_.blk = _
    rw [m5]
    rfl
  · have hn0 : ys.length ≠ 0 := fun h => hys (List.length_eq_zero.1 h)
    have hAB : other.data_.buffer_.blk ≠ m.buffer_.blk := by
      intro e
      rw [← e, hblk] at m4
      exact absurd (m4 hn0) (by simp)
    have ha1 : s1.block other.data_.buffer_.blk = some (slotsOf ys other.capacity_) := by
      rw [m6 _ hAB, hblk]
    refine Res.Sat.seq ((uninitialized_copy_loop_sat _ hAB ys 0 0 s1 _ _ ha1 m5
      (fun j x hx => by rw [Nat.zero_add]; exact getElem?_slotsOf_live hx)).mono
      (fun hq => ⟨m7 hq, by simp⟩) (fun _ _ h => h)) (rethrow_handler_ne_ok _ _) ?_
    rintro _ s2 ⟨_, _, u3, u4, u5⟩
    refine Res.Sat.of_ok ⟨⟨m2, m3, m1, rfl, Nat.le_refl _,
      (show ys.length < SIZE_T_MOD by omega), ?_⟩, rfl,
      fun _ => m4 hn0, hframe s2 u4, m7.trans u5⟩
    show s2.block m.buffer_.blk = _
    rw [u3, ctor_layout]

theorem Vector_dtor_sat {s : State T} {v : Vector} {xs : List T} (h : v.Holds s xs) :
    (v.dtor s).Sat True
      (fun _ t => (∀ c, c ≠ v.data_.buffer_.blk → t.block c = s.block c) ∧
        t.fuse = s.fuse) := by
  obtain ⟨hoff, hnull, hcap, hsize, hle, hlt, hblk⟩ := id h
  have e3 : v.data_.GetAddress = ⟨v.data_.buffer_.blk, 0⟩ := h.begin_eq
  unfold Vector.dtor
  rw [e3, hsize]
  refine Res.Sat.seq (Q := fun _ t => (∀ c, c ≠ v.data_.buffer_.blk → t.block c = s.block c) ∧
    (t.block v.data_.buffer_.blk).isSome ∧ t.fuse = s.fuse)
    ((destroy_n_sat xs.length _ 0 s _ hblk (fun j hj => ⟨xs.get ⟨j, hj⟩, by
      rw [Nat.zero_add]
      exact getElem?_slotsOf_live (List.getElem?_eq_getElem hj)⟩)).mono (fun h => h) ?_)
    (by intro s b t e; cases e) ?_
  · rintro _ t ⟨_, d2, d3, d4, _⟩
    exact ⟨d3, by rw [d2]; rfl, d4⟩
  · rintro _ s1 ⟨d1, d2, d3⟩
    refine (RawMemory_dtor_sat v.data_ s1 hoff d2).mono (fun h => h) ?_
    rintro _ s2 ⟨f1, f2, _⟩
    exact ⟨fun c hc => (f1 c hc).trans (d1 c hc), f2.trans d3⟩

/-! ## Copy assignment -/

theorem assign_grow_layout (xs ys : List T) (cap : Nat) (h1 : xs.length ≤ ys.length)
    (h2 : ys.length ≤ cap) :
    splice (splice (slotsOf xs cap) 0 ((ys.take xs.length).map Slot.live)) xs.length
      ((ys.drop xs.length).map Slot.live) = slotsOf ys cap := by
  have hlen0 : (slotsOf xs cap).length = cap := length_slotsOf (by omega)
  have hl1 : (ys.take xs.length).length = xs.length := by simp; omega
  have b1 : 0 + ((ys.take xs.length).map Slot.live).length ≤ (slotsOf xs cap).length := by
    rw [hlen0, List.length_map, hl1]; omega
  have b2 : xs.length + ((ys.drop xs.length).map Slot.live).length ≤
      (splice (slotsOf xs cap) 0 ((ys.take xs.length).map Slot.live)).length := by
    rw [length_splice b1, hlen0]; simp; omega
  apply List.ext_getElem?
  intro i
  rw [getElem?_splice b2, getElem?_splice b1, getElem?_slotsOf, getElem?_slotsOf]
  simp only [List.length_map, hl1, List.length_drop, List.getElem?_map, List.getElem?_take,
    List.getElem?_drop, Nat.zero_add, Nat.sub_zero, Nat.not_lt_zero, if_false]
  by_cases c1 : i < xs.length
  · have c2 : i < ys.length := by omega
    simp [c1, c2]
  · by_cases c2 : i < ys.length
    · have c3 : i < xs.length + (ys.length - xs.length) := by omega
      have c4 : xs.length + (i - xs.length) = i := by omega
      simp [c1, c2, c3, c4]
    · have c3 : ¬ i < xs.length + (ys.length - xs.length) := by omega
      simp [c1, c2, c3]

theorem assign_shrink_layout (xs ys : List T) (cap : Nat) (h1 : ys.length ≤ xs.length)
    (h2 : xs.length ≤ cap) :
    splice (splice (slotsOf xs cap) 0 (ys.map Slot.live)) ys.length
      (List.replicate (xs.length - ys.length) Slot.raw) = slotsOf ys cap := by
  have hlen0 : (slotsOf xs cap).length = cap := length_slotsOf (by omega)
  have b1 : 0 + (ys.map Slot.live).length ≤ (slotsOf xs cap).length := by
    rw [hlen0, List.length_map]; omega
  have b2 : ys.length + (List.replicate (xs.length - ys.length) (Slot.raw : Slot T)).length ≤
      (splice (slotsOf xs cap) 0 (ys.map Slot.live)).length := by
    rw [length_splice b1, hlen0]; simp; omega
  apply List.ext_getElem?
  intro i
  rw [getElem?_splice b2, getElem?_splice b1, getElem?_slotsOf, getElem?_slotsOf]
  simp only [List.length_map, List.length_replicate, List.getElem?_map,
    List.getElem?_replicate, Nat.zero_add, Nat.sub_zero, Nat.not_lt_zero, if_false]
  by_cases c1 : i < ys.length
  · simp [c1]
  · by_cases c2 : i < xs.length
    · have c3 : i < ys.length + (xs.length - ys.length) := by omega
      have c4 : i - ys.length < xs.length - ys.length := by omega
      have c5 : i < cap := by omega
      simp [c1, c3, c4, c5]
    · have c3 : ¬ i < ys.length + (xs.length - ys.length) := by omega
      simp [c1, c2, c3]

theorem copy_cross_sat {A B : Nat} (hAB : A ≠ B) (vals : List T) {n : Nat}
    (hn : vals.length = n) (s : State T) (la lb : List (Slot T))
    (ha : s.block A = some la) (hb : s.block B = some lb)
    (hsrc : ∀ (j : Nat) (x : T), vals[j]? = some x → lb[j]? = some (.live x))
    (hdst : ∀ (j : Nat), j < n → ∃ y, la[j]? = some (.live y)) :
    (copy ⟨B, 0⟩ ⟨B, n⟩ ⟨A, 0⟩ s).Sat (s.fuse = none)
      (fun ret t => ret = ⟨A, n⟩ ∧ t.block A = some (splice la 0 (vals.map Slot.live)) ∧
        (∀ c, c ≠ A → t.block c = s.block c) ∧ Quiet s t) := by
  subst hn
  unfold copy
  have e1 : distance ⟨B, 0⟩ ⟨B, vals.length⟩ = some vals.length := by simp [distance]
  rw [e1]
  refine (copy_loop_cross_sat hAB vals 0 0 s la lb ha hb (fun j x hx => by
    rw [Nat.zero_add]; exact hsrc j x hx) (fun j hj => by
    rw [Nat.zero_add]; exact hdst j hj)).mono (fun h => h) ?_
  rintro ret t ⟨r1, r2, r3, r4⟩
  exact ⟨by rw [r1, Nat.zero_add], r2, r3, r4⟩

theorem uninitialized_copy_n_sat {A B : Nat} (hAB : A ≠ B) (vals : List T) {n : Nat}
    (hn : vals.length = n) (a b : Nat) (s : State T) (la lb : List (Slot T))
    (ha : s.block A = some la) (hb : s.block B = some lb)
    (hsrc : ∀ j x, vals[j]? = some x → la[a + j]? = some (.live x)) :
    (uninitialized_copy_n ⟨A, a⟩ n ⟨B, b⟩ s).Sat (s.fuse = none ∧ b + n ≤ lb.length)
      (fun _ t => t.block B = some (splice lb b (vals.map Slot.live)) ∧
        (∀ c, c ≠ B → t.block c = s.block c) ∧ Quiet s t) := by
  subst hn
  unfold uninitialized_copy_n
  refine (uninitialized_copy_loop_sat _ hAB vals a b s la lb ha hb hsrc).mono (fun h => h) ?_
  rintro ret t ⟨_, _, r3, r4, r5⟩
  exact ⟨r3, r4, r5⟩

theorem copy_assign_sat {s : State T} {v other : Vector} {xs ys : List T}
    (hv : v.Holds s xs) (ho : other.Holds s ys)
    (hsep : v.data_.buffer_.blk ≠ other.data_.buffer_.blk) :
    (v.copy_assign other s).Sat (s.fuse = none)
      (fun _ vs => vs.1.Holds vs.2 ys ∧
        vs.1.capacity_ = (if ys.length ≤ v.capacity_ then v.capacity_ else ys.length) ∧
        (ys.length ≤ v.capacity_ → vs.1.data_ = v.data_) ∧
        Frame s vs.2 v.data_.buffer_.blk ∧ Quiet s vs.2) := by
  obtain ⟨hoff, hnull, hcap, hsize, hle, hlt, hblk⟩ := id hv
  obtain ⟨ooff, onull, ocap, osize, ole, olt, oblk⟩ := id ho
  have e3 : v.data_.GetAddress = ⟨v.data_.buffer_.blk, 0⟩ := hv.begin_eq
  have e4 : other.data_.GetAddress = ⟨other.data_.buffer_.blk, 0⟩ := ho.begin_eq
  have hlen0 : (slotsOf xs v.capacity_).length = v.capacity_ := length_slotsOf (by omega)
  unfold Vector.copy_assign
  split
  · rename_i hfit
    have hfit1 : ys.length ≤ v.capacity_ := by omega
    simp only [e3, e4, hsize, osize, Ptr.add, Nat.zero_add]
    refine Res.Sat.seq (Q := fun _ t =>
      t.block v.data_.buffer_.blk = some (slotsOf ys v.capacity_) ∧
      (∀ c, c ≠ v.data_.buffer_.blk → t.block c = s.block c) ∧ Quiet s t) ?_
      (by intro s b t e; cases e) ?_
    · split
      · rename_i hgrow
        have hl1 : (ys.take xs.length).length = xs.length := by simp; omega
        refine Res.Sat.seq (copy_cross_sat hsep (ys.take xs.length) hl1 s _ _ hblk oblk
          (fun j x hx => ?_) (fun j hj => ?_)) thrown_ne_ok ?_
        · rw [List.getElem?_take] at hx
          split at hx
          · exact getElem?_slotsOf_live hx
          · cases hx
        · exact ⟨xs.get ⟨j, hj⟩, getElem?_slotsOf_live (List.getElem?_eq_getElem hj)⟩
        · rintro _ s1 ⟨rfl, c2, c3, c4⟩
          have ob1 : s1.block other.data_.buffer_.blk = some (slotsOf ys other.capacity_) := by
            rw [c3 _ (Ne.symm hsep), oblk]
          refine Res.Sat.seq ((uninitialized_copy_n_sat (Ne.symm hsep) (ys.drop xs.length)
            (by simp) xs.length xs.length s1 _ _ ob1 c2 (fun j x hx => ?_)).mono
            (fun hq => ⟨c4 hq, ?_⟩) (fun _ _ h => h)) thrown_ne_ok ?_
          · rw [List.getElem?_drop] at hx
            exact getElem?_slotsOf_live hx
          · rw [length_splice (by rw [hlen0, List.length_map, hl1]; omega), hlen0]
            omega
          · rintro _ s2 ⟨u1, u2, u3⟩
            refine Res.Sat.of_ok ⟨?_, fun c hc => (u2 c hc).trans (c3 c hc), c4.trans u3⟩
            rw [u1, assign_grow_layout xs ys _ hgrow hfit1]
      · rename_i hgrow
        have hshrink : ys.length < xs.length := by omega
        refine Res.Sat.seq (copy_cross_sat hsep ys rfl s _ _ hblk oblk
          (fun j x hx => getElem?_slotsOf_live hx) (fun j hj => ?_)) thrown_ne_ok ?_
        · exact ⟨xs.get ⟨j, by omega⟩, getElem?_slotsOf_live (List.getElem?_eq_getElem
            (by omega))⟩
        · rintro _ s1 ⟨rfl, c2, c3, c4⟩
          have hls : (splice (slotsOf xs v.capacity_) 0 (ys.map Slot.live)).length =
              v.capacity_ := by
            rw [length_splice (by rw [hlen0, List.length_map]; omega), hlen0]
          refine Res.Sat.seq ((destroy_n_sat (xs.length - ys.length) _ ys.length s1 _ c2
            (fun j hj => ?_)).mono (fun _ => trivial) (fun _ _ h => h))
            (by intro s b t e; cases e) ?_
          · rw [getElem?_splice (by rw [hlen0, List.length_map]; omega)]
            simp only [List.length_map, Nat.zero_add, Nat.not_lt_zero, if_false]
            rw [if_neg (by omega)]
            exact ⟨xs.get ⟨ys.length + j, by omega⟩,
              getElem?_slotsOf_live (List.getElem?_eq_getElem (by omega))⟩
          · rintro _ s2 ⟨_, d2, d3, d4, _⟩
            refine Res.Sat.of_ok ⟨?_, fun c hc => (d3 c hc).trans (c3 c hc),
              fun hq => d4.trans (c4 hq)⟩
            rw [d2, assign_shrink_layout xs ys _ (by omega) (by omega)]
    · rintro _ s1 ⟨q1, q2, q3⟩
      refine Res.Sat.of_ok ⟨⟨hoff, hnull, hcap, rfl, hfit1, hlt, q1⟩, ?_, fun _ => rfl,
        fun c hc _ => q2 c hc, q3⟩
      show v.capacity_ = _
      rw [if_pos hfit1]
  · rename_i hfit
    have hbig : v.capacity_ < ys.length := by omega
    have hys : ys ≠ [] := by
      rintro rfl
      simp at hbig
    refine Res.Sat.seq (Vector_ctor_copy_sat ho) (by intro s b t e; cases e) ?_
    rintro cp s1 ⟨p1, p2, p3, p4, p5⟩
    have hv1 : v.Holds s1 xs := hv.frame (p4 _ hv.isSome_block)
    have hAC : cp.data_.buffer_.blk ≠ v.data_.buffer_.blk := by
      intro e
      have := p3 hys
      rw [e, hblk] at this
      cases this
    refine Res.Sat.seq ((Vector_dtor_sat (v := (v.Swap cp).2) hv1).mono (fun _ => trivial)
      (fun _ _ h => h)) (by intro s b t e; cases e) ?_
    rintro _ s2 ⟨d1, d2⟩
    refine Res.Sat.of_ok ⟨?_, ?_, fun hle => absurd hle (by omega), ?_, ?_⟩
    · exact Vector.Holds.frame (v := cp) p1 (d1 _ hAC)
    · show cp.capacity_ = _
      rw [if_neg (by omega), p2]
    · intro c hc hs
      exact (d1 c hc).trans (p4 c hs)
    · intro hq
      show s2.fuse = none
      rw [d2]
      exact p5 hq

/-- Copy assignment when source and destination share their buffer: assignment
of a vector to itself, or between two vectors without storage. -/
theorem copy_assign_same_sat {s : State T} {v other : Vector} {xs : List T}
    (hv : v.Holds s xs) (ho : other.Holds s xs)
    (hb : other.data_.buffer_.blk = v.data_.buffer_.blk) :
    (v.copy_assign other s).Sat (s.fuse = none)
      (fun _ vs => vs.1 = v ∧ (∀ c, vs.2.block c = s.block c) ∧ Quiet s vs.2) := by
  obtain ⟨hoff, hnull, hcap, hsize, hle, hlt, hblk⟩ := id hv
  obtain ⟨ooff, onull, ocap, osize, ole, olt, oblk⟩ := id ho
  have e3 : v.data_.GetAddress = ⟨v.data_.buffer_.blk, 0⟩ := hv.begin_eq
  have e4 : other.data_.GetAddress = ⟨v.data_.buffer_.blk, 0⟩ := by
    rw [← hb]
    exact ho.begin_eq
  unfold Vector.copy_assign
  rw [if_pos (show v.capacity_ ≥ other.size_ by omega)]
  simp only [e3, e4, hsize, osize, Ptr.add, Nat.zero_add, Nat.le_refl, if_true, Nat.sub_self]
  have e1 : distance ⟨v.data_.buffer_.blk, 0⟩ ⟨v.data_.buffer_.blk, xs.length⟩ =
      some xs.length := by simp [distance]
  unfold copy uninitialized_copy_n uninitialized_copy_loop
  rw [e1]
  refine Res.Sat.seq (Q := fun _ t => (∀ c, t.block c = s.block c) ∧ Quiet s t) ?_
    (by intro s b t e; cases e) ?_
  · refine Res.Sat.seq (copy_loop_self_sat _ xs.length 0 s _ hblk (fun j hj =>
      ⟨xs.get ⟨j, hj⟩, by
        rw [Nat.zero_add]
        exact getElem?_slotsOf_live (List.getElem?_eq_getElem hj)⟩)) thrown_ne_ok ?_
    rintro _ s1 ⟨_, c2, c3⟩
    exact Res.Sat.of_ok ⟨c2, c3⟩
  · rintro _ s1 ⟨c2, c3⟩
    refine Res.Sat.of_ok ⟨?_, c2, c3⟩
    show ({ v with size_ := xs.length } : Vector) = v
    rw [← hsize]

/-! ## Wrappers -/

theorem Vector.Holds.begin_add {s : State T} {v : Vector} {xs : List T} (h : v.Holds s xs)
    (k : Nat) : v.begin.add k = ⟨v.data_.buffer_.blk, k⟩ := by
  simp only [Vector.begin, RawMemory.GetAddress, Ptr.add, h.1, Nat.zero_add]

theorem Vector.Holds.size_eq {s : State T} {v : Vector} {xs : List T} (h : v.Holds s xs) :
    v.Size = xs.length := h.2.2.2.1

theorem Vector.Holds.size_le {s : State T} {v : Vector} {xs : List T} (h : v.Holds s xs) :
    v.Size ≤ v.Capacity := h.2.2.2.2.1

theorem PushBack_sat (E : ElemType T) {s : State T} {v : Vector} {xs : List T}
    {value : Ptr} {x : T} (h : v.Holds s xs) (hx : s.read value = some (.live x)) :
    (v.PushBack E value s).Sat
      (s.fuse = none ∧ (v.size_ = v.capacity_ → 2 * v.size_ < SIZE_T_MOD))
      (fun _ vs => vs.1.Holds vs.2 (xs ++ [x]) ∧ vs.1.capacity_ = v.grown ∧
        Frame s vs.2 v.data_.buffer_.blk ∧ Quiet s vs.2) := by
  unfold Vector.PushBack
  have hv : (Args.copyOf value).value s = some x := by simp [Args.value, hx]
  refine Res.Sat.seq (EmplaceBack_sat E h hv (fun hw => hw)) thrown_ne_ok ?_
  rintro _ vs ⟨r1, _, r3, _, r5, r6⟩
  exact Res.Sat.of_ok ⟨r1, r3, fun c hc hs => r5 c hc (fun hw => hw) hs, r6⟩

theorem PushBack_rvalue_sat (E : ElemType T) {s : State T} {v : Vector} {xs : List T}
    {value : Ptr} {x : T} (h : v.Holds s xs) (hx : s.read value = some (.live x))
    (hext : value.blk ≠ v.data_.buffer_.blk) :
    (v.PushBack_rvalue E value s).Sat
      (s.fuse = none ∧ (v.size_ = v.capacity_ → 2 * v.size_ < SIZE_T_MOD))
      (fun _ vs => vs.1.Holds vs.2 (xs ++ [x]) ∧ vs.1.capacity_ = v.grown ∧
        Quiet s vs.2) := by
  unfold Vector.PushBack_rvalue
  have hv : (Args.moveOf value).value s = some x := by simp [Args.value, hx]
  refine Res.Sat.seq (EmplaceBack_sat E h hv hext) thrown_ne_ok ?_
  rintro _ vs ⟨r1, _, r3, _, r5, r6⟩
  exact Res.Sat.of_ok ⟨r1, r3, r6⟩

theorem Insert_rvalue_sat (E : ElemType T) {s : State T} {v : Vector} {xs : List T}
    {value : Ptr} {x : T} {k : Nat} (h : v.Holds s xs) (hk : k ≤ xs.length)
    (hx : s.read value = some (.live x)) (hext : value.blk ≠ v.data_.buffer_.blk) :
    (v.Insert_rvalue E ⟨v.data_.buffer_.blk, k⟩ value s).Sat
      (s.fuse = none ∧ (v.size_ = v.capacity_ → 2 * v.size_ < SIZE_T_MOD))
      (fun ret vs => vs.1.Holds vs.2 (xs.take k ++ [x] ++ xs.drop k) ∧
        ret = ⟨vs.1.data_.buffer_.blk, k⟩ ∧ vs.1.capacity_ = v.grown ∧ Quiet s vs.2) := by
  unfold Vector.Insert_rvalue
  have hv : (Args.moveOf value).value s = some x := by simp [Args.value, hx]
  refine (Emplace_sat E h hk hv hext).mono (fun hq => hq) ?_
  rintro _ vs ⟨r1, r2, r3, _, _, r6⟩
  exact ⟨r1, r2, r3, r6⟩

theorem eraseIdx_insert (xs : List T) (k : Nat) (x : T) (hk : k ≤ xs.length) :
    (xs.take k ++ [x] ++ xs.drop k).eraseIdx k = xs := by
  apply List.ext_getElem?
  intro i
  rw [List.getElem?_eraseIdx]
  by_cases h : i < k
  · rw [if_pos h, getElem?_insert _ _ _ hk, if_pos h]
  · rw [if_neg h, getElem?_insert _ _ _ hk, if_neg (by omega), if_neg (by omega)]
    rfl

/-! ## Two vectors in one heap -/

theorem slotsOf_inj {xs ys : List T} {c d : Nat} (hx : xs.length ≤ c) (hy : ys.length ≤ d)
    (h : slotsOf xs c = slotsOf ys d) : xs = ys ∧ c = d := by
  have hcd : c = d := by
    rw [← length_slotsOf hx, ← length_slotsOf hy, h]
  subst hcd
  refine ⟨?_, rfl⟩
  have key : ∀ i : Nat, (slotsOf xs c)[i]? = (slotsOf ys c)[i]? := fun i => by rw [h]
  have hlen : xs.length = ys.length := by
    rcases Nat.lt_trichotomy xs.length ys.length with hl | hl | hl
    · have := key xs.length
      rw [getElem?_slotsOf, getElem?_slotsOf, if_neg (Nat.lt_irrefl _), if_pos hl,
        if_pos (by omega), List.getElem?_eq_getElem hl] at this
      cases this
    · exact hl
    · have := key ys.length
      rw [getElem?_slotsOf, getElem?_slotsOf, if_neg (Nat.lt_irrefl _), if_pos hl,
        if_pos (by omega), List.getElem?_eq_getElem hl] at this
      cases this
  apply List.ext_getElem?
  intro i
  by_cases hi : i < xs.length
  · have := key i
    rw [getElem?_slotsOf, getElem?_slotsOf, if_pos hi, if_pos (by omega),
      List.getElem?_eq_getElem hi, List.getElem?_eq_getElem (by omega)] at this
    rw [List.getElem?_eq_getElem hi, List.getElem?_eq_getElem (by omega)]
    simpa using this
  · rw [List.getElem?_eq_none (by omega), List.getElem?_eq_none (by omega)]

/-- Two well-formed vectors whose buffers lie in the same block are the same
vector with the same elements: a vector and itself, or two vectors without storage. -/
theorem Vector.Holds.eq_of_blk {s : State T} {v w : Vector} {xs ys : List T}
    (hv : v.Holds s xs) (hw : w.Holds s ys)
    (hb : w.data_.buffer_.blk = v.data_.buffer_.blk) : w = v ∧ ys = xs := by
  obtain ⟨h1, h2, h3, h4, h5, h6, h7⟩ := id hv
  obtain ⟨w1, w2, w3, w4, w5, w6, w7⟩ := id hw
  rw [hb, h7] at w7
  obtain ⟨e1, e2⟩ := slotsOf_inj (by omega) (by omega) (Option.some.inj w7)
  refine ⟨?_, e1.symm⟩
  obtain ⟨⟨⟨vb, vo⟩, vc⟩, vcap, vsize⟩ := v
  obtain ⟨⟨⟨wb, wo⟩, wc⟩, wcap, wsize⟩ := w
  simp only at h1 h3 h4 w1 w3 w4 hb e2
  subst h1 h3 w1 w3 hb e2
  rw [h4, w4, e1]

theorem Vector.Holds.inv {s : State T} {v : Vector} {xs : List T} (h : v.Holds s xs) :
    v.Inv s := ⟨h.size_le, xs, h⟩

theorem Vector.ctor_default_holds (s : State T) : Vector.ctor_default.Holds s [] := by
  refine ⟨rfl, fun _ => rfl, rfl, rfl, Nat.le_refl _, by decide, ?_⟩
  exact block_zero s

theorem Vector.Holds.ctor_move {s : State T} {w : Vector} {ys : List T} (h : w.Holds s ys) :
    w.ctor_move.1.Holds s ys ∧ w.ctor_move.2.Holds s [] := by
  obtain ⟨w1, w2, w3, w4, w5, w6, w7⟩ := id h
  exact ⟨⟨w1, w2, w3, w4, w5, w6, w7⟩, Vector.ctor_default_holds s⟩

theorem Vector.Holds.swap {s : State T} {v w : Vector} {xs ys : List T} (hv : v.Holds s xs)
    (hw : w.Holds s ys) : (v.Swap w).1.Holds s ys ∧ (v.Swap w).2.Holds s xs := by
  obtain ⟨h1, h2, h3, h4, h5, h6, h7⟩ := id hv
  obtain ⟨w1, w2, w3, w4, w5, w6, w7⟩ := id hw
  exact ⟨⟨w1, w2, w3, w4, w5, w6, w7⟩, ⟨h1, h2, h3, h4, h5, h6, h7⟩⟩

/-- Copy assignment between any two well-formed vectors of one heap. -/
theorem copy_assign_any_sat {s : State T} {v other : Vector} {xs ys : List T}
    (hv : v.Holds s xs) (ho : other.Holds s ys) :
    (v.copy_assign other s).Sat (s.fuse = none)
      (fun _ vs => vs.1.Holds vs.2 ys ∧ other.Holds vs.2 ys ∧
        vs.1.capacity_ = (if ys.length ≤ v.capacity_ then v.capacity_ else ys.length) ∧
        (ys.length ≤ v.capacity_ → vs.1.data_ = v.data_) ∧ Quiet s vs.2) := by
  by_cases hb : other.data_.buffer_.blk = v.data_.buffer_.blk
  · obtain ⟨e1, e2⟩ := hv.eq_of_blk ho hb
    subst e1 e2
    refine (copy_assign_same_sat hv hv rfl).mono (fun h => h) ?_
    rintro _ ⟨v1, s1⟩ ⟨r1, r2, r3⟩
    simp only at r1 r2 r3
    subst r1
    have hle : ys.length ≤ v1.capacity_ := by
      have := hv.size_le
      have := hv.size_eq
      simp only [Vector.Size, Vector.Capacity] at *
      omega
    exact ⟨hv.frame (r2 _), hv.frame (r2 _), by rw [if_pos hle], fun _ => rfl, r3⟩
  · refine (copy_assign_sat hv ho (fun e => hb e.symm)).mono (fun h => h) ?_
    rintro _ ⟨v1, s1⟩ ⟨r1, r2, r3, r4, r5⟩
    exact ⟨r1, ho.of_frame r4 (Or.inl hb), r2, r3, r5⟩

/-! ## A sequence of `PushBack` calls -/

theorem slotsOf_full (xs : List T) : slotsOf xs xs.length = xs.map Slot.live := by
  simp [slotsOf]

theorem PushBack_range_sat (E : ElemType T) (B : Nat) (xs : List T)
    (hn : 2 * xs.length ≤ SIZE_T_MOD) :
    ∀ (n i : Nat) (v : Vector) (s : State T), i + n = xs.length → v.Holds s (xs.take i) →
      s.block B = some (xs.map Slot.live) → s.fuse = none →
      ((i = 0 ∧ v.capacity_ = 0) ∨ ∃ e, v.capacity_ = 2 ^ e ∧ i ≤ 2 ^ e ∧ 2 ^ e < 2 * i) →
      ∃ v1 s1, PushBack_range E n ⟨B, i⟩ v s = .ok () (v1, s1) ∧ v1.Holds s1 xs ∧
        ((xs.length = 0 ∧ v1.capacity_ = 0) ∨
          ∃ e, v1.capacity_ = 2 ^ e ∧ xs.length ≤ 2 ^ e ∧ 2 ^ e < 2 * xs.length) := by
  intro n
  induction n with
  | zero =>
    intro i v s hi h _ _ hc
    have hi' : i = xs.length := by omega
    subst hi'
    rw [List.take_of_length_le (Nat.le_refl _)] at h
    exact ⟨v, s, rfl, h, hc⟩
  | succ n ih =>
    intro i v s hi h hB hq hc
    have hlt : i < xs.length := by omega
    have hsize : v.size_ = i := by
      have := h.size_eq
      rw [List.length_take] at this
      simp only [Vector.Size] at this
      omega
    have hne : B ≠ v.data_.buffer_.blk := by
      intro e
      have hb := h.2.2.2.2.2.2
      rw [← e, hB, ← slotsOf_full] at hb
      have hl : (xs.take i).length ≤ v.capacity_ := by
        have := h.2.2.2.2.1
        have := h.2.2.2.1
        omega
      have := (slotsOf_inj (Nat.le_refl _) hl (Option.some.inj hb)).1
      have hlen := congrArg List.length this
      rw [List.length_take] at hlen
      omega
    have hx : s.read ⟨B, i⟩ = some (.live (xs.get ⟨i, hlt⟩)) := by
      rw [read_of_block (p := ⟨B, i⟩) hB]
      simp [List.getElem?_eq_getElem hlt]
    have hP := PushBack_sat E h hx
    obtain ⟨_, ⟨v1, s1⟩, e1⟩ := hP.2 ⟨hq, fun _ => by omega⟩
    obtain ⟨r1, r2, r3, r4⟩ := hP.1 () (v1, s1) e1
    have hB1 : s1.block B = some (xs.map Slot.live) := by
      rw [← hB]
      exact r3 B hne (by rw [hB]; rfl)
    have htake : xs.take i ++ [xs.get ⟨i, hlt⟩] = xs.take (i + 1) := by
      rw [List.take_succ, List.getElem?_eq_getElem hlt]
      rfl
    rw [htake] at r1
    have hc1 : (i + 1 = 0 ∧ v1.capacity_ = 0) ∨
        ∃ e, v1.capacity_ = 2 ^ e ∧ i + 1 ≤ 2 ^ e ∧ 2 ^ e < 2 * (i + 1) := by
      right
      have r2' : v1.capacity_ =
          if v.size_ = v.capacity_ then max 1 (2 * v.capacity_) else v.capacity_ := r2
      rcases hc with ⟨h0, hcap⟩ | ⟨e, hcap, hle, hlt2⟩
      · refine ⟨0, ?_, by omega, by omega⟩
        rw [r2', hsize, h0, hcap]
        rfl
      · by_cases hfull : v.size_ = v.capacity_
        · refine ⟨e + 1, ?_, ?_, ?_⟩
          · rw [r2', if_pos hfull, hcap, Nat.pow_succ]
            have := Nat.pos_pow_of_pos e (show 0 < 2 by decide)
            omega
          · rw [Nat.pow_succ]
            omega
          · rw [Nat.pow_succ]
            omega
        · refine ⟨e, ?_, by omega, by omega⟩
          rw [r2', if_neg hfull, hcap]
    obtain ⟨v2, s2, e2, q1, q2⟩ := ih (i + 1) v1 s1 (by omega) r1 hB1 (r4 hq) hc1
    refine ⟨v2, s2, ?_, q1, q2⟩
    show ((v.PushBack E ⟨B, i⟩ s).seq _ _) = _
    rw [e1]
    exact e2

/-! ## The capacity cache -/

theorem Res.Full.bind {r : Res σ α} {h : σ → Res τ β} {k : α → σ → Res τ β}
    {Q : α → σ → Prop} {R : σ → Prop} {Q' : β → τ → Prop} {R' : τ → Prop}
    (hr : r.Full Q R) (hh : ∀ s, R s → (h s).Full Q' R')
    (hk : ∀ a s, Q a s → (k a s).Full Q' R') : (r.seq h k).Full Q' R' := by
  cases r with
  | ok a s => exact hk a s hr
  | thrown s => exact hh s hr
  | ub => exact hr.elim

theorem Res.Full.weaken {r : Res σ α} {Q Q' : α → σ → Prop} {R R' : σ → Prop}
    (h : r.Full Q R) (hQ : ∀ a s, Q a s → Q' a s) (hR : ∀ s, R s → R' s) : r.Full Q' R' := by
  cases r with
  | ok a s => exact hQ a s h
  | thrown s => exact hR s h
  | ub => exact h.elim

theorem Res.Full.and_ok {r : Res σ α} {Q Q' : α → σ → Prop} {R : σ → Prop}
    (h : r.Full Q R) (h' : ∀ a s, r = .ok a s → Q' a s) :
    r.Full (fun a s => Q a s ∧ Q' a s) R := by
  cases r with
  | ok a s => exact ⟨h, h' a s rfl⟩
  | thrown s => exact h
  | ub => exact h.elim

theorem Res.Full.of_sat {r : Res σ α} {Q : α → σ → Prop} (h : r.Sat True Q) :
    r.Full Q (fun _ => False) := by
  obtain ⟨a, s, e⟩ := h.2 trivial
  subst e
  exact h.1 a s rfl

theorem Res.Full.rethrow {c : Res σ α} {f : σ → τ} {Q : α → σ → Prop} {R' : τ → Prop}
    (hc : c.Full Q (fun _ => False)) (hR : ∀ a s, Q a s → R' (f s)) :
    (c.rethrow f : Res τ β).Full (fun _ _ => False) R' := by
  cases c with
  | ok a s => exact hR a s hc
  | thrown s => exact hc.elim
  | ub => exact hc.elim

theorem Res.Full.thrown_of {r : Res σ α} {Q : α → σ → Prop} {R : σ → Prop} (h : r.Full Q R)
    (hQ : ∀ a s, ¬ Q a s) : ∃ t, r = .thrown t ∧ R t := by
  cases r with
  | ok a s => exact absurd h (hQ a s)
  | thrown s => exact ⟨s, rfl, h⟩
  | ub => exact h.elim

theorem Res.Full.ok_of {r : Res σ α} {Q : α → σ → Prop} {R : σ → Prop} (h : r.Full Q R)
    (hR : ∀ s, ¬ R s) : ∃ a t, r = .ok a t ∧ Q a t := by
  cases r with
  | ok a s => exact ⟨a, s, rfl, h⟩
  | thrown s => exact absurd h (hR s)
  | ub => exact h.elim

theorem Step.idle (s : State T) : Step s s 0 0 0 :=
  ⟨⟨fun h => h, fun m hm => ⟨Nat.zero_le _, by rw [hm]; rfl⟩⟩, rfl, rfl⟩

theorem Step.of_eq {s t : State T} {c d : Nat} (hf : t.fuse = s.fuse)
    (hc : t.ctors = s.ctors + c) (hd : t.dtors = s.dtors + d) : Step s t 0 c d :=
  ⟨⟨fun h => by rw [hf, h], fun m hm => ⟨Nat.zero_le _, by rw [hf, hm]; rfl⟩⟩, hc, hd⟩

theorem Step.append {s t u : State T} {n c d n' c' d' : Nat} (h1 : Step s t n c d)
    (h2 : Step t u n' c' d') : Step s u (n + n') (c + c') (d + d') := by
  obtain ⟨⟨a1, a2⟩, a3, a4⟩ := h1
  obtain ⟨⟨b1, b2⟩, b3, b4⟩ := h2
  refine ⟨⟨fun h => b1 (a1 h), fun m hm => ?_⟩, by omega, by omega⟩
  obtain ⟨x1, x2⟩ := a2 m hm
  obtain ⟨y1, y2⟩ := b2 _ x2
  refine ⟨by omega, ?_⟩
  rw [y2, Nat.sub_sub]

theorem Step.fail {s t u : State T} {n c d n' c' d' : Nat} (h1 : Step s t n c d)
    (h2 : Fail t u n' c' d') : Fail s u (n + n') (c + c') (d + d') := by
  obtain ⟨⟨a1, a2⟩, a3, a4⟩ := h1
  obtain ⟨b1, b2, b3, b4⟩ := h2
  refine ⟨?_, b2, by omega, by omega⟩
  cases hf : s.fuse with
  | none =>
    rw [a1 hf] at b1
    cases b1
  | some m =>
    obtain ⟨x1, x2⟩ := a2 m hf
    rw [x2] at b1
    have := Option.some.inj b1
    congr 1
    omega

theorem Step.le_fuse {s t : State T} {n c d m : Nat} (h : Step s t n c d)
    (hm : s.fuse = some m) : n ≤ m := (h.1.2 m hm).1

theorem Step.quiet {s t : State T} {n c d : Nat} (h : Step s t n c d) : Quiet s t := h.1.1

theorem write_ctors {s t : State T} {p : Ptr} {y : Slot T} (h : s.write p y = some t) :
    t.ctors = s.ctors := by
  unfold State.write at h
  split at h
  · cases h
    rfl
  · cases h

theorem write_seq_full {s1 : State T} {dst : Ptr} (y : Slot T) {k : State T → Res (State T) α}
    {Q : α → State T → Prop} {R : State T → Prop} (hd : (s1.read dst).isSome)
    (hk : ∀ t, Wrote s1 t dst y → t.fuse = s1.fuse → t.ctors = s1.ctors →
      t.dtors = s1.dtors → (k t).Full Q R) :
    (match s1.write dst y with
      | some t => k t
      | none => (Res.ub : Res (State T) α)).Full Q R := by
  obtain ⟨z, hz⟩ := Option.isSome_iff_exists.1 hd
  obtain ⟨bl, h1, h2, _⟩ := read_eq_some hz
  obtain ⟨t, ht, hw, hfu, hdt⟩ := write_spec y h1 h2
  rw [ht]
  exact hk t hw hfu (write_ctors ht) hdt

theorem fallible_full (s : State T) :
    (fallible s).Full (fun _ t => t.blocks = s.blocks ∧ Step s t 1 0 0)
      (fun t => t.blocks = s.blocks ∧ Fail s t 0 0 0) := by
  unfold fallible
  cases hf : s.fuse with
  | none => exact ⟨rfl, ⟨fun h => h, fun m hm => (by rw [hf] at hm; cases hm)⟩, rfl, rfl⟩
  | some m =>
    cases m with
    | zero => exact ⟨rfl, hf, rfl, rfl, rfl⟩
    | succ m =>
      refine ⟨rfl, ⟨fun h => (by rw [hf] at h; cases h), fun m' hm => ?_⟩, rfl, rfl⟩
      rw [hf] at hm
      cases hm
      exact ⟨by omega, rfl⟩

theorem Step.extend {s s1 t : State T} {n c d C D : Nat} (h : Step s s1 n c d) (a b : Nat)
    (hf : t.fuse = s1.fuse) (hc : t.ctors = s1.ctors + a) (hd : t.dtors = s1.dtors + b)
    (hC : C = c + a) (hD : D = d + b) : Step s t n C D := by
  subst hC hD
  have := h.append (Step.of_eq hf hc hd)
  exact this

theorem construct_copy_full {s : State T} {dst src : Ptr} {x : T}
    (hs : s.read src = some (.live x)) (hd : (s.read dst).isSome) :
    (construct_copy dst src s).Full (fun _ t => Wrote s t dst (.live x) ∧ Step s t 1 1 0)
      (fun t => t.blocks = s.blocks ∧ Fail s t 0 0 0) := by
  unfold construct_copy
  obtain ⟨z, hz⟩ := Option.isSome_iff_exists.1 hd
  rw [hs, hz]
  refine (fallible_full s).bind (fun t ht => ht) ?_
  intro _ s1 ⟨hb, hst⟩
  refine write_seq_full _ (by rw [read_of_blocks_eq hb, hz]; rfl) ?_
  intro t hw hf hc hdt
  exact ⟨hw.of_blocks_eq hb rfl, hst.extend 1 0 hf (congrArg (· + 1) hc) hdt rfl rfl⟩

theorem assign_copy_full {s : State T} {dst src : Ptr} {x y : T}
    (hs : s.read src = some (.live x)) (hd : s.read dst = some (.live y)) :
    (assign_copy dst src s).Full (fun _ t => Wrote s t dst (.live x) ∧ Step s t 1 0 0)
      (fun t => t.blocks = s.blocks ∧ Fail s t 0 0 0) := by
  unfold assign_copy
  rw [hs, hd]
  refine (fallible_full s).bind (fun t ht => ht) ?_
  intro _ s1 ⟨hb, hst⟩
  refine write_seq_full _ (by rw [read_of_blocks_eq hb, hd]; rfl) ?_
  intro t hw hf hc hdt
  exact ⟨hw.of_blocks_eq_left hb, hst.extend 0 0 hf hc hdt rfl rfl⟩

theorem construct_args_full (E : ElemType T) (hE : E.nothrow_move_constructible = false)
    {s : State T} {dst : Ptr} {args : Args T} {x : T}
    (hv : args.value s = some x) (hd : (s.read dst).isSome) (hw : ¬ args.writes dst.blk) :
    (construct_args E dst args s).Full
      (fun _ t => Step s t 1 1 0 ∧ ∃ bl, s.block dst.blk = some bl ∧ dst.off < bl.length ∧
        t.block dst.blk = some (bl.set dst.off (.live x)) ∧
        (∀ c, c ≠ dst.blk → ¬ args.writes c → t.block c = s.block c))
      (fun t => t.blocks = s.blocks ∧ Fail s t 0 0 0) := by
  refine Res.Full.weaken (Q := fun _ t => Step s t 1 1 0 ∧ _) (Res.Full.and_ok (Q := fun _ t =>
    Step s t 1 1 0) ?_ (construct_args_sat E hv hw).1) (fun _ t h => ⟨h.1, ?_⟩) (fun _ h => h)
  · cases args with
    | copyOf p =>
      exact (construct_copy_full (read_live_of_match hv) hd).weaken (fun _ _ h => h.2)
        (fun _ h => h)
    | moveOf p =>
      have hs := read_live_of_match hv
      obtain ⟨z, hz⟩ := Option.isSome_iff_exists.1 hd
      unfold construct_args construct_move
      simp only
      rw [hs, hz, hE]
      refine (show (fallibleUnless false s).Full _ _ from fallible_full s).bind
        (fun t ht => ht) ?_
      intro _ s1 ⟨hb, hst⟩
      refine write_seq_full _ (by rw [read_of_blocks_eq hb, hz]; rfl) ?_
      intro t hw1 hf hc hdt
      refine write_seq_full _ (by rw [hw1.isSome_read, read_of_blocks_eq hb, hs]; rfl) ?_
      intro t2 hw2 hf2 hc2 hdt2
      exact hst.extend 1 0 (hf2.trans hf) (congrArg (· + 1) (hc2.trans hc))
        (hdt2.trans hdt) rfl rfl
    | make y =>
      obtain ⟨z, hz⟩ := Option.isSome_iff_exists.1 hd
      unfold construct_args
      simp only
      rw [hz]
      refine (fallible_full s).bind (fun t ht => ht) ?_
      intro _ s1 ⟨hb, hst⟩
      refine write_seq_full _ (by rw [read_of_blocks_eq hb, hz]; rfl) ?_
      intro t hw1 hf hc hdt
      exact hst.extend 1 0 hf (congrArg (· + 1) hc) hdt rfl rfl
  · obtain ⟨bl, h1, h2, h3, h4, _⟩ := h.2
    exact ⟨bl, h1, h2, h3, h4⟩

theorem Destroy_ctors {s t : State T} {buf : Ptr} (e : Destroy buf s = .ok () t) :
    t.ctors = s.ctors := by
  unfold Destroy at e
  split at e
  · split at e
    · rename_i hw
      cases e
      have := write_ctors hw
      exact this
    · cases e
  · cases e

theorem destroy_n_ctors (n : Nat) : ∀ (p : Ptr) (s : State T) (ret : Ptr) (t : State T),
    destroy_n p n s = .ok ret t → t.ctors = s.ctors := by
  induction n with
  | zero =>
    intro p s ret t e
    cases e
    rfl
  | succ n ih =>
    intro p s ret t e
    unfold destroy_n at e
    cases hD : Destroy p s with
    | ok a s1 =>
      rw [hD] at e
      exact (ih _ _ _ _ e).trans (Destroy_ctors hD)
    | thrown s1 =>
      rw [hD] at e
      cases e
    | ub =>
      rw [hD] at e
      cases e

theorem destroy_n_full (n : Nat) (B b : Nat) (s : State T) (lb : List (Slot T))
    (hb : s.block B = some lb) (hlive : ∀ j, j < n → ∃ y, lb[b + j]? = some (.live y)) :
    (destroy_n ⟨B, b⟩ n s).Full
      (fun ret t => ret = ⟨B, b + n⟩ ∧
        t.block B = some (splice lb b (List.replicate n Slot.raw)) ∧
        (∀ c, c ≠ B → t.block c = s.block c) ∧ Step s t 0 0 n)
      (fun _ => False) := by
  refine ((Res.Full.of_sat (destroy_n_sat n B b s lb hb hlive)).and_ok
    (destroy_n_ctors n _ s)).weaken ?_ (fun _ h => h)
  rintro ret t ⟨⟨h1, h2, h3, h4, h5⟩, h6⟩
  exact ⟨h1, h2, h3, Step.of_eq h4 h6 h5⟩

theorem Step.cast {s t : State T} {n c d n' c' d' : Nat} (h : Step s t n c d)
    (hn : n = n') (hc : c = c') (hd : d = d') : Step s t n' c' d' := by
  subst hn hc hd
  exact h

theorem Fail.recount {s t : State T} {n c d n' c' d' : Nat} (h : Fail s t n c d)
    (hn : n = n') (hc : c = c') (hd : d = d') : Fail s t n' c' d' := by
  subst hn hc hd
  exact h

theorem Fail.cleanup {s t u : State T} {n c d c' d' : Nat} (h : Fail s t n c d)
    (h' : Step t u 0 c' d') : Fail s u n (c + c') (d + d') := by
  obtain ⟨a1, a2, a3, a4⟩ := h
  obtain ⟨⟨b1, _⟩, b3, b4⟩ := h'
  exact ⟨a1, b1 a2, by omega, by omega⟩

theorem destroy_full {B b0 b : Nat} (h0 : b0 ≤ b) (s : State T) (lb : List (Slot T))
    (hb : s.block B = some lb)
    (hlive : ∀ i, b0 ≤ i → i < b → ∃ y, lb[i]? = some (.live y)) :
    (destroy ⟨B, b0⟩ ⟨B, b⟩ s).Full
      (fun _ t => t.block B = some (splice lb b0 (List.replicate (b - b0) Slot.raw)) ∧
        (∀ c, c ≠ B → t.block c = s.block c) ∧ Step s t 0 0 (b - b0))
      (fun _ => False) := by
  unfold destroy
  have hd : distance ⟨B, b0⟩ ⟨B, b⟩ = some (b - b0) := by simp [distance, h0]
  rw [hd]
  refine (destroy_n_full (b - b0) B b0 s lb hb (fun j hj => hlive (b0 + j) (by omega)
    (by omega))).bind (fun _ h => h.elim) ?_
  rintro _ t ⟨_, h2, h3, h4⟩
  exact ⟨h2, h3, h4⟩

theorem uninitialized_copy_loop_full {A B : Nat} (hAB : A ≠ B) (b0 : Nat) (vals : List T) :
    ∀ (a b : Nat) (s : State T) (la lb : List (Slot T)),
    s.block A = some la → s.block B = some lb →
    (∀ (j : Nat) (x : T), vals[j]? = some x → la[a + j]? = some (.live x)) →
    b + vals.length ≤ lb.length → b0 ≤ b →
    (∀ i, b0 ≤ i → i < b → ∃ y, lb[i]? = some (.live y)) →
    (uninitialized_copy_loop ⟨B, b0⟩ vals.length ⟨A, a⟩ ⟨B, b⟩ s).Full
      (fun ret t => ret = ⟨B, b + vals.length⟩ ∧
        t.block B = some (splice lb b (vals.map Slot.live)) ∧
        (∀ c, c ≠ B → t.block c = s.block c) ∧ Step s t vals.length vals.length 0)
      (fun t => ∃ j lb', j < vals.length ∧ t.block B = some lb' ∧ lb'.length = lb.length ∧
        (∀ i, i < b0 ∨ b + j ≤ i → lb'[i]? = lb[i]?) ∧
        (∀ i, b0 ≤ i → i < b + j → lb'[i]? = some Slot.raw) ∧
        (∀ c, c ≠ B → t.block c = s.block c) ∧ Fail s t j j (b - b0 + j)) := by
  induction vals with
  | nil =>
    intro a b s la lb _ hb _ _ _ _
    exact ⟨rfl, by simpa [splice_nil] using hb, fun _ _ => rfl, Step.idle s⟩
  | cons v vs ih =>
    intro a b s la lb ha hb hsrc hlen h0 hlive
    simp only [List.length_cons] at hlen
    have hr : s.read ⟨A, a⟩ = some (.live v) := by
      rw [read_of_block (p := ⟨A, a⟩) ha]
      simpa using hsrc 0 v (by simp)
    have hd : (s.read ⟨B, b⟩).isSome := by
      rw [read_of_block (p := ⟨B, b⟩) hb, List.getElem?_eq_getElem (by simp; omega)]
      rfl
    simp only [List.length_cons]
    unfold uninitialized_copy_loop
    refine (construct_copy_full hr hd).bind ?_ ?_
    · rintro t0 ⟨hbl, hfail⟩
      have hb0 : t0.block B = some lb := by rw [block_of_blocks_eq hbl, hb]
      refine (Res.Full.rethrow (destroy_full h0 t0 lb hb0 hlive) ?_).weaken
        (fun _ _ h => h.elim) (fun _ h => h)
      rintro _ t ⟨d1, d2, d3⟩
      have hsl : b0 + (List.replicate (b - b0) (Slot.raw : Slot T)).length ≤ lb.length := by
        rw [List.length_replicate]
        omega
      refine ⟨0, _, Nat.succ_pos _, d1, length_splice hsl, fun i hi => ?_, fun i h1 h2 => ?_,
        fun c hc => (d2 c hc).trans (block_of_blocks_eq hbl c), ?_⟩
      · rw [getElem?_splice hsl, List.length_replicate]
        rcases hi with hi | hi
        · rw [if_pos hi]
        · rw [if_neg (by omega), if_neg (by omega)]
      · rw [getElem?_splice hsl, List.length_replicate, if_neg (by omega), if_pos (by omega),
          List.getElem?_replicate, if_pos (by omega)]
      · exact (hfail.cleanup d3).recount rfl rfl (by omega)
    · rintro _ s1 ⟨hw, hst⟩
      obtain ⟨h2, h3, h4⟩ := hw.block_eq hb
      have ha1 : s1.block A = some la := by rw [h4 A hAB, ha]
      have hsrc1 : ∀ (j : Nat) (x : T), vs[j]? = some x → la[a + 1 + j]? = some (.live x) := by
        intro j x hx
        have := hsrc (j + 1) x (by simpa using hx)
        rw [← this]
        congr 1
        omega
      have hlive1 : ∀ i, b0 ≤ i → i < b + 1 →
          ∃ y, (lb.set b (Slot.live v))[i]? = some (.live y) := by
        intro i h1 h2'
        by_cases hib : i = b
        · subst hib
          exact ⟨v, List.getElem?_set_self h2⟩
        · rw [List.getElem?_set_ne (fun e => hib e.symm)]
          exact hlive i h1 (by omega)
      refine (ih (a + 1) (b + 1) s1 la _ ha1 h3 hsrc1 (by rw [List.length_set]; omega)
        (by omega) hlive1).weaken ?_ ?_
      · rintro ret t ⟨e1, e3, e4, e5⟩
        refine ⟨by rw [e1]; congr 1; omega, ?_, fun c hc => (e4 c hc).trans (h4 c hc),
          (hst.append e5).cast (by omega) (by omega) rfl⟩
        rw [e3, splice_set_cons _ _ h2]
        rfl
      · rintro t ⟨j, lb', hj, f1, f2, f3, f4, f5, f6⟩
        refine ⟨j + 1, lb', by omega, f1, by rw [f2, List.length_set], fun i hi => ?_,
          fun i h1 h2' => f4 i h1 (by omega), fun c hc => (f5 c hc).trans (h4 c hc),
          (hst.fail f6).recount (by omega) (by omega) (by omega)⟩
        rw [f3 i (by omega), List.getElem?_set_ne (by omega)]

theorem RawMemory_ctor_live_full {n : Nat} (hn : n ≠ 0) (s : State T) :
    (RawMemory.ctor_live n s).Full
      (fun m t => Step s t 1 0 0 ∧ m.capacity_ = n ∧ m.buffer_.off = 0 ∧
        s.block m.buffer_.blk = none ∧
        t.block m.buffer_.blk = some (List.replicate n Slot.raw) ∧
        (∀ c, c ≠ m.buffer_.blk → t.block c = s.block c))
      (fun t => t.blocks = s.blocks ∧ Fail s t 0 0 0) := by
  refine Res.Full.weaken (Q := fun m t => Step s t 1 0 0 ∧ _) (Res.Full.and_ok
    (Q := fun _ t => Step s t 1 0 0) ?_ (RawMemory_ctor_live_sat n s).1) (fun _ t h => ⟨h.1, ?_⟩)
    (fun _ h => h)
  · unfold RawMemory.ctor_live RawMemory.Allocate_live operator_new
    rw [if_pos hn]
    refine Res.Full.bind (Q := fun _ t => Step s t 1 0 0) ?_ (fun _ h => h) (fun _ _ h => h)
    refine (fallible_full s).bind (fun _ h => h) ?_
    rintro _ s1 ⟨_, hst⟩
    exact hst.extend 0 0 rfl rfl rfl rfl rfl
  · obtain ⟨m1, m2, _, m4, m5, m6, _⟩ := h.2
    exact ⟨m1, m2, m4 hn, m5, m6⟩

theorem RawMemory_ctor_full (E : ElemType T) {n : Nat} (hn : n ≠ 0) (hfit : E.fits n)
    (s : State T) :
    (RawMemory.ctor E n s).Full
      (fun m t => Step s t 1 0 0 ∧ m.capacity_ = n ∧ m.buffer_.off = 0 ∧
        s.block m.buffer_.blk = none ∧
        t.block m.buffer_.blk = some (List.replicate n Slot.raw) ∧
        (∀ c, c ≠ m.buffer_.blk → t.block c = s.block c))
      (fun t => t.blocks = s.blocks ∧ Fail s t 0 0 0) := by
  rw [RawMemory_ctor_of_fits E hfit]
  exact RawMemory_ctor_live_full hn s

theorem RawMemory_dtor_full (m : RawMemory) (s : State T) (hoff : m.buffer_.off = 0)
    (hb : (s.block m.buffer_.blk).isSome) :
    (m.dtor s).Full
      (fun _ t => (m.buffer_.blk ≠ 0 → t.block m.buffer_.blk = none) ∧
        (∀ c, c ≠ m.buffer_.blk → t.block c = s.block c) ∧ Step s t 0 0 0)
      (fun _ => False) := by
  unfold RawMemory.dtor RawMemory.Deallocate
  split
  · rename_i hnull
    refine ⟨fun hne => absurd ?_ hne, fun _ _ => rfl, Step.idle s⟩
    rw [hnull]
    rfl
  · rename_i hne
    have hblk : m.buffer_.blk ≠ 0 := by
      intro h0
      apply hne
      rw [← Ptr.eta m.buffer_, h0, hoff]
      rfl
    rw [if_pos ⟨hoff, hblk, hb⟩]
    refine ⟨fun _ => ?_, fun c hc => ?_, Step.of_eq rfl rfl rfl⟩
    · simp only [State.block, hblk, if_false]
      by_cases hlt : m.buffer_.blk - 1 < s.blocks.length
      · rw [List.getElem?_set_self hlt]
        rfl
      · rw [List.getElem?_eq_none (by rw [List.length_set]; omega)]
        rfl
    · simp only [State.block]
      by_cases hc0 : c = 0
      · simp [hc0]
      · simp only [hc0, if_false]
        rw [List.getElem?_set_ne (by omega)]

theorem unwind_new_data_full (v : Vector) (m : RawMemory) (s : State T)
    (hoff : m.buffer_.off = 0) (hb : (s.block m.buffer_.blk).isSome) :
    (unwind_new_data v m s : Res (Vector × State T) β).Full (fun _ _ => False)
      (fun vs => vs.1 = v ∧ (m.buffer_.blk ≠ 0 → vs.2.block m.buffer_.blk = none) ∧
        (∀ c, c ≠ m.buffer_.blk → vs.2.block c = s.block c) ∧ Step s vs.2 0 0 0) := by
  unfold unwind_new_data
  exact Res.Full.rethrow (RawMemory_dtor_full m s hoff hb) (fun _ t h => ⟨rfl, h⟩)

theorem UninitializedMoveOrCopyN_copy_full (E : ElemType T)
    (hE : E.nothrow_move_constructible = false) (hC : E.copy_constructible = true)
    {A B : Nat} (hAB : A ≠ B) (vals : List T) (a b : Nat) (s : State T)
    (la lb : List (Slot T)) (ha : s.block A = some la) (hb : s.block B = some lb)
    (hsrc : ∀ (j : Nat) (x : T), vals[j]? = some x → la[a + j]? = some (.live x))
    (hlen : b + vals.length ≤ lb.length) :
    (UninitializedMoveOrCopyN E ⟨A, a⟩ vals.length ⟨B, b⟩ s).Full
      (fun _ t => t.block B = some (splice lb b (vals.map Slot.live)) ∧
        (∀ c, c ≠ B → t.block c = s.block c) ∧ Step s t vals.length vals.length 0)
      (fun t => ∃ j lb', j < vals.length ∧ t.block B = some lb' ∧ lb'.length = lb.length ∧
        (∀ i, i < b ∨ b + j ≤ i → lb'[i]? = lb[i]?) ∧
        (∀ i, b ≤ i → i < b + j → lb'[i]? = some Slot.raw) ∧
        (∀ c, c ≠ B → t.block c = s.block c) ∧ Fail s t j j j) := by
  unfold UninitializedMoveOrCopyN uninitialized_copy_n
  rw [hE, hC]
  simp only [Bool.not_true, Bool.or_self, Bool.false_eq_true, if_false]
  refine (uninitialized_copy_loop_full hAB b vals a b s la lb ha hb hsrc hlen (Nat.le_refl _)
    (fun i h1 h2 => absurd h2 (by omega))).bind ?_ ?_
  · rintro t ⟨j, lb', h1, h2, h3, h4, h5, h6, h7⟩
    exact ⟨j, lb', h1, h2, h3, h4, h5, h6, h7.recount rfl rfl (by omega)⟩
  · rintro _ t ⟨_, h2, h3, h4⟩
    exact ⟨h2, h3, h4⟩

/-! ## Failing reallocations -/

theorem Reserve_full (E : ElemType T) (hE : E.nothrow_move_constructible = false)
    (hC : E.copy_constructible = true) {s : State T} {v : Vector} {xs : List T}
    (h : v.Holds s xs) (n : Nat) (hgt : v.capacity_ < n) (hfit : E.fits n) :
    (v.Reserve E n s).Full
      (fun _ vs => Step s vs.2 (1 + xs.length) xs.length xs.length)
      (fun vs => vs.1 = v ∧ (∀ c, vs.2.block c = s.block c) ∧
        ∃ j, j ≤ xs.length ∧ Fail s vs.2 j (j - 1) (j - 1)) := by
  obtain ⟨hoff, hnull, hcap, hsize, hle, hlt, hblk⟩ := id h
  unfold Vector.Reserve
  rw [if_neg (by omega)]
  have hn0 : n ≠ 0 := by omega
  refine (RawMemory_ctor_full E hn0 hfit s).bind ?_ ?_
  · rintro t ⟨hb, hf⟩
    exact ⟨rfl, block_of_blocks_eq hb, 0, Nat.zero_le _, hf⟩
  rintro m s1 ⟨hst, m1, m2, m4, m5, m6⟩
  have hAB : v.data_.buffer_.blk ≠ m.buffer_.blk := by
    intro e
    rw [← e, hblk] at m4
    cases m4
  have ha1 : s1.block v.data_.buffer_.blk = some (slotsOf xs v.capacity_) := by
    rw [m6 _ hAB, hblk]
  have e1 : v.data_.GetAddress = ⟨v.data_.buffer_.blk, 0⟩ := h.begin_eq
  have e2 : m.GetAddress = ⟨m.buffer_.blk, 0⟩ := by
    show m.buffer_ = _
    rw [← m2]
  have hm0 : m.buffer_.blk ≠ 0 :=
    (block_ne_nil_blk (i := 0) m5 (by rw [List.length_replicate]; omega)).1
  rw [e1, e2, hsize]
  refine (UninitializedMoveOrCopyN_copy_full E hE hC hAB xs 0 0 s1 _ _ ha1 m5
    (fun j x hx => by rw [Nat.zero_add]; exact getElem?_slotsOf_live hx)
    (by rw [List.length_replicate]; omega)).bind ?_ ?_
  · rintro s2 ⟨j, lb', t1, t2, _, _, _, t6, t7⟩
    refine (unwind_new_data_full v m s2 m2 (by rw [t2]; rfl)).weaken (fun _ _ hf => hf.elim) ?_
    rintro ⟨v', s3⟩ ⟨u1, u2, u3, u4⟩
    refine ⟨u1, fun c => ?_, 1 + j, by omega, ((hst.fail t7).cleanup u4).recount rfl
      (by omega) (by omega)⟩
    by_cases hc : c = m.buffer_.blk
    · rw [hc, u2 hm0, m4]
    · rw [u3 c hc, t6 c hc, m6 c hc]
  · rintro _ s2 ⟨t2, t6, t7⟩
    simp only [RawMemory.Swap, RawMemory.GetAddress]
    rw [h.begin_eq]
    have ha2 : s2.block v.data_.buffer_.blk = some (slotsOf xs v.capacity_) := by
      rw [t6 _ hAB, ha1]
    refine (destroy_n_full xs.length _ 0 s2 _ ha2 (fun j hj => ⟨xs.get ⟨j, hj⟩, by
      rw [Nat.zero_add]
      exact getElem?_slotsOf_live (List.getElem?_eq_getElem hj)⟩)).bind (fun _ hf => hf.elim) ?_
    rintro _ s3 ⟨_, d2, d3, d4⟩
    refine (RawMemory_dtor_full ⟨⟨v.data_.buffer_.blk, 0⟩, v.data_.capacity_⟩ s3 rfl
      (by rw [d2]; rfl)).bind (fun _ hf => hf.elim) ?_
    rintro _ s4 ⟨_, _, f3⟩
    exact (((hst.append t7).append d4).append f3).cast rfl (by omega) (by omega)

/-- Destroying the old elements and freeing the old buffer after a reallocation. -/
theorem release_old_full {τ : Type} {A n cap : Nat} {s2 : State T} {la1 : List (Slot T)}
    {Q : β → τ → Prop} {R : τ → Prop} (k : State T → Res τ β)
    (hA : s2.block A = some la1) (hlive : ∀ j, j < n → ∃ y, la1[j]? = some (.live y))
    (hk : ∀ s4, (∀ c, c ≠ A → s4.block c = s2.block c) → Step s2 s4 0 0 n → (k s4).Full Q R) :
    ((destroy_n ⟨A, 0⟩ n s2).seq (fun _ => Res.ub) fun _ s =>
      ((⟨⟨A, 0⟩, cap⟩ : RawMemory).dtor s).seq (fun _ => Res.ub) fun _ s => k s).Full Q R := by
  refine (destroy_n_full n A 0 s2 la1 hA (fun j hj => by
    simpa using hlive j hj)).bind (fun _ hf => hf.elim) ?_
  rintro _ s3 ⟨_, d2, d3, d4⟩
  refine (RawMemory_dtor_full ⟨⟨A, 0⟩, cap⟩ s3 rfl (by rw [d2]; rfl)).bind
    (fun _ hf => hf.elim) ?_
  rintro _ s4 ⟨_, f2, f3⟩
  exact hk s4 (fun c hc => (f2 c hc).trans (d3 c hc)) ((d4.append f3).cast rfl rfl rfl)

theorem EmplaceBack_full (E : ElemType T) (hE : E.nothrow_move_constructible = false)
    (hC : E.copy_constructible = true) {s : State T} {v : Vector} {xs : List T}
    {args : Args T} {x : T} (h : v.Holds s xs) (hfull : v.size_ = v.capacity_)
    (hsz : 2 * v.size_ < SIZE_T_MOD) (hv : args.value s = some x)
    (hw : ¬ args.writes v.data_.buffer_.blk) :
    (v.EmplaceBack E args s).Full
      (fun _ vs => Step s vs.2 (2 + xs.length) (1 + xs.length) xs.length)
      (fun vs => vs.1 = v ∧ (∀ c, ¬ args.writes c → vs.2.block c = s.block c) ∧
        ∃ j, j ≤ 1 + xs.length ∧ Fail s vs.2 j (j - 1) (j - 2)) := by
  obtain ⟨hoff, hnull, hcap, hsize, hle, hlt, hblk⟩ := id h
  unfold Vector.EmplaceBack
  refine Res.Full.bind (Q := fun _ (vs : Vector × State T) =>
    Step s vs.2 (2 + xs.length) (1 + xs.length) xs.length) ?_ (fun _ hr => hr)
    (fun _ _ hq => hq)
  rw [if_pos hfull]
  simp only
  generalize hc : (if v.size_ ≠ 0 then v.size_ * 2 % SIZE_T_MOD else 1) = c
  have hpos := grow_capacity_pos hsz hc.symm
  have hc0 : c ≠ 0 := by omega
  refine (RawMemory_ctor_live_full hc0 s).bind ?_ ?_
  · rintro t ⟨hb, hf⟩
    exact ⟨rfl, fun c _ => block_of_blocks_eq hb c, 0, Nat.zero_le _, hf⟩
  rintro m s1 ⟨hst, m1, m2, m4, m5, m6⟩
  have hfresh := fun (c' : Nat) (bl : List (Slot T)) (i : Nat) =>
    @fresh_of_ctor _ _ _ c (fun h0 => absurd h0 hc0) (fun _ => m4) c' bl i
  obtain ⟨hv1, hwB⟩ := Args.value_fresh hfresh m6 hv
  have hm0 : m.buffer_.blk ≠ 0 :=
    (block_ne_nil_blk (i := 0) m5 (by rw [List.length_replicate]; omega)).1
  have e2 : m.GetAddress.add v.size_ = ⟨m.buffer_.blk, xs.length⟩ := by
    simp only [RawMemory.GetAddress, Ptr.add, m2, hsize, Nat.zero_add]
  rw [e2]
  have hd : (s1.read ⟨m.buffer_.blk, xs.length⟩).isSome := by
    rw [read_of_block (p := ⟨m.buffer_.blk, xs.length⟩) m5,
      List.getElem?_eq_getElem (by simp; omega)]
    rfl
  refine (construct_args_full E hE hv1 hd hwB).bind ?_ ?_
  · rintro s2 ⟨hb, hf⟩
    refine (unwind_new_data_full v m s2 m2 (by rw [block_of_blocks_eq hb, m5]; rfl)).weaken
      (fun _ _ hf => hf.elim) ?_
    rintro ⟨v', s3⟩ ⟨u1, u2, u3, u4⟩
    refine ⟨u1, fun c' _ => ?_, 1, by omega, ((hst.fail hf).cleanup u4).recount rfl rfl rfl⟩
    by_cases hc' : c' = m.buffer_.blk
    · rw [hc', u2 hm0, m4]
    · rw [u3 c' hc', block_of_blocks_eq hb, m6 c' hc']
  rintro _ s2 ⟨cst, bl, c1, c2, c3, c4⟩
  simp only at c1 c2 c3 c4
  rw [m5] at c1
  cases c1
  have hAB : v.data_.buffer_.blk ≠ m.buffer_.blk := by
    intro e
    rw [← e, hblk] at m4
    cases m4
  have ha2 : s2.block v.data_.buffer_.blk = some (slotsOf xs v.capacity_) := by
    rw [c4 _ hAB hw, m6 _ hAB, hblk]
  have e3 : v.data_.GetAddress = ⟨v.data_.buffer_.blk, 0⟩ := h.begin_eq
  have e4 : m.GetAddress = ⟨m.buffer_.blk, 0⟩ := by
    show m.buffer_ = _
    rw [← m2]
  rw [e3, e4, hsize]
  refine (UninitializedMoveOrCopyN_copy_full E hE hC hAB xs 0 0 s2 _ _ ha2 c3
    (fun j x hx => by rw [Nat.zero_add]; exact getElem?_slotsOf_live hx)
    (by rw [List.length_set, List.length_replicate]; omega)).bind ?_ ?_
  · rintro s3 ⟨j, lb', t1, t2, _, _, _, t6, t7⟩
    refine (unwind_new_data_full v m s3 m2 (by rw [t2]; rfl)).weaken (fun _ _ hf => hf.elim) ?_
    rintro ⟨v', s4⟩ ⟨u1, u2, u3, u4⟩
    refine ⟨u1, fun c' hcw => ?_, 2 + j, by omega,
      (((hst.append cst).fail t7).cleanup u4).recount (by omega) (by omega) (by omega)⟩
    by_cases hc' : c' = m.buffer_.blk
    · rw [hc', u2 hm0, m4]
    · rw [u3 c' hc', t6 c' hc', c4 c' hc' hcw, m6 c' hc']
  · rintro _ s3 ⟨_, t6, t7⟩
    simp only [RawMemory.Swap, RawMemory.GetAddress]
    rw [h.begin_eq]
    have ha3 : s3.block v.data_.buffer_.blk = some (slotsOf xs v.capacity_) := by
      rw [t6 _ hAB, ha2]
    refine release_old_full _ ha3 (fun j hj => ⟨xs.get ⟨j, hj⟩,
      getElem?_slotsOf_live (List.getElem?_eq_getElem hj)⟩) ?_
    intro s4 _ f2
    exact (((hst.append cst).append t7).append f2).cast (by omega) (by omega) (by omega)

theorem UninitializedMoveOrCopyN_copy_full_len (E : ElemType T)
    (hE : E.nothrow_move_constructible = false) (hC : E.copy_constructible = true)
    {A B : Nat} (hAB : A ≠ B) (vals : List T) {n : Nat} (hn : vals.length = n) (a b : Nat)
    (s : State T) (la lb : List (Slot T)) (ha : s.block A = some la)
    (hb : s.block B = some lb)
    (hsrc : ∀ (j : Nat) (x : T), vals[j]? = some x → la[a + j]? = some (.live x))
    (hlen : b + n ≤ lb.length) :
    (UninitializedMoveOrCopyN E ⟨A, a⟩ n ⟨B, b⟩ s).Full
      (fun _ t => t.block B = some (splice lb b (vals.map Slot.live)) ∧
        (∀ c, c ≠ B → t.block c = s.block c) ∧ Step s t n n 0)
      (fun t => ∃ j lb', j < n ∧ t.block B = some lb' ∧ lb'.length = lb.length ∧
        (∀ i, i < b ∨ b + j ≤ i → lb'[i]? = lb[i]?) ∧
        (∀ i, b ≤ i → i < b + j → lb'[i]? = some Slot.raw) ∧
        (∀ c, c ≠ B → t.block c = s.block c) ∧ Fail s t j j j) := by
  subst hn
  exact UninitializedMoveOrCopyN_copy_full E hE hC hAB vals a b s la lb ha hb hsrc hlen

/-- The handler of `EmplaceReallocate`: destroy `[b0, b)` of the new storage,
then free the new storage on the way out. -/
theorem catch_handler_full (v : Vector) (m : RawMemory) {b0 b : Nat} (h0 : b0 ≤ b)
    (s : State T) (lb : List (Slot T)) (hoff : m.buffer_.off = 0)
    (hb : s.block m.buffer_.blk = some lb)
    (hlive : ∀ i, b0 ≤ i → i < b → ∃ y, lb[i]? = some (.live y)) :
    ((destroy ⟨m.buffer_.blk, b0⟩ ⟨m.buffer_.blk, b⟩ s).seq (fun _ => Res.ub) fun _ s =>
      (unwind_new_data v m s : Res (Vector × State T) β)).Full (fun _ _ => False)
      (fun vs => vs.1 = v ∧ (m.buffer_.blk ≠ 0 → vs.2.block m.buffer_.blk = none) ∧
        (∀ c, c ≠ m.buffer_.blk → vs.2.block c = s.block c) ∧ Step s vs.2 0 0 (b - b0)) := by
  refine (destroy_full h0 s lb hb hlive).bind (fun _ hf => hf.elim) ?_
  rintro _ s1 ⟨d1, d2, d3⟩
  refine (unwind_new_data_full v m s1 hoff (by rw [d1]; rfl)).weaken (fun _ _ hf => hf) ?_
  rintro ⟨v', s2⟩ ⟨u1, u2, u3, u4⟩
  exact ⟨u1, u2, fun c hc => (u3 c hc).trans (d2 c hc), (d3.append u4).cast rfl rfl rfl⟩

theorem EmplaceReallocate_full (E : ElemType T) (hE : E.nothrow_move_constructible = false)
    (hC : E.copy_constructible = true) {s : State T} {v : Vector} {xs : List T}
    {args : Args T} {x : T} {k : Nat} (h : v.Holds s xs) (hk : k ≤ xs.length)
    (hsz : 2 * v.size_ < SIZE_T_MOD) (hv : args.value s = some x)
    (hw : ¬ args.writes v.data_.buffer_.blk) :
    (v.EmplaceReallocate E ⟨v.data_.buffer_.blk, k⟩ args s).Full
      (fun _ vs => Step s vs.2 (2 + xs.length) (1 + xs.length) xs.length)
      (fun vs => vs.1 = v ∧ (∀ c, ¬ args.writes c → vs.2.block c = s.block c) ∧
        ∃ j, j ≤ 1 + xs.length ∧ Fail s vs.2 j (j - 1) (j - 1)) := by
  obtain ⟨hoff, hnull, hcap, hsize, hle, hlt, hblk⟩ := id h
  have hl1 : (xs.take k).length = k := by simp; omega
  have hl2 : (xs.drop k).length = xs.length - k := by simp
  unfold Vector.EmplaceReallocate
  simp only
  generalize hc : (if v.size_ ≠ 0 then v.size_ * 2 % SIZE_T_MOD else 1) = c
  have hpos := grow_capacity_pos hsz hc.symm
  have hc0 : c ≠ 0 := by omega
  refine (RawMemory_ctor_live_full hc0 s).bind ?_ ?_
  · rintro t ⟨hb, hf⟩
    exact ⟨rfl, fun c _ => block_of_blocks_eq hb c, 0, Nat.zero_le _, hf⟩
  rintro m s1 ⟨hst, m1, m2, m4, m5, m6⟩
  have hfresh := fun (c' : Nat) (bl : List (Slot T)) (i : Nat) =>
    @fresh_of_ctor _ _ _ c (fun h0 => absurd h0 hc0) (fun _ => m4) c' bl i
  obtain ⟨hv1, hwB⟩ := Args.value_fresh hfresh m6 hv
  have hm0 : m.buffer_.blk ≠ 0 :=
    (block_ne_nil_blk (i := 0) m5 (by rw [List.length_replicate]; omega)).1
  have e0 : distance v.cbegin ⟨v.data_.buffer_.blk, k⟩ = some k := by
    simp [distance, Vector.cbegin, RawMemory.GetAddress, hoff]
  have e3 : v.begin = ⟨v.data_.buffer_.blk, 0⟩ := h.begin_eq
  have e4 : m.GetAddress = ⟨m.buffer_.blk, 0⟩ := by
    show m.buffer_ = _
    rw [← m2]
  have e5 : usub v.size_ k = xs.length - k := by rw [usub_of_le (by omega), hsize]
  rw [e0]
  simp only [e3, e4, e5, Ptr.add, Nat.zero_add]
  have hd : (s1.read ⟨m.buffer_.blk, k⟩).isSome := by
    rw [read_of_block (p := ⟨m.buffer_.blk, k⟩) m5, List.getElem?_eq_getElem (by simp; omega)]
    rfl
  refine (construct_args_full E hE hv1 hd hwB).bind ?_ ?_
  · rintro s2 ⟨hb, hf⟩
    refine (unwind_new_data_full v m s2 m2 (by rw [block_of_blocks_eq hb, m5]; rfl)).weaken
      (fun _ _ hf => hf.elim) ?_
    rintro ⟨v', s3⟩ ⟨u1, u2, u3, u4⟩
    refine ⟨u1, fun c' _ => ?_, 1, by omega, ((hst.fail hf).cleanup u4).recount rfl rfl rfl⟩
    by_cases hc' : c' = m.buffer_.blk
    · rw [hc', u2 hm0, m4]
    · rw [u3 c' hc', block_of_blocks_eq hb, m6 c' hc']
  rintro _ s2 ⟨cst, bl, c1, c2, c3, c4⟩
  simp only at c1 c2 c3 c4
  rw [m5] at c1
  cases c1
  rw [List.length_replicate] at c2
  have hAB : v.data_.buffer_.blk ≠ m.buffer_.blk := by
    intro e
    rw [← e, hblk] at m4
    cases m4
  have ha2 : s2.block v.data_.buffer_.blk = some (slotsOf xs v.capacity_) := by
    rw [c4 _ hAB hw, m6 _ hAB, hblk]
  have hframe : ∀ (t u : State T), (∀ c', c' ≠ m.buffer_.blk → t.block c' = s2.block c') →
      (m.buffer_.blk ≠ 0 → u.block m.buffer_.blk = none) →
      (∀ c', c' ≠ m.buffer_.blk → u.block c' = t.block c') →
      ∀ c', ¬ args.writes c' → u.block c' = s.block c' := by
    intro t u ht hu1 hu2 c' hcw
    by_cases hc' : c' = m.buffer_.blk
    · rw [hc', hu1 hm0, m4]
    · rw [hu2 c' hc', ht c' hc', c4 c' hc' hcw, m6 c' hc']
  have hlb1 : ((List.replicate c (Slot.raw : Slot T)).set k (Slot.live x)).length = c := by
    rw [List.length_set, List.length_replicate]
  refine (UninitializedMoveOrCopyN_copy_full_len E hE hC hAB (xs.take k) hl1 0 0 s2 _ _ ha2 c3
    (fun j y hy => ?_) (by rw [hlb1]; omega)).bind ?_ ?_
  · rw [Nat.zero_add]
    rw [List.getElem?_take] at hy
    split at hy
    · exact getElem?_slotsOf_live hy
    · cases hy
  · rintro s3 ⟨j, lb', t1, t2, _, t4, _, t6, t7⟩
    refine (catch_handler_full v m (Nat.le_succ k) s3 lb' m2 t2 (fun i h1 h2 => ?_)).weaken
      (fun _ _ hf => hf.elim) ?_
    · have hik : i = k := by omega
      subst hik
      rw [t4 i (Or.inr (by omega))]
      exact ⟨x, List.getElem?_set_self (by rw [List.length_replicate]; omega)⟩
    · rintro ⟨v', s4⟩ ⟨u1, u2, u3, u4⟩
      exact ⟨u1, hframe s3 s4 t6 u2 u3, 2 + j, by omega,
        (((hst.append cst).fail t7).cleanup u4).recount (by omega) (by omega) (by omega)⟩
  rintro _ s3 ⟨t2, t6, t7⟩
  have hsp : 0 + ((xs.take k).map Slot.live).length ≤
      ((List.replicate c (Slot.raw : Slot T)).set k (Slot.live x)).length := by
    rw [hlb1, List.length_map, hl1]
    omega
  have hlb2 : (splice ((List.replicate c Slot.raw).set k (Slot.live x)) 0
      ((xs.take k).map Slot.live)).length = c := by
    rw [length_splice hsp, hlb1]
  have hlive2 : ∀ i, i < k + 1 → ∃ y, (splice ((List.replicate c Slot.raw).set k (Slot.live x))
      0 ((xs.take k).map Slot.live))[i]? = some (.live y) := by
    intro i hi
    rw [getElem?_splice hsp, if_neg (Nat.not_lt_zero _), List.length_map, hl1, Nat.zero_add,
      Nat.sub_zero]
    by_cases hik : i < k
    · rw [if_pos hik, List.getElem?_map, List.getElem?_eq_getElem (by rw [hl1]; exact hik)]
      exact ⟨_, rfl⟩
    · have hik' : i = k := by omega
      subst hik'
      rw [if_neg hik]
      exact ⟨x, List.getElem?_set_self (by rw [List.length_replicate]; omega)⟩
  have ha3 : s3.block v.data_.buffer_.blk = some (slotsOf xs v.capacity_) := by
    rw [t6 _ hAB, ha2]
  refine (UninitializedMoveOrCopyN_copy_full_len E hE hC hAB (xs.drop k) hl2 k (k + 1) s3
    _ _ ha3 t2 (fun j y hy => ?_) (by rw [hlb2]; omega)).bind ?_ ?_
  · rw [List.getElem?_drop] at hy
    exact getElem?_slotsOf_live hy
  · rintro s4 ⟨j, lb', u1, u2, _, u4, _, u6, u7⟩
    refine (catch_handler_full v m (Nat.zero_le (k + 1)) s4 lb' m2 u2 (fun i _ h2 => ?_)).weaken
      (fun _ _ hf => hf.elim) ?_
    · rw [u4 i (Or.inl h2)]
      exact hlive2 i h2
    · rintro ⟨v', s5⟩ ⟨w1, w2, w3, w4⟩
      exact ⟨w1, hframe s4 s5 (fun c' hc' => (u6 c' hc').trans (t6 c' hc')) w2 w3, 2 + (k + j),
        by omega, ((((hst.append cst).append t7).fail u7).cleanup w4).recount (by omega) (by omega)
          (by omega)⟩
  · rintro _ s4 ⟨_, u6, u7⟩
    simp only [RawMemory.Swap, RawMemory.GetAddress]
    rw [h.begin_eq]
    have ha4 : s4.block v.data_.buffer_.blk = some (slotsOf xs v.capacity_) := by
      rw [u6 _ hAB, ha3]
    refine release_old_full _ ha4 (fun j hj => ⟨xs.get ⟨j, by omega⟩,
      getElem?_slotsOf_live (List.getElem?_eq_getElem (by omega))⟩) ?_
    intro s5 _ f2
    exact ((((hst.append cst).append t7).append u7).append f2).cast (by omega) (by omega)
      (by omega)

/-- A reallocating `EmplaceBack` whose copy of element `j` throws: the vector
is unchanged, but one constructor more than destructors has run, the new
element constructed at slot `Size()` of the new storage being never destroyed. -/
theorem EmplaceBack_realloc_leak (E : ElemType T) (hE : E.nothrow_move_constructible = false)
    (hC : E.copy_constructible = true) {s : State T} {v : Vector} {xs : List T}
    {args : Args T} {x : T} {j : Nat} (h : v.Holds s xs) (hfull : v.size_ = v.capacity_)
    (hsz : 2 * v.size_ < SIZE_T_MOD) (hv : args.value s = some x)
    (hw : ¬ args.writes v.data_.buffer_.blk) (hj : j < xs.length)
    (hf : s.fuse = some (j + 2)) :
    ∃ s1, v.EmplaceBack E args s = .thrown (v, s1) ∧
      (∀ c, ¬ args.writes c → s1.block c = s.block c) ∧
      s1.ctors = s.ctors + (j + 1) ∧ s1.dtors = s.dtors + j := by
  obtain ⟨⟨v1, s1⟩, e, r1, r2, i, _, r4⟩ := (EmplaceBack_full E hE hC h hfull hsz hv hw).thrown_of
    (fun _ vs hst => by
      have := hst.le_fuse hf
      omega)
  simp only at r1 r2 r4
  subst r1
  have hi : i = j + 2 := by
    have := r4.1
    rw [hf] at this
    exact (Option.some.inj this).symm
  subst hi
  exact ⟨s1, e, r2, r4.2.2.1, r4.2.2.2⟩

/-! ## Failing copy assignment -/

theorem copy_loop_cross_full {A B : Nat} (hAB : A ≠ B) (vals : List T) :
    ∀ (a d : Nat) (s : State T) (la lb : List (Slot T)),
    s.block A = some la → s.block B = some lb →
    (∀ (j : Nat) (x : T), vals[j]? = some x → lb[a + j]? = some (.live x)) →
    (∀ j, j < vals.length → ∃ y, la[d + j]? = some (.live y)) →
    (copy_loop vals.length ⟨B, a⟩ ⟨A, d⟩ s).Full
      (fun ret t => ret = ⟨A, d + vals.length⟩ ∧
        t.block A = some (splice la d (vals.map Slot.live)) ∧
        (∀ c, c ≠ A → t.block c = s.block c) ∧ Step s t vals.length 0 0)
      (fun t => ∃ j, j < vals.length ∧
        t.block A = some (splice la d ((vals.take j).map Slot.live)) ∧
        (∀ c, c ≠ A → t.block c = s.block c) ∧ Fail s t j 0 0) := by
  induction vals with
  | nil =>
    intro a d s la lb ha _ _ _
    exact ⟨rfl, by simpa [splice_nil] using ha, fun _ _ => rfl, Step.idle s⟩
  | cons v vs ih =>
    intro a d s la lb ha hb hsrc hdst
    have hv : lb[a]? = some (.live v) := by simpa using hsrc 0 v (by simp)
    obtain ⟨y, hy⟩ := hdst 0 (by simp)
    have hy0 : la[d]? = some (.live y) := by simpa using hy
    have hlt : d < la.length := (List.getElem?_eq_some_iff.1 hy0).1
    have hrs : s.read ⟨B, a⟩ = some (.live v) := by
      rw [read_of_block (p := ⟨B, a⟩) hb]
      exact hv
    have hrd : s.read ⟨A, d⟩ = some (.live y) := by
      rw [read_of_block (p := ⟨A, d⟩) ha]
      exact hy0
    simp only [List.length_cons]
    unfold copy_loop
    simp only [Ptr.add]
    refine (assign_copy_full hrs hrd).bind ?_ ?_
    · rintro t ⟨hbl, hf⟩
      refine ⟨0, Nat.succ_pos _, ?_, fun c _ => block_of_blocks_eq hbl c, hf⟩
      rw [block_of_blocks_eq hbl, ha]
      simp [splice_nil]
    · rintro _ s1 ⟨hw, hst⟩
      obtain ⟨_, b1, f1⟩ := hw.block_eq ha
      have hb1 : s1.block B = some lb := by rw [f1 B (Ne.symm hAB), hb]
      have hsrc1 : ∀ (j : Nat) (x : T), vs[j]? = some x → lb[a + 1 + j]? = some (.live x) := by
        intro j x hx
        have := hsrc (j + 1) x (by simpa using hx)
        rw [← this]
        congr 1
        omega
      have hdst1 : ∀ j, j < vs.length → ∃ y, (la.set d (Slot.live v))[d + 1 + j]? =
          some (.live y) := by
        intro j hj
        rw [List.getElem?_set_ne (by omega)]
        obtain ⟨y, hy⟩ := hdst (j + 1) (by simp; omega)
        exact ⟨y, by rw [← hy]; congr 1; omega⟩
      refine (ih (a + 1) (d + 1) s1 _ lb b1 hb1 hsrc1 hdst1).weaken ?_ ?_
      · rintro ret t ⟨e1, e2, e3, e4⟩
        refine ⟨by rw [e1]; congr 1; omega, ?_, fun c hc => (e3 c hc).trans (f1 c hc),
          (hst.append e4).cast (by omega) rfl rfl⟩
        rw [e2, splice_set_cons _ _ hlt]
        rfl
      · rintro t ⟨j, hj, e2, e3, e4⟩
        refine ⟨j + 1, by omega, ?_, fun c hc => (e3 c hc).trans (f1 c hc),
          (hst.fail e4).recount (by omega) rfl rfl⟩
        rw [e2, splice_set_cons _ _ hlt]
        rfl

theorem copy_loop_self_full (A n : Nat) :
    ∀ (a : Nat) (s : State T) (la : List (Slot T)), s.block A = some la →
    (∀ j, j < n → ∃ y, la[a + j]? = some (.live y)) →
    (copy_loop n ⟨A, a⟩ ⟨A, a⟩ s).Full
      (fun ret t => ret = ⟨A, a + n⟩ ∧ (∀ c, t.block c = s.block c) ∧ Step s t n 0 0)
      (fun t => ∀ c, t.block c = s.block c) := by
  induction n with
  | zero =>
    intro a s la _ _
    exact ⟨rfl, fun _ => rfl, Step.idle s⟩
  | succ n ih =>
    intro a s la ha hlive
    obtain ⟨y, hy⟩ := hlive 0 (by omega)
    have hy0 : la[a]? = some (.live y) := by simpa using hy
    have hlt : a < la.length := (List.getElem?_eq_some_iff.1 hy0).1
    have hr : s.read ⟨A, a⟩ = some (.live y) := by
      rw [read_of_block (p := ⟨A, a⟩) ha]
      exact hy0
    unfold copy_loop
    simp only [Ptr.add]
    refine (assign_copy_full hr hr).bind ?_ ?_
    · rintro t ⟨hbl, _⟩
      exact block_of_blocks_eq hbl
    · rintro _ s1 ⟨hw, hst⟩
      obtain ⟨_, b1, f1⟩ := hw.block_eq ha
      have hset : la.set a (Slot.live y) = la := by
        apply List.ext_getElem?
        intro i
        by_cases h : a = i
        · subst h
          rw [List.getElem?_set_self hlt, hy0]
        · rw [List.getElem?_set_ne h]
      rw [hset] at b1
      have hsame : ∀ c, s1.block c = s.block c := by
        intro c
        by_cases hc : c = A
        · rw [hc, b1, ha]
        · exact f1 c hc
      refine (ih (a + 1) s1 la b1 (fun j hj => ?_)).weaken ?_ ?_
      · obtain ⟨z, hz⟩ := hlive (j + 1) (by omega)
        exact ⟨z, by rw [← hz]; congr 1; omega⟩
      · rintro ret t ⟨e1, e2, e3⟩
        exact ⟨by rw [e1]; congr 1; omega, fun c => (e2 c).trans (hsame c),
          (hst.append e3).cast (by omega) rfl rfl⟩
      · intro t e2 c
        exact (e2 c).trans (hsame c)

theorem partial_assign_layout (xs ys : List T) (cap j : Nat) (hj1 : j ≤ xs.length)
    (hj2 : j ≤ ys.length) (hcap : xs.length ≤ cap) :
    splice (slotsOf xs cap) 0 ((ys.take j).map Slot.live) =
      slotsOf (ys.take j ++ xs.drop j) cap := by
  have hlen0 : (slotsOf xs cap).length = cap := length_slotsOf hcap
  have hl1 : (ys.take j).length = j := by simp; omega
  have b1 : 0 + ((ys.take j).map Slot.live).length ≤ (slotsOf xs cap).length := by
    rw [hlen0, List.length_map, hl1]; omega
  have hl2 : (ys.take j ++ xs.drop j).length = xs.length := by
    rw [List.length_append, hl1, List.length_drop]
    omega
  apply List.ext_getElem?
  intro i
  rw [getElem?_splice b1, getElem?_slotsOf, getElem?_slotsOf, hl2, List.length_map, hl1,
    if_neg (Nat.not_lt_zero _), Nat.zero_add, Nat.sub_zero]
  by_cases c1 : i < j
  · rw [if_pos c1, if_pos (by omega), List.getElem?_map, List.getElem?_append, hl1, if_pos c1]
  · rw [if_neg c1]
    by_cases c2 : i < xs.length
    · rw [if_pos c2, if_pos c2, List.getElem?_append, hl1, if_neg c1, List.getElem?_drop]
      congr 2
      omega
    · rw [if_neg c2, if_neg c2]

theorem Vector_ctor_copy_full {s : State T} {other : Vector} {ys : List T}
    (ho : other.Holds s ys) (hne : ys ≠ []) :
    (Vector.ctor_copy other s).Full
      (fun cp t => cp.Holds t ys ∧ s.block cp.data_.buffer_.blk = none ∧
        (∀ c, (s.block c).isSome → t.block c = s.block c))
      (fun t => ∀ c, t.block c = s.block c) := by
  refine Res.Full.weaken (Res.Full.and_ok (Q := fun _ _ => True) ?_ (Vector_ctor_copy_sat ho).1)
    (fun _ t hq => ⟨hq.2.1, hq.2.2.2.1 hne, hq.2.2.2.2.1⟩) (fun _ hr => hr)
  obtain ⟨ooff, onull, ocap, osize, ole, olt, oblk⟩ := id ho
  have hn0 : ys.length ≠ 0 := fun e => hne (List.length_eq_zero.1 e)
  unfold Vector.ctor_copy
  rw [osize]
  refine (RawMemory_ctor_live_full hn0 s).bind (fun t ht => block_of_blocks_eq ht.1) ?_
  rintro m s1 ⟨_, _, m2, m4, m5, m6⟩
  have hAB : other.data_.buffer_.blk ≠ m.buffer_.blk := by
    intro e
    rw [← e, oblk] at m4
    cases m4
  have hm0 : m.buffer_.blk ≠ 0 :=
    (block_ne_nil_blk (i := 0) m5 (by rw [List.length_replicate]; omega)).1
  have e3 : other.data_.GetAddress = ⟨other.data_.buffer_.blk, 0⟩ := ho.begin_eq
  have e4 : m.GetAddress = ⟨m.buffer_.blk, 0⟩ := by
    show m.buffer_ = _
    rw [← m2]
  simp only [e3, e4]
  unfold uninitialized_copy_n
  have ob1 : s1.block other.data_.buffer_.blk = some (slotsOf ys other.capacity_) := by
    rw [m6 _ hAB, oblk]
  refine (uninitialized_copy_loop_full hAB 0 ys 0 0 s1 _ _ ob1 m5
    (fun j x hx => by rw [Nat.zero_add]; exact getElem?_slotsOf_live hx)
    (by rw [List.length_replicate]; omega) (Nat.le_refl _)
    (fun i _ h2 => absurd h2 (Nat.not_lt_zero _))).bind ?_ (fun _ _ _ => trivial)
  rintro s2 ⟨j, lb', _, t2, _, _, _, t6, _⟩
  refine (Res.Full.rethrow (RawMemory_dtor_full m s2 m2 (by rw [t2]; rfl)) ?_).weaken
    (fun _ _ hf => hf.elim) (fun _ hr => hr)
  rintro _ s3 ⟨u1, u2, _⟩ c
  show s3.block c = s.block c
  by_cases hc : c = m.buffer_.blk
  · rw [hc, u1 hm0, m4]
  · exact ((u2 c hc).trans (t6 c hc)).trans (m6 c hc)

theorem copy_assign_full {s : State T} {v other : Vector} {xs ys : List T}
    (hv : v.Holds s xs) (ho : other.Holds s ys)
    (hsep : v.data_.buffer_.blk ≠ other.data_.buffer_.blk) :
    (v.copy_assign other s).Full (fun _ _ => True)
      (fun vs => vs.1 = v ∧ (v.capacity_ < ys.length → ∀ c, vs.2.block c = s.block c) ∧
        (ys.length ≤ v.capacity_ → ∃ j, j ≤ xs.length ∧ j ≤ ys.length ∧
          v.Holds vs.2 (ys.take j ++ xs.drop j))) := by
  obtain ⟨hoff, hnull, hcap, hsize, hle, hlt, hblk⟩ := id hv
  obtain ⟨ooff, onull, ocap, osize, ole, olt, oblk⟩ := id ho
  have e3 : v.data_.GetAddress = ⟨v.data_.buffer_.blk, 0⟩ := hv.begin_eq
  have e4 : other.data_.GetAddress = ⟨other.data_.buffer_.blk, 0⟩ := ho.begin_eq
  have hlen0 : (slotsOf xs v.capacity_).length = v.capacity_ := length_slotsOf (by omega)
  have hxl : xs.length ≤ v.capacity_ := by omega
  have hold : ∀ (t : State T) (j : Nat), j ≤ xs.length → j ≤ ys.length →
      t.block v.data_.buffer_.blk =
        some (splice (slotsOf xs v.capacity_) 0 ((ys.take j).map Slot.live)) →
      v.Holds t (ys.take j ++ xs.drop j) := by
    intro t j h1 h2 hb
    refine ⟨hoff, hnull, hcap, ?_, hle, hlt, ?_⟩
    · rw [hsize, List.length_append, List.length_take, List.length_drop]
      omega
    · rw [hb, partial_assign_layout xs ys _ j h1 h2 hxl]
  unfold Vector.copy_assign
  split
  · rename_i hfit
    have hfit1 : ys.length ≤ v.capacity_ := by omega
    simp only [e3, e4, hsize, osize, Ptr.add, Nat.zero_add]
    refine Res.Full.bind (Q := fun _ _ => True) (R := fun t => ∃ j, j ≤ xs.length ∧
      j ≤ ys.length ∧ v.Holds t (ys.take j ++ xs.drop j)) ?_
      (fun t ht => ⟨rfl, fun hbig => absurd hbig (by omega), fun _ => ht⟩)
      (fun _ _ _ => trivial)
    split
    · rename_i hgrow
      have hl1 : (ys.take xs.length).length = xs.length := by simp; omega
      unfold copy
      have ed : distance ⟨other.data_.buffer_.blk, 0⟩ ⟨other.data_.buffer_.blk, xs.length⟩ =
          some xs.length := by simp [distance]
      rw [ed]
      have hloop := copy_loop_cross_full hsep (ys.take xs.length) 0 0 s _ _ hblk oblk
        (fun j x hx => by
          rw [Nat.zero_add]
          rw [List.getElem?_take] at hx
          split at hx
          · exact getElem?_slotsOf_live hx
          · cases hx)
        (fun j hj => by
          rw [Nat.zero_add]
          rw [hl1] at hj
          exact ⟨xs.get ⟨j, hj⟩, getElem?_slotsOf_live (List.getElem?_eq_getElem hj)⟩)
      rw [hl1] at hloop
      refine hloop.bind ?_ ?_
      · rintro t ⟨j, hj, t2, _, _⟩
        refine ⟨j, by omega, by omega, hold t j (by omega) (by omega) ?_⟩
        rw [t2, List.take_take, Nat.min_eq_left (by omega)]
      · rintro _ s1 ⟨rfl, c2, c3, _⟩
        have ob1 : s1.block other.data_.buffer_.blk = some (slotsOf ys other.capacity_) := by
          rw [c3 _ (Ne.symm hsep), oblk]
        have hsp : 0 + ((ys.take xs.length).map Slot.live).length ≤
            (slotsOf xs v.capacity_).length := by
          rw [hlen0, List.length_map, hl1]
          omega
        unfold uninitialized_copy_n
        have hl2 : (ys.drop xs.length).length = ys.length - xs.length := by simp
        have hun := uninitialized_copy_loop_full (Ne.symm hsep) (0 + xs.length)
          (ys.drop xs.length) xs.length (0 + xs.length) s1 _ _ ob1 c2
          (fun j x hx => by
            rw [List.getElem?_drop] at hx
            exact getElem?_slotsOf_live hx)
          (by rw [length_splice hsp, hlen0, hl2]; omega) (Nat.le_refl _)
          (fun i h1 h2 => absurd h2 (by omega))
        rw [hl2] at hun
        refine hun.bind ?_ (fun _ _ _ => trivial)
        rintro t ⟨j, lb', hj, t2, t3, t4, t5, _, _⟩
        refine ⟨xs.length, Nat.le_refl _, hgrow, hold t xs.length (Nat.le_refl _) hgrow ?_⟩
        rw [t2]
        congr 1
        apply List.ext_getElem?
        intro i
        by_cases hi : i < 0 + xs.length ∨ 0 + xs.length + j ≤ i
        · exact t4 i hi
        · rw [t5 i (by omega) (by omega), getElem?_splice hsp, if_neg (Nat.not_lt_zero _),
            List.length_map, hl1, if_neg (by omega), getElem?_slotsOf, if_neg (by omega),
            if_pos (by omega)]
    · rename_i hgrow
      unfold copy
      have ed : distance ⟨other.data_.buffer_.blk, 0⟩ ⟨other.data_.buffer_.blk, ys.length⟩ =
          some ys.length := by simp [distance]
      rw [ed]
      refine (copy_loop_cross_full hsep ys 0 0 s _ _ hblk oblk
        (fun j x hx => by rw [Nat.zero_add]; exact getElem?_slotsOf_live hx)
        (fun j hj => by
          rw [Nat.zero_add]
          exact ⟨xs.get ⟨j, by omega⟩, getElem?_slotsOf_live (List.getElem?_eq_getElem
            (by omega))⟩)).bind ?_ ?_
      · rintro t ⟨j, hj, t2, _, _⟩
        exact ⟨j, by omega, by omega, hold t j (by omega) (by omega) t2⟩
      · rintro _ s1 ⟨rfl, c2, c3, _⟩
        have hsp : 0 + (ys.map Slot.live).length ≤ (slotsOf xs v.capacity_).length := by
          rw [hlen0, List.length_map]
          omega
        refine (destroy_n_full (xs.length - ys.length) _ (0 + ys.length) s1 _ c2
          (fun j hj => ?_)).bind (fun _ hf => hf.elim) (fun _ _ _ => trivial)
        rw [getElem?_splice hsp]
        simp only [List.length_map, Nat.zero_add, Nat.not_lt_zero, if_false]
        rw [if_neg (by omega)]
        exact ⟨xs.get ⟨ys.length + j, by omega⟩,
          getElem?_slotsOf_live (List.getElem?_eq_getElem (by omega))⟩
  · rename_i hfit
    have hbig : v.capacity_ < ys.length := by omega
    have hys : ys ≠ [] := by
      rintro rfl
      simp at hbig
    refine (Vector_ctor_copy_full ho hys).bind
      (fun t ht => ⟨rfl, fun _ => ht, fun hle' => absurd hle' (by omega)⟩) ?_
    rintro cp s1 ⟨_, _, p4⟩
    have hv1 : v.Holds s1 xs := hv.frame (p4 _ hv.isSome_block)
    exact (Res.Full.of_sat (Vector_dtor_sat (v := (v.Swap cp).2) hv1)).bind
      (fun _ hf => hf.elim) (fun _ _ _ => trivial)

theorem copy_assign_same_full {s : State T} {v : Vector} {xs : List T} (hv : v.Holds s xs) :
    (v.copy_assign v s).Full (fun _ _ => True)
      (fun vs => vs.1 = v ∧ ∀ c, vs.2.block c = s.block c) := by
  obtain ⟨hoff, hnull, hcap, hsize, hle, hlt, hblk⟩ := id hv
  have e3 : v.data_.GetAddress = ⟨v.data_.buffer_.blk, 0⟩ := hv.begin_eq
  unfold Vector.copy_assign
  rw [if_pos (show v.capacity_ ≥ v.size_ by omega)]
  simp only [e3, hsize, Ptr.add, Nat.zero_add, Nat.le_refl, if_true, Nat.sub_self]
  have e1 : distance ⟨v.data_.buffer_.blk, 0⟩ ⟨v.data_.buffer_.blk, xs.length⟩ =
      some xs.length := by simp [distance]
  unfold copy uninitialized_copy_n uninitialized_copy_loop
  rw [e1]
  refine Res.Full.bind (Q := fun _ _ => True) (R := fun t => ∀ c, t.block c = s.block c) ?_
    (fun t ht => ⟨rfl, ht⟩) (fun _ _ _ => trivial)
  exact (copy_loop_self_full _ xs.length 0 s _ hblk (fun j hj =>
    ⟨xs.get ⟨j, hj⟩, by
      rw [Nat.zero_add]
      exact getElem?_slotsOf_live (List.getElem?_eq_getElem hj)⟩)).bind (fun _ ht => ht)
    (fun _ _ _ => trivial)

/-- A failing copy assignment between any two well-formed vectors of one heap. -/
theorem copy_assign_any_full {s : State T} {v other : Vector} {xs ys : List T}
    (hv : v.Holds s xs) (ho : other.Holds s ys) :
    (v.copy_assign other s).Full (fun _ _ => True)
      (fun vs => vs.1 = v ∧ (v.capacity_ < ys.length → v.Holds vs.2 xs) ∧
        (ys.length ≤ v.capacity_ → ∃ j, j ≤ xs.length ∧ j ≤ ys.length ∧
          v.Holds vs.2 (ys.take j ++ xs.drop j))) := by
  by_cases hb : other.data_.buffer_.blk = v.data_.buffer_.blk
  · obtain ⟨e1, e2⟩ := hv.eq_of_blk ho hb
    subst e1 e2
    refine (copy_assign_same_full hv).weaken (fun _ _ hq => hq) ?_
    rintro ⟨v1, s1⟩ ⟨r1, r2⟩
    have hh : other.Holds s1 ys := hv.frame (r2 _)
    refine ⟨r1, fun _ => hh, fun _ => ⟨0, Nat.zero_le _, Nat.zero_le _, ?_⟩⟩
    rw [List.take_zero, List.drop_zero, List.nil_append]
    exact hh
  · refine (copy_assign_full hv ho (fun e => hb e.symm)).weaken (fun _ _ hq => hq) ?_
    rintro ⟨v1, s1⟩ ⟨r1, r2, r3⟩
    exact ⟨r1, fun hbig => hv.frame (r2 hbig _), r3⟩

/-! ## Properties of the specification -/

/-- C1: for a vector with element sequence `xs`, an index `k ≤ Size()` and a
value `x` that lives outside the vector, every normal return of
`Insert(begin() + k, x)` or `Emplace(begin() + k, x)` leaves the element sequence
`take k xs ++ [x] ++ drop k xs`, the size increased by one, and returns the
iterator `begin() + k` of the current storage; both calls do return normally
when no failure is pending and the doubled size fits `size_t`.  The statement
covers the reallocating and the in-place regime, `pos == end()` included. -/
theorem C1_insert_sequence (E : ElemType T) (s : State T) (v : Vector) (xs : List T) (k : Nat)
    (value : Ptr) (x : T) (h : v.Holds s xs) (hk : k ≤ xs.length)
    (hx : s.read value = some (.live x)) (hext : value.blk ≠ v.data_.buffer_.blk) :
    (∀ ret v1 s1,
      (v.Insert E (v.begin.add k) value s = .ok ret (v1, s1) ∨
        v.Emplace E (v.begin.add k) (.copyOf value) s = .ok ret (v1, s1)) →
      v1.Holds s1 (xs.take k ++ [x] ++ xs.drop k) ∧ v1.Size = v.Size + 1 ∧
        ret = v1.begin.add k) ∧
    (s.fuse = none ∧ (v.Size = v.Capacity → 2 * v.Size < SIZE_T_MOD) →
      (∃ ret v1 s1, v.Insert E (v.begin.add k) value s = .ok ret (v1, s1)) ∧
      (∃ ret v1 s1, v.Emplace E (v.begin.add k) (.copyOf value) s = .ok ret (v1, s1))) := by
  have hv : (Args.copyOf value).value s = some x := by simp [Args.value, hx]
  have hI := Insert_sat E (k := k) h hk hx
  have hE := Emplace_sat E (k := k) h hk hv hext
  rw [h.begin_add k]
  have hpost : ∀ (ret : Ptr) (v1 : Vector) (s1 : State T),
      v1.Holds s1 (xs.take k ++ [x] ++ xs.drop k) → ret = ⟨v1.data_.buffer_.blk, k⟩ →
      v1.Holds s1 (xs.take k ++ [x] ++ xs.drop k) ∧ v1.Size = v.Size + 1 ∧
        ret = v1.begin.add k := by
    intro ret v1 s1 h1 hr
    refine ⟨h1, ?_, ?_⟩
    · rw [h1.size_eq, h.size_eq, length_insert _ _ _ hk]
    · rw [h1.begin_add k, hr]
  refine ⟨?_, fun hq => ⟨?_, ?_⟩⟩
  · rintro ret v1 s1 (e | e)
    · obtain ⟨r1, r2, _⟩ := hI.1 ret (v1, s1) e
      exact hpost ret v1 s1 r1 r2
    · obtain ⟨r1, r2, _⟩ := hE.1 ret (v1, s1) e
      exact hpost ret v1 s1 r1 r2
  · obtain ⟨ret, ⟨v1, s1⟩, e⟩ := hI.2 hq
    exact ⟨ret, v1, s1, e⟩
  · obtain ⟨ret, ⟨v1, s1⟩, e⟩ := hE.2 hq
    exact ⟨ret, v1, s1, e⟩

/-- Scenario S2: `Insert(v.begin() + 2, 99)` on `[10, 20, 30, 40]` with capacity exactly 4. -/
theorem C1_insert_sequence_witness :
    ∃ ret v1 s1, fullVector.Insert intElem (fullVector.begin.add 2) ⟨2, 0⟩ fullState =
        .ok ret (v1, s1) ∧
      v1.Holds s1 [10, 20, 99, 30, 40] ∧ v1.Size = 5 ∧ ret = v1.begin.add 2 := by
  have h := C1_insert_sequence intElem fullState fullVector [10, 20, 30, 40] 2 ⟨2, 0⟩ 99
    (by decide) (by decide) (by decide) (by decide)
  obtain ⟨ret, v1, s1, e⟩ := (h.2 ⟨rfl, fun _ => by decide⟩).1
  exact ⟨ret, v1, s1, e, h.1 ret v1 s1 (Or.inl e)⟩

/-- C2: for a vector with element sequence `xs` and an index `k < Size()`, every
normal return of `Erase(begin() + k)` leaves `xs` without its element at index
`k`, the size decreased by one and the capacity unchanged, and returns the
iterator `begin() + k`, which is `end()` when the last element was erased; the
call returns normally when no failure is pending.  The element type `E`, hence
the transfer policy (move or copy), is arbitrary. -/
theorem C2_erase_sequence (E : ElemType T) (s : State T) (v : Vector) (xs : List T) (k : Nat)
    (h : v.Holds s xs) (hk : k < xs.length) :
    (∀ ret v1 s1, v.Erase E (v.begin.add k) s = .ok ret (v1, s1) →
      v1.Holds s1 (xs.eraseIdx k) ∧ v1.Size + 1 = v.Size ∧ v1.Capacity = v.Capacity ∧
        ret = v1.begin.add k ∧ (k + 1 = xs.length → ret = v1.end_)) ∧
    (s.fuse = none → ∃ ret v1 s1, v.Erase E (v.begin.add k) s = .ok ret (v1, s1)) := by
  have hE := Erase_sat E h hk
  rw [h.begin_add k]
  have hlenE : (xs.eraseIdx k).length = xs.length - 1 := by
    rw [List.length_eraseIdx, if_pos hk]
  refine ⟨?_, fun hq => ?_⟩
  · intro ret v1 s1 e
    obtain ⟨r1, r2, r3, _⟩ := hE.1 ret (v1, s1) e
    refine ⟨r1, ?_, r3, ?_, fun hlast => ?_⟩
    · rw [r1.size_eq, h.size_eq, hlenE]
      omega
    · rw [r1.begin_add k, r2]
    · rw [r1.end_eq, r2, hlenE]
      congr 1
      omega
  · obtain ⟨ret, ⟨v1, s1⟩, e⟩ := hE.2 hq
    exact ⟨ret, v1, s1, e⟩

/-- Scenario S3: `Erase(v.begin() + 1)` on `[1, 2, 3, 4, 5]`, under the copy policy. -/
theorem C2_erase_sequence_witness :
    ∃ ret v1 s1, roomyVector.Erase copyingElem (roomyVector.begin.add 1) roomyState =
        .ok ret (v1, s1) ∧
      v1.Holds s1 [1, 3, 4, 5] ∧ v1.Size + 1 = 5 ∧ v1.Capacity = 8 ∧ ret = v1.begin.add 1 := by
  have h := C2_erase_sequence copyingElem roomyState roomyVector [1, 2, 3, 4, 5] 1
    (by decide) (by decide)
  obtain ⟨ret, v1, s1, e⟩ := h.2 rfl
  obtain ⟨r1, r2, r3, r4, _⟩ := h.1 ret v1 s1 e
  exact ⟨ret, v1, s1, e, r1, r2, r3, r4⟩

/-- C3: for every `size_t` value `n`, every normal return of `Reserve(n)`
leaves the size and the element sequence unchanged (`Vector.Stores`); when
`n ≤ Capacity()` nothing changes at all, otherwise the capacity afterwards is
exactly `n`; in all cases it is `max (old capacity) n`.  When `n ≤ Capacity()`
or the request for `n` objects fits `size_t`, the vector is well formed
afterwards (`Vector.Holds`) and the call returns normally when no failure is
pending. -/
theorem C3_reserve (E : ElemType T) (s : State T) (v : Vector) (xs : List T) (n : Nat)
    (h : v.Holds s xs) (hn : n < SIZE_T_MOD) :
    (∀ v1 s1, v.Reserve E n s = .ok () (v1, s1) →
      v1.Stores s1 xs ∧ v1.Size = v.Size ∧ (n ≤ v.Capacity → v1 = v ∧ s1 = s) ∧
        (v.Capacity < n → v1.Capacity = n) ∧ v1.Capacity = max v.Capacity n ∧
        ((v.Capacity < n → E.fits n) → v1.Holds s1 xs)) ∧
    (s.fuse = none ∧ (v.Capacity < n → E.fits n) →
      ∃ v1 s1, v.Reserve E n s = .ok () (v1, s1)) := by
  have hR := Reserve_sat E h n hn
  refine ⟨?_, fun hq => ?_⟩
  · intro v1 s1 e
    obtain ⟨r0, r1, r2, r3, r4, _⟩ := hR.1 () (v1, s1) e
    refine ⟨r0, r1, fun hle => ?_, fun hlt => ?_, r3, r2⟩
    · have := r4 hle
      exact ⟨congrArg Prod.fst this, congrArg Prod.snd this⟩
    · show v1.capacity_ = n
      rw [r3]
      exact Nat.max_eq_right (Nat.le_of_lt hlt)
  · have hroom : v.capacity_ < n → xs.length ≤ E.slots n := by
      intro hc
      rw [show E.slots n = n from hq.2 hc, ← h.2.2.2.1]
      exact Nat.le_trans h.2.2.2.2.1 (Nat.le_of_lt hc)
    obtain ⟨_, ⟨v1, s1⟩, e⟩ := hR.2 ⟨hq.1, hroom⟩
    exact ⟨v1, s1, e⟩

/-- The call `Reserve(6)` on the full vector `[10, 20, 30, 40]` of capacity 4. -/
theorem C3_reserve_witness :
    ∃ v1 s1, fullVector.Reserve copyingElem 6 fullState = .ok () (v1, s1) ∧
      v1.Holds s1 [10, 20, 30, 40] ∧ v1.Size = 4 ∧ v1.Capacity = 6 := by
  have h := C3_reserve copyingElem fullState fullVector [10, 20, 30, 40] 6 (by decide)
    (by decide)
  obtain ⟨v1, s1, e⟩ := h.2 ⟨rfl, fun _ => by decide⟩
  obtain ⟨_, r2, _, r4, _, r6⟩ := h.1 v1 s1 e
  exact ⟨v1, s1, e, r6 (fun _ => by decide), r2, r4 (by decide)⟩

/-- C4: every normal return of `PushBack` (either overload), `EmplaceBack`,
`Insert` (either overload) or `Emplace` leaves the capacity at
`max 1 (2 * old capacity)` when `Size() == Capacity()` held before the call and
unchanged when `Size() < Capacity()` held (`Vector.grown`); in particular a
vector without storage gets capacity 1.  All six calls return normally when no
failure is pending and the doubled size fits `size_t`. -/
theorem C4_growth (E : ElemType T) (s : State T) (v : Vector) (xs : List T) (k : Nat)
    (value : Ptr) (x : T) (args : Args T) (y : T) (h : v.Holds s xs) (hk : k ≤ xs.length)
    (hx : s.read value = some (.live x)) (hext : value.blk ≠ v.data_.buffer_.blk)
    (hy : args.value s = some y) (hargs : ¬ args.inBlock v.data_.buffer_.blk) :
    ((∀ r v1 s1, v.PushBack E value s = .ok r (v1, s1) → v1.Capacity = v.grown) ∧
      (∀ r v1 s1, v.PushBack_rvalue E value s = .ok r (v1, s1) → v1.Capacity = v.grown) ∧
      (∀ r v1 s1, v.EmplaceBack E args s = .ok r (v1, s1) → v1.Capacity = v.grown) ∧
      (∀ r v1 s1, v.Insert E (v.begin.add k) value s = .ok r (v1, s1) →
        v1.Capacity = v.grown) ∧
      (∀ r v1 s1, v.Insert_rvalue E (v.begin.add k) value s = .ok r (v1, s1) →
        v1.Capacity = v.grown) ∧
      (∀ r v1 s1, v.Emplace E (v.begin.add k) args s = .ok r (v1, s1) →
        v1.Capacity = v.grown)) ∧
    (v.Capacity = 0 → v.grown = 1) ∧
    (s.fuse = none ∧ (v.Size = v.Capacity → 2 * v.Size < SIZE_T_MOD) →
      (∃ r v1 s1, v.PushBack E value s = .ok r (v1, s1)) ∧
      (∃ r v1 s1, v.PushBack_rvalue E value s = .ok r (v1, s1)) ∧
      (∃ r v1 s1, v.EmplaceBack E args s = .ok r (v1, s1)) ∧
      (∃ r v1 s1, v.Insert E (v.begin.add k) value s = .ok r (v1, s1)) ∧
      (∃ r v1 s1, v.Insert_rvalue E (v.begin.add k) value s = .ok r (v1, s1)) ∧
      (∃ r v1 s1, v.Emplace E (v.begin.add k) args s = .ok r (v1, s1))) := by
  have h1 := PushBack_sat E h hx
  have h2 := PushBack_rvalue_sat E h hx hext
  have h3 := EmplaceBack_sat E h hy (Args.writes_of_not_inBlock hargs)
  have h4 := Insert_sat E (k := k) h hk hx
  have h5 := Insert_rvalue_sat E (k := k) h hk hx hext
  have h6 := Emplace_sat E (k := k) h hk hy hargs
  rw [h.begin_add k]
  refine ⟨⟨?_, ?_, ?_, ?_, ?_, ?_⟩, ?_, fun hq => ⟨?_, ?_, ?_, ?_, ?_, ?_⟩⟩
  · intro r v1 s1 e
    exact (h1.1 r (v1, s1) e).2.1
  · intro r v1 s1 e
    exact (h2.1 r (v1, s1) e).2.1
  · intro r v1 s1 e
    exact (h3.1 r (v1, s1) e).2.2.1
  · intro r v1 s1 e
    exact (h4.1 r (v1, s1) e).2.2.1
  · intro r v1 s1 e
    exact (h5.1 r (v1, s1) e).2.2.1
  · intro r v1 s1 e
    exact (h6.1 r (v1, s1) e).2.2.1
  · intro hc
    have hs : v.Size = 0 := by
      have := h.size_le
      omega
    simp [Vector.grown, hs, hc]
  · obtain ⟨r, ⟨v1, s1⟩, e⟩ := h1.2 hq
    exact ⟨r, v1, s1, e⟩
  · obtain ⟨r, ⟨v1, s1⟩, e⟩ := h2.2 hq
    exact ⟨r, v1, s1, e⟩
  · obtain ⟨r, ⟨v1, s1⟩, e⟩ := h3.2 hq
    exact ⟨r, v1, s1, e⟩
  · obtain ⟨r, ⟨v1, s1⟩, e⟩ := h4.2 hq
    exact ⟨r, v1, s1, e⟩
  · obtain ⟨r, ⟨v1, s1⟩, e⟩ := h5.2 hq
    exact ⟨r, v1, s1, e⟩
  · obtain ⟨r, ⟨v1, s1⟩, e⟩ := h6.2 hq
    exact ⟨r, v1, s1, e⟩

/-- On the full vector of capacity 4 a `PushBack` yields capacity 8. -/
theorem C4_growth_witness :
    ∃ r v1 s1, fullVector.PushBack intElem ⟨2, 0⟩ fullState = .ok r (v1, s1) ∧
      v1.Capacity = 8 := by
  have h := C4_growth intElem fullState fullVector [10, 20, 30, 40] 2 ⟨2, 0⟩ 99
    (.make 7) 7 (by decide) (by decide) (by decide) (by decide) rfl (fun hf => hf)
  obtain ⟨r, v1, s1, e⟩ := (h.2.2 ⟨rfl, fun _ => by decide⟩).1
  exact ⟨r, v1, s1, e, h.1.1 r v1 s1 e⟩

/-- C5: the invariant `Vector.Inv` (`Size() ≤ Capacity()` for a well-formed
vector) holds for a default-constructed, sized-constructed, copy-constructed
and move-constructed vector (and for the source of the copy and of the move),
and every normal return of `Reserve`, `Resize`, `PushBack`, `EmplaceBack`,
`PopBack` (with `Size() > 0`), `Insert` and `Emplace` (at `begin() + k`,
`k ≤ Size()`), `Erase` (at `begin() + j`, `j < Size()`), copy assignment, move
assignment and `Swap` on vectors that satisfy it, the empty vector included,
leaves it true, for both vectors where there are two.  Each call is stated
with `Res.Sat`: a normal return satisfies the postcondition, and the call
returns normally under the stated condition (no failure pending, the doubled
size is a `size_t` value, the request of `Vector(n)`, `Reserve(n)` and
`Resize(n)` fits `size_t`).  A `Reserve(n)` whose request does not fit leaves
`Size() ≤ Capacity()` when it returns, on storage smaller than `Capacity()`. -/
theorem C5_size_le_capacity (E : ElemType T) (s : State T) (v w : Vector) (k j n : Nat)
    (value : Ptr) (x : T) (args : Args T) (y : T) (hv : v.Inv s) (hw : w.Inv s) :
    Vector.ctor_default.Inv s ∧
    (n < SIZE_T_MOD →
      (Vector.ctor_size E n s).Sat (s.fuse = none ∧ E.fits n) (fun u t => u.Inv t)) ∧
    (Vector.ctor_copy w s).Sat (s.fuse = none) (fun u t => u.Inv t ∧ w.Inv t) ∧
    (w.ctor_move.1.Inv s ∧ w.ctor_move.2.Inv s) ∧
    (n < SIZE_T_MOD →
      (v.Reserve E n s).Sat (s.fuse = none ∧ (v.Capacity < n → E.fits n))
        (fun _ vs => vs.1.Size ≤ vs.1.Capacity ∧
          ((v.Capacity < n → E.fits n) → vs.1.Inv vs.2))) ∧
    (n < SIZE_T_MOD →
      (v.Resize E n s).Sat (s.fuse = none ∧ (v.Capacity < n → E.fits n))
        (fun _ vs => vs.1.Inv vs.2)) ∧
    (s.read value = some (.live x) →
      (v.PushBack E value s).Sat
        (s.fuse = none ∧ (v.Size = v.Capacity → 2 * v.Size < SIZE_T_MOD))
        (fun _ vs => vs.1.Inv vs.2)) ∧
    (args.value s = some y → ¬ args.inBlock v.data_.buffer_.blk →
      (v.EmplaceBack E args s).Sat
        (s.fuse = none ∧ (v.Size = v.Capacity → 2 * v.Size < SIZE_T_MOD))
        (fun _ vs => vs.1.Inv vs.2)) ∧
    (0 < v.Size → (v.PopBack s).Sat True (fun _ vs => vs.1.Inv vs.2)) ∧
    (k ≤ v.Size → s.read value = some (.live x) →
      (v.Insert E (v.begin.add k) value s).Sat
        (s.fuse = none ∧ (v.Size = v.Capacity → 2 * v.Size < SIZE_T_MOD))
        (fun _ vs => vs.1.Inv vs.2)) ∧
    (k ≤ v.Size → args.value s = some y → ¬ args.inBlock v.data_.buffer_.blk →
      (v.Emplace E (v.begin.add k) args s).Sat
        (s.fuse = none ∧ (v.Size = v.Capacity → 2 * v.Size < SIZE_T_MOD))
        (fun _ vs => vs.1.Inv vs.2)) ∧
    (j < v.Size →
      (v.Erase E (v.begin.add j) s).Sat (s.fuse = none) (fun _ vs => vs.1.Inv vs.2)) ∧
    (v.copy_assign w s).Sat (s.fuse = none) (fun _ vs => vs.1.Inv vs.2 ∧ w.Inv vs.2) ∧
    ((v.move_assign w).1.Inv s ∧ (v.move_assign w).2.Inv s) ∧
    ((v.Swap w).1.Inv s ∧ (v.Swap w).2.Inv s) := by
  obtain ⟨_, xs, h⟩ := hv
  obtain ⟨_, ys, h'⟩ := hw
  have hs : v.Size = xs.length := h.size_eq
  have hcs : v.capacity_ < n → E.fits n → xs.length ≤ E.slots n := by
    intro hc hf
    rw [show E.slots n = n from hf, ← h.2.2.2.1]
    exact Nat.le_trans h.2.2.2.2.1 (Nat.le_of_lt hc)
  rw [h.begin_add k, h.begin_add j]
  refine ⟨(Vector.ctor_default_holds s).inv, fun hn => ?_, ?_, ?_, fun hn => ?_, fun hn => ?_,
    fun hx => ?_, fun hy hargs => ?_, fun hp => ?_, fun hk hx => ?_, fun hk hy hargs => ?_,
    fun hj => ?_, ?_, ?_, ?_⟩
  · exact (Vector_ctor_size_sat E n hn s).mono (fun hq => hq) (fun _ _ r => r.1.inv)
  · refine (Vector_ctor_copy_sat h').mono (fun hq => hq) (fun u t r => ⟨r.1.inv, ?_⟩)
    exact (h'.frame (r.2.2.2.1 _ h'.isSome_block)).inv
  · exact ⟨h'.ctor_move.1.inv, h'.ctor_move.2.inv⟩
  · refine (Reserve_sat E h n hn).mono (fun hq => ⟨hq.1, fun hc => hcs hc (hq.2 hc)⟩)
      (fun _ vs r => ⟨?_, fun hf => (r.2.2.1 hf).inv⟩)
    show vs.1.size_ ≤ vs.1.capacity_
    rw [r.2.1, r.2.2.2.1]
    exact Nat.le_trans h.2.2.2.2.1 (Nat.le_max_left _ _)
  · exact (Resize_sat E h n hn).mono (fun hq => hq) (fun _ _ r => r.1.inv)
  · exact (PushBack_sat E h hx).mono (fun hq => hq) (fun _ _ r => r.1.inv)
  · exact (EmplaceBack_sat E h hy (Args.writes_of_not_inBlock hargs)).mono (fun hq => hq)
      (fun _ _ r => r.1.inv)
  · exact (PopBack_sat h (by omega)).mono (fun hq => hq) (fun _ _ r => r.1.inv)
  · exact (Insert_sat E h (hs ▸ hk) hx).mono (fun hq => hq) (fun _ _ r => r.1.inv)
  · exact (Emplace_sat E h (hs ▸ hk) hy hargs).mono (fun hq => hq) (fun _ _ r => r.1.inv)
  · exact (Erase_sat E h (hs ▸ hj)).mono (fun hq => hq) (fun _ _ r => r.1.inv)
  · exact (copy_assign_any_sat h h').mono (fun hq => hq) (fun _ _ r => ⟨r.1.inv, r.2.1.inv⟩)
  · exact ⟨(h.swap h').1.inv, (h.swap h').2.inv⟩
  · exact ⟨(h.swap h').1.inv, (h.swap h').2.inv⟩

/-- On the empty vector a `PushBack` returns a vector that satisfies the
invariant, and so does the source `[99]` after a move construction. -/
theorem C5_size_le_capacity_witness :
    (∃ v1 s1, Vector.ctor_default.PushBack intElem ⟨2, 0⟩ fullState = .ok () (v1, s1) ∧
      v1.Size ≤ v1.Capacity) ∧
    singleVector.ctor_move.2.Size ≤ singleVector.ctor_move.2.Capacity := by
  have h := C5_size_le_capacity intElem fullState Vector.ctor_default singleVector 0 0 6 ⟨2, 0⟩
    99 (.make 7) 7 ⟨by decide, [], by decide⟩ ⟨by decide, [99], by decide⟩
  obtain ⟨_, _, _, hm, _, _, hp, _⟩ := h
  have hp := hp (by decide)
  obtain ⟨_, ⟨v1, s1⟩, e⟩ := hp.2 ⟨rfl, fun _ => by decide⟩
  exact ⟨⟨v1, s1, e, (hp.1 () (v1, s1) e).1⟩, hm.2.1⟩

/-- C6: for a vector of size `n` with element sequence `xs` and a value `x`
(which may be an element of the vector itself), every normal return of
`PushBack(x)` followed by `PopBack()` leaves the size `n` and the element
sequence `xs`, whether or not the `PushBack` reallocated; the two calls return
normally when no failure is pending and the doubled size fits `size_t`. -/
theorem C6_push_pop (E : ElemType T) (s : State T) (v : Vector) (xs : List T)
    (value : Ptr) (x : T) (h : v.Holds s xs) (hx : s.read value = some (.live x)) :
    (∀ v1 s1 v2 s2, v.PushBack E value s = .ok () (v1, s1) →
      v1.PopBack s1 = .ok () (v2, s2) → v2.Holds s2 xs ∧ v2.Size = v.Size) ∧
    (s.fuse = none ∧ (v.Size = v.Capacity → 2 * v.Size < SIZE_T_MOD) →
      ∃ v1 s1 v2 s2, v.PushBack E value s = .ok () (v1, s1) ∧
        v1.PopBack s1 = .ok () (v2, s2)) := by
  have h1 := PushBack_sat E h hx
  refine ⟨?_, fun hq => ?_⟩
  · intro v1 s1 v2 s2 e1 e2
    obtain ⟨r1, _⟩ := h1.1 () (v1, s1) e1
    obtain ⟨p1, _⟩ := (PopBack_sat r1 (by simp)).1 () (v2, s2) e2
    rw [List.dropLast_concat] at p1
    exact ⟨p1, by rw [p1.size_eq, h.size_eq]⟩
  · obtain ⟨_, ⟨v1, s1⟩, e1⟩ := h1.2 hq
    obtain ⟨r1, _⟩ := h1.1 () (v1, s1) e1
    obtain ⟨_, ⟨v2, s2⟩, e2⟩ := (PopBack_sat r1 (by simp)).2 trivial
    exact ⟨v1, s1, v2, s2, e1, e2⟩

/-- The calls `PushBack(99); PopBack()` on the full vector `[10, 20, 30, 40]`
(the `PushBack` reallocates). -/
theorem C6_push_pop_witness :
    ∃ v1 s1 v2 s2, fullVector.PushBack copyingElem ⟨2, 0⟩ fullState = .ok () (v1, s1) ∧
      v1.PopBack s1 = .ok () (v2, s2) ∧ v2.Holds s2 [10, 20, 30, 40] ∧ v2.Size = 4 := by
  have h := C6_push_pop copyingElem fullState fullVector [10, 20, 30, 40] ⟨2, 0⟩ 99
    (by decide) (by decide)
  obtain ⟨v1, s1, v2, s2, e1, e2⟩ := h.2 ⟨rfl, fun _ => by decide⟩
  exact ⟨v1, s1, v2, s2, e1, e2, h.1 v1 s1 v2 s2 e1 e2⟩

/-- C7: for a vector with element sequence `xs`, an index `k ≤ Size()` and a
value `x` (which may be an element of the vector itself), every normal return
of `Insert(begin() + k, x)` followed by `Erase(begin() + k)` on the resulting
vector restores the element sequence `xs` and the size, in the reallocating
and in the in-place regime; the two calls return normally when no failure is
pending and the doubled size fits `size_t`. -/
theorem C7_insert_erase (E : ElemType T) (s : State T) (v : Vector) (xs : List T) (k : Nat)
    (value : Ptr) (x : T) (h : v.Holds s xs) (hk : k ≤ xs.length)
    (hx : s.read value = some (.live x)) :
    (∀ r1 v1 s1 r2 v2 s2, v.Insert E (v.begin.add k) value s = .ok r1 (v1, s1) →
      v1.Erase E (v1.begin.add k) s1 = .ok r2 (v2, s2) → v2.Holds s2 xs ∧ v2.Size = v.Size) ∧
    (s.fuse = none ∧ (v.Size = v.Capacity → 2 * v.Size < SIZE_T_MOD) →
      ∃ r1 v1 s1 r2 v2 s2, v.Insert E (v.begin.add k) value s = .ok r1 (v1, s1) ∧
        v1.Erase E (v1.begin.add k) s1 = .ok r2 (v2, s2)) := by
  have h1 := Insert_sat E (k := k) h hk hx
  rw [h.begin_add k]
  have hk1 : k < (xs.take k ++ [x] ++ xs.drop k).length := by
    rw [length_insert _ _ _ hk]
    omega
  refine ⟨?_, fun hq => ?_⟩
  · intro r1 v1 s1 r2 v2 s2 e1 e2
    obtain ⟨i1, _⟩ := h1.1 r1 (v1, s1) e1
    rw [i1.begin_add k] at e2
    obtain ⟨p1, _⟩ := (Erase_sat E i1 hk1).1 r2 (v2, s2) e2
    rw [eraseIdx_insert _ _ _ hk] at p1
    exact ⟨p1, by rw [p1.size_eq, h.size_eq]⟩
  · obtain ⟨r1, ⟨v1, s1⟩, e1⟩ := h1.2 hq
    obtain ⟨i1, _, _, _, _, i6⟩ := h1.1 r1 (v1, s1) e1
    obtain ⟨r2, ⟨v2, s2⟩, e2⟩ := (Erase_sat E i1 hk1).2 (i6 hq.1)
    refine ⟨r1, v1, s1, r2, v2, s2, e1, ?_⟩
    rw [i1.begin_add k]
    exact e2

/-- The calls `Insert(begin() + 2, 99); Erase(begin() + 2)` on `[1, 2, 3, 4, 5]`
with capacity 8 (the insertion is in place). -/
theorem C7_insert_erase_witness :
    ∃ r1 v1 s1 r2 v2 s2,
      roomyVector.Insert intElem (roomyVector.begin.add 2) ⟨2, 0⟩ roomyState =
        .ok r1 (v1, s1) ∧
      v1.Erase intElem (v1.begin.add 2) s1 = .ok r2 (v2, s2) ∧
      v2.Holds s2 [1, 2, 3, 4, 5] ∧ v2.Size = 5 := by
  have h := C7_insert_erase intElem roomyState roomyVector [1, 2, 3, 4, 5] 2 ⟨2, 0⟩ 99
    (by decide) (by decide) (by decide)
  obtain ⟨r1, v1, s1, r2, v2, s2, e1, e2⟩ := h.2 ⟨rfl, fun hf => absurd hf (by decide)⟩
  exact ⟨r1, v1, s1, r2, v2, s2, e1, e2, h.1 r1 v1 s1 r2 v2 s2 e1 e2⟩

/-- C8: for two well-formed vectors `a` (elements `xs`) and `b` (elements `ys`)
of one heap, `a` and `b` possibly the same vector, every normal return of the
copy assignment `a = b` leaves `a` with the element sequence `ys` and
`Size() == b.Size()`, leaves `b` with its elements `ys`, keeps the capacity and
the buffer of `a` when `b.Size() ≤ a.Capacity()` held before the call, and
otherwise leaves `a.Capacity() == b.Size()`; the assignment returns normally
when no failure is pending. -/
theorem C8_copy_assign (s : State T) (a b : Vector) (xs ys : List T)
    (ha : a.Holds s xs) (hb : b.Holds s ys) :
    (∀ a1 s1, a.copy_assign b s = .ok () (a1, s1) →
      a1.Holds s1 ys ∧ a1.Size = b.Size ∧ b.Holds s1 ys ∧
        (b.Size ≤ a.Capacity → a1.Capacity = a.Capacity ∧ a1.data_ = a.data_) ∧
        (a.Capacity < b.Size → a1.Capacity = b.Size)) ∧
    (s.fuse = none → ∃ a1 s1, a.copy_assign b s = .ok () (a1, s1)) := by
  have hA := copy_assign_any_sat ha hb
  refine ⟨?_, fun hq => ?_⟩
  · intro a1 s1 e
    obtain ⟨r1, r2, r3, r4, _⟩ := hA.1 () (a1, s1) e
    have hs : b.Size = ys.length := hb.size_eq
    refine ⟨r1, by rw [r1.size_eq, hs], r2, fun hle => ?_, fun hlt => ?_⟩
    · have hle1 : ys.length ≤ a.capacity_ := by
        rw [← hs]
        exact hle
      refine ⟨?_, r4 hle1⟩
      show a1.capacity_ = a.capacity_
      rw [r3, if_pos hle1]
    · have hlt1 : ¬ ys.length ≤ a.capacity_ := by
        rw [← hs]
        exact Nat.not_le.2 hlt
      rw [hs]
      show a1.capacity_ = ys.length
      rw [r3, if_neg hlt1]
  · obtain ⟨_, ⟨a1, s1⟩, e⟩ := hA.2 hq
    exact ⟨a1, s1, e⟩

/-- The assignment of the vector `[10, 20, 30, 40]` to the vector `[99]` of capacity 1. -/
theorem C8_copy_assign_witness :
    ∃ a1 s1, singleVector.copy_assign fullVector fullState = .ok () (a1, s1) ∧
      a1.Holds s1 [10, 20, 30, 40] ∧ a1.Size = 4 ∧ fullVector.Holds s1 [10, 20, 30, 40] ∧
      a1.Capacity = 4 := by
  have h := C8_copy_assign fullState singleVector fullVector [99] [10, 20, 30, 40]
    (by decide) (by decide)
  obtain ⟨a1, s1, e⟩ := h.2 rfl
  obtain ⟨r1, r2, r3, _, r5⟩ := h.1 a1 s1 e
  exact ⟨a1, s1, e, r1, r2, r3, r5 (by decide)⟩

/-- C9, the claim as stated fails: after `a = std::move(b)` with `a` holding
`[1, 2, 3, 4, 5]` and `b` holding `[99]`, the source `b` has size 5, not 0. -/
theorem C9_source_keeps_destination_size :
    roomyVector.Holds roomyState [1, 2, 3, 4, 5] ∧ singleVector.Holds roomyState [99] ∧
      (roomyVector.move_assign singleVector).2.Size = 5 ∧
      ¬ (roomyVector.move_assign singleVector).2.Size = 0 := by
  decide

/-- C9 as amended: for well-formed vectors `a` (elements `xs`) and `b`
(elements `ys`), after the move assignment `a = std::move(b)` the destination
`a` has the former size, capacity and element sequence of `b`, and the source
`b` has the former size, capacity and element sequence of `a`: it is empty
exactly when `a` was empty before the call. -/
theorem C9_move_assign_swaps (s : State T) (a b : Vector) (xs ys : List T)
    (ha : a.Holds s xs) (hb : b.Holds s ys) :
    (a.move_assign b).1.Holds s ys ∧ (a.move_assign b).1.Size = b.Size ∧
      (a.move_assign b).1.Capacity = b.Capacity ∧
      (a.move_assign b).2.Holds s xs ∧ (a.move_assign b).2.Size = a.Size ∧
      (a.move_assign b).2.Capacity = a.Capacity ∧
      ((a.move_assign b).2.Size = 0 ↔ a.Size = 0) := by
  obtain ⟨h1, h2⟩ := ha.swap hb
  exact ⟨h1, rfl, rfl, h2, rfl, rfl, Iff.rfl⟩

/-- The move assignment of the vector `[99]` to the vector `[1, 2, 3, 4, 5]`. -/
theorem C9_move_assign_swaps_witness :
    (roomyVector.move_assign singleVector).1.Holds roomyState [99] ∧
      (roomyVector.move_assign singleVector).2.Holds roomyState [1, 2, 3, 4, 5] ∧
      (roomyVector.move_assign singleVector).2.Capacity = 8 := by
  have h := C9_move_assign_swaps roomyState roomyVector singleVector [1, 2, 3, 4, 5] [99]
    (by decide) (by decide)
  exact ⟨h.1, h.2.2.2.1, h.2.2.2.2.2.1⟩

/-- C10: for a vector with element sequence `xs` and every `size_t` value `n`,
every normal return of `Resize(n)` leaves `Size() == n`; when `n` is below the
old size the element sequence is `take n xs`, the capacity is unchanged and
exactly `old size - n` destructors have run; when `n` is at least the old size
the element sequence is `xs` followed by `n - old size` value-initialised
elements and the capacity is `max (old capacity) n`.  The call returns normally
when no failure is pending and, where it needs new storage, the request for
`n` objects fits `size_t`. -/
theorem C10_resize (E : ElemType T) (s : State T) (v : Vector) (xs : List T) (n : Nat)
    (h : v.Holds s xs) (hn : n < SIZE_T_MOD) :
    (∀ v1 s1, v.Resize E n s = .ok () (v1, s1) →
      v1.Size = n ∧
        (n < v.Size → v1.Holds s1 (xs.take n) ∧ v1.Capacity = v.Capacity ∧
          s1.dtors = s.dtors + (v.Size - n)) ∧
        (v.Size ≤ n → v1.Holds s1 (xs ++ List.replicate (n - v.Size) E.value_init) ∧
          v1.Capacity = max v.Capacity n)) ∧
    (s.fuse = none ∧ (v.Capacity < n → E.fits n) →
      ∃ v1 s1, v.Resize E n s = .ok () (v1, s1)) := by
  have hR := Resize_sat E h n hn
  have hs : v.Size = xs.length := h.size_eq
  have hle : v.Size ≤ v.Capacity := h.size_le
  refine ⟨?_, fun hq => ?_⟩
  · intro v1 s1 e
    obtain ⟨r1, r2, r3, _⟩ := hR.1 () (v1, s1) e
    refine ⟨?_, fun hlt => ?_, fun hge => ?_⟩
    · rw [r1.size_eq, List.length_append, List.length_take, List.length_replicate]
      omega
    · rw [hs] at hlt ⊢
      rw [Nat.sub_eq_zero_of_le (Nat.le_of_lt hlt), List.replicate_zero,
        List.append_nil] at r1
      refine ⟨r1, ?_, r3 hlt⟩
      show v1.capacity_ = v.capacity_
      rw [r2]
      simp only [Vector.Size, Vector.Capacity] at hs hle
      omega
    · rw [hs] at hge ⊢
      rw [List.take_of_length_le hge] at r1
      exact ⟨r1, r2⟩
  · obtain ⟨_, ⟨v1, s1⟩, e⟩ := hR.2 hq
    exact ⟨v1, s1, e⟩

/-- The call `Resize(0)` on `[1, 2, 3]`: size 0, the same capacity, three
destructor calls; and the call `Resize(6)` on it: three value-initialised
elements appended in new storage of capacity 6. -/
theorem C10_resize_witness :
    (∃ v1 s1, tripleVector.Resize intElem 0 tripleState = .ok () (v1, s1) ∧
      v1.Size = 0 ∧ v1.Holds s1 [] ∧ v1.Capacity = 4 ∧ s1.dtors = 3) ∧
    (∃ v1 s1, tripleVector.Resize intElem 6 tripleState = .ok () (v1, s1) ∧
      v1.Size = 6 ∧ v1.Holds s1 [1, 2, 3, 0, 0, 0] ∧ v1.Capacity = 6) := by
  have h := C10_resize intElem tripleState tripleVector [1, 2, 3] 0 (by decide) (by decide)
  have h6 := C10_resize intElem tripleState tripleVector [1, 2, 3] 6 (by decide) (by decide)
  refine ⟨?_, ?_⟩
  · obtain ⟨v1, s1, e⟩ := h.2 ⟨rfl, fun hc => absurd hc (by decide)⟩
    obtain ⟨r1, r2, _⟩ := h.1 v1 s1 e
    obtain ⟨r3, r4, r5⟩ := r2 (by decide)
    exact ⟨v1, s1, e, r1, r3, r4, r5⟩
  · obtain ⟨v1, s1, e⟩ := h6.2 ⟨rfl, fun _ => by decide⟩
    obtain ⟨r1, _, r2⟩ := h6.1 v1 s1 e
    obtain ⟨r3, r4⟩ := r2 (by decide)
    exact ⟨v1, s1, e, r1, r3, r4⟩

/-- C11, the claim as stated fails for a request that does not fit `size_t`:
with `sizeof(T) = 4` the call `Reserve(2 ^ 62 + 1)` on the full vector
`[10, 20, 30, 40]` of capacity 4 asks `operator new` for 4 bytes, room for one
object; with the copy of element 2 set to throw, the copy of element 1 is
written past the block before that, which is undefined behaviour and not an
exception that leaves the vector unchanged. -/
theorem C11_wrapped_request_overruns :
    fullVector.Holds fullState [10, 20, 30, 40] ∧ fullVector.Capacity < 2 ^ 62 + 1 ∧
    copyingElem.request (2 ^ 62 + 1) = 4 ∧ copyingElem.slots (2 ^ 62 + 1) = 1 ∧
    fullVector.Reserve copyingElem (2 ^ 62 + 1) { fullState with fuse := some 3 } = .ub :=
  ⟨by decide, by decide, by decide, by decide, by decide⟩

/-- C11 as amended: under the copy transfer policy, for a vector with elements
`xs`, `n > Capacity()` whose request fits `size_t` (`n * sizeof(T) < 2 ^ 64`)
and `j < Size()`: when the copy of element `j` into the fresh storage throws
(the allocation and the copies of the elements before `j` succeed),
`Reserve(n)` leaves by the exception with the vector unchanged, hence
`Size()`, `Capacity()` and the elements `xs` as before, every block of the heap
as before, and exactly `j` constructors and `j` destructors run: each of the
slots `[0, j)` constructed in the fresh storage is destroyed once. -/
theorem C11_reserve_strong_guarantee (E : ElemType T) (s : State T) (v : Vector) (xs : List T)
    (n j : Nat) (hE : E.nothrow_move_constructible = false) (hC : E.copy_constructible = true)
    (h : v.Holds s xs) (hgt : v.Capacity < n) (hfit : E.fits n) (hj : j < v.Size)
    (hf : s.fuse = some (j + 1)) :
    ∃ s1, v.Reserve E n s = .thrown (v, s1) ∧ v.Holds s1 xs ∧
      (∀ c, s1.block c = s.block c) ∧ s1.ctors = s.ctors + j ∧ s1.dtors = s.dtors + j := by
  have hs : v.Size = xs.length := h.size_eq
  obtain ⟨⟨v1, s1⟩, e, r1, r2, i, _, r4⟩ := (Reserve_full E hE hC h n hgt hfit).thrown_of
    (fun _ vs hst => by
      have := hst.le_fuse hf
      omega)
  simp only at r1 r2 r4
  subst r1
  have hi : i = j + 1 := by
    have := r4.1
    rw [hf] at this
    exact (Option.some.inj this).symm
  subst hi
  exact ⟨s1, e, h.frame (r2 _), r2, r4.2.2.1, r4.2.2.2⟩

/-- The call `Reserve(6)` on `[10, 20, 30, 40]` with the copy of element 2 forced to throw. -/
theorem C11_reserve_strong_guarantee_witness :
    ∃ s1, fullVector.Reserve copyingElem 6 { fullState with fuse := some 3 } =
        .thrown (fullVector, s1) ∧
      fullVector.Holds s1 [10, 20, 30, 40] ∧ s1.ctors = 2 ∧ s1.dtors = 2 := by
  obtain ⟨s1, e, r1, _, r3, r4⟩ := C11_reserve_strong_guarantee copyingElem
    { fullState with fuse := some 3 } fullVector [10, 20, 30, 40] 6 2 rfl rfl (by decide)
    (by decide) (by decide) (by decide) rfl
  exact ⟨s1, e, r1, r3, r4⟩

/-- C12: under the copy transfer policy, for a full vector with elements `xs`,
an insertion index `k ≤ Size()` and `i < Size()`: when the transfer of element
`i` into the new storage throws (the prefix transfer for `i < k`, the suffix
transfer for `i ≥ k`; the allocation, the construction of the new element and
the transfers before it succeed), `Insert(begin() + k, x)` and
`Emplace(begin() + k, args...)` leave by the exception with the vector
unchanged, hence `Size()`, `Capacity()` and the elements `xs` as before, the
heap blocks as before (the new storage is freed), and exactly `i + 1`
constructors and `i + 1` destructors run: the new element and the `i` elements
transferred so far are destroyed, each once, and nothing else. -/
theorem C12_insert_strong_guarantee (E : ElemType T) (s : State T) (v : Vector) (xs : List T)
    (k i : Nat) (value : Ptr) (y : T) (args : Args T) (x : T)
    (hE : E.nothrow_move_constructible = false) (hC : E.copy_constructible = true)
    (h : v.Holds s xs) (hfull : v.Size = v.Capacity) (hsz : 2 * v.Size < SIZE_T_MOD)
    (hk : k ≤ v.Size) (hy : s.read value = some (.live y)) (hv : args.value s = some x)
    (hw : ¬ args.writes v.data_.buffer_.blk) (hi : i < v.Size) (hf : s.fuse = some (i + 2)) :
    (∃ s1, v.Insert E (v.begin.add k) value s = .thrown (v, s1) ∧ v.Holds s1 xs ∧
      (∀ c, s1.block c = s.block c) ∧
      s1.ctors = s.ctors + (i + 1) ∧ s1.dtors = s.dtors + (i + 1)) ∧
    (∃ s1, v.Emplace E (v.begin.add k) args s = .thrown (v, s1) ∧ v.Holds s1 xs ∧
      (∀ c, ¬ args.writes c → s1.block c = s.block c) ∧
      s1.ctors = s.ctors + (i + 1) ∧ s1.dtors = s.dtors + (i + 1)) := by
  have hs : v.Size = xs.length := h.size_eq
  rw [hs] at hk hi
  have key : ∀ (a : Args T) (z : T), a.value s = some z → ¬ a.writes v.data_.buffer_.blk →
      ∃ s1, v.EmplaceReallocate E ⟨v.data_.buffer_.blk, k⟩ a s = .thrown (v, s1) ∧
        v.Holds s1 xs ∧ (∀ c, ¬ a.writes c → s1.block c = s.block c) ∧
        s1.ctors = s.ctors + (i + 1) ∧ s1.dtors = s.dtors + (i + 1) := by
    intro a z ha hwa
    obtain ⟨⟨v1, s1⟩, e, r1, r2, j, _, r4⟩ :=
      (EmplaceReallocate_full E hE hC h hk hsz ha hwa).thrown_of (fun _ vs hst => by
        have := hst.le_fuse hf
        omega)
    simp only at r1 r2 r4
    subst r1
    have hj : j = i + 2 := by
      have := r4.1
      rw [hf] at this
      exact (Option.some.inj this).symm
    subst hj
    exact ⟨s1, e, h.frame (r2 _ hwa), r2, r4.2.2.1, r4.2.2.2⟩
  rw [h.begin_add k]
  constructor
  · obtain ⟨s1, e, r1, r2, r3⟩ := key (.copyOf value) y (by simp [Args.value, hy])
      (fun hf' => hf')
    refine ⟨s1, ?_, r1, fun c => r2 c (fun hf' => hf'), r3⟩
    unfold Vector.Insert
    rw [if_pos (show v.size_ = v.capacity_ from hfull)]
    exact e
  · obtain ⟨s1, e, r⟩ := key args x hv hw
    refine ⟨s1, ?_, r⟩
    unfold Vector.Emplace
    rw [if_pos (show v.size_ = v.capacity_ from hfull)]
    exact e

/-- The call `Insert(begin() + 2, 99)` on the full vector `[10, 20, 30, 40]` with
the copy of element 3 (in the suffix transfer) forced to throw. -/
theorem C12_insert_strong_guarantee_witness :
    ∃ s1, fullVector.Insert copyingElem (fullVector.begin.add 2) ⟨2, 0⟩
        { fullState with fuse := some 5 } = .thrown (fullVector, s1) ∧
      fullVector.Holds s1 [10, 20, 30, 40] ∧ s1.ctors = 4 ∧ s1.dtors = 4 := by
  obtain ⟨s1, e, r1, _, r3, r4⟩ := (C12_insert_strong_guarantee copyingElem
    { fullState with fuse := some 5 } fullVector [10, 20, 30, 40] 2 3 ⟨2, 0⟩ 99 (.make 7) 7
    rfl rfl (by decide) (by decide) (by decide) (by decide) (by decide) rfl (fun hf => hf)
    (by decide) rfl).1
  exact ⟨s1, e, r1, r3, r4⟩

/-- C13: under the copy transfer policy, for a full vector with elements `xs`
and `i ≤ Size()`: when the construction of the new element throws (`i = 0`), or
the copy of element `i - 1` into the new storage throws (`i ≥ 1`; whatever comes
before succeeds), `PushBack(x)` and `EmplaceBack(args...)` leave by the
exception with the vector unchanged: `Size()`, `Capacity()` and the elements
`xs` are as before the call. -/
theorem C13_push_back_strong_guarantee (E : ElemType T) (s : State T) (v : Vector)
    (xs : List T) (i : Nat) (value : Ptr) (y : T) (args : Args T) (x : T)
    (hE : E.nothrow_move_constructible = false) (hC : E.copy_constructible = true)
    (h : v.Holds s xs) (hfull : v.Size = v.Capacity) (hsz : 2 * v.Size < SIZE_T_MOD)
    (hy : s.read value = some (.live y)) (hv : args.value s = some x)
    (hw : ¬ args.writes v.data_.buffer_.blk) (hi : i ≤ v.Size) (hf : s.fuse = some (i + 1)) :
    (∃ s1, v.PushBack E value s = .thrown (v, s1) ∧ v.Holds s1 xs) ∧
    (∃ s1, v.EmplaceBack E args s = .thrown (v, s1) ∧ v.Holds s1 xs) := by
  have hs : v.Size = xs.length := h.size_eq
  rw [hs] at hi
  have key : ∀ (a : Args T) (z : T), a.value s = some z → ¬ a.writes v.data_.buffer_.blk →
      ∃ s1, v.EmplaceBack E a s = .thrown (v, s1) ∧ v.Holds s1 xs := by
    intro a z ha hwa
    obtain ⟨⟨v1, s1⟩, e, r1, r2, _⟩ :=
      (EmplaceBack_full E hE hC h hfull hsz ha hwa).thrown_of (fun _ vs hst => by
        have := hst.le_fuse hf
        omega)
    simp only at r1 r2
    subst r1
    exact ⟨s1, e, h.frame (r2 _ hwa)⟩
  constructor
  · obtain ⟨s1, e, r1⟩ := key (.copyOf value) y (by simp [Args.value, hy]) (fun hf' => hf')
    refine ⟨s1, ?_, r1⟩
    unfold Vector.PushBack
    rw [e]
    rfl
  · exact key args x hv hw

/-- Scenario S4: the vector `[1, 2]` of capacity 2, `PushBack(99)` with the copy
of element 1 forced to throw: size 2, capacity 2, the same two elements. -/
theorem C13_push_back_strong_guarantee_witness :
    ∃ s1, pairVector.PushBack copyingElem ⟨2, 0⟩ { pairState with fuse := some 3 } =
        .thrown (pairVector, s1) ∧
      pairVector.Holds s1 [1, 2] ∧ pairVector.Size = 2 ∧ pairVector.Capacity = 2 := by
  obtain ⟨s1, e, r1⟩ := (C13_push_back_strong_guarantee copyingElem
    { pairState with fuse := some 3 } pairVector [1, 2] 2 ⟨2, 0⟩ 99 (.make 7) 7
    rfl rfl (by decide) (by decide) (by decide) (by decide) rfl (fun hf => hf)
    (by decide) rfl).1
  exact ⟨s1, e, r1, rfl, rfl⟩

/-- C14, what the code does: `PushBack(99)` on the full vector `[1, 2]` of
capacity 2, with the copy of element 1 into the new storage forced to throw.
The exception propagates and the vector is unchanged, but the new element
constructed at slot 2 of the new storage is never destroyed: two constructors
and one destructor have run during the call although no new object is live,
so constructor calls minus destructor calls exceed the live objects by one. -/
theorem C14_new_element_not_destroyed :
    pairVector.Holds pairState [1, 2] ∧ pairState.ctors - pairState.dtors = pairState.liveCount ∧
    ∃ s1, pairVector.PushBack copyingElem ⟨2, 0⟩ { pairState with fuse := some 3 } =
        .thrown (pairVector, s1) ∧
      pairVector.Holds s1 [1, 2] ∧ s1.ctors = pairState.ctors + 2 ∧
      s1.dtors = pairState.dtors + 1 ∧ s1.liveCount = pairState.liveCount ∧
      s1.ctors - s1.dtors = s1.liveCount + 1 :=
  ⟨by decide, by decide, _, rfl, by decide, by decide, by decide, by decide, by decide⟩

/-- C15, the claim as stated fails on the in-place path: `a = b` with
`a = [1, 2, 3]` of capacity 3 and `b = [7, 8]`, the second element
copy-assignment forced to throw.  The exception leaves `a` with the elements
`[7, 2, 3]`, not `[1, 2, 3]`. -/
theorem C15_in_place_assignment_mutates :
    assignTarget.Holds assignState [1, 2, 3] ∧ assignSource.Holds assignState [7, 8] ∧
    ∃ s1, assignTarget.copy_assign assignSource assignState = .thrown (assignTarget, s1) ∧
      assignTarget.Holds s1 [7, 2, 3] ∧ ¬ assignTarget.Holds s1 [1, 2, 3] :=
  ⟨by decide, by decide, _, rfl, by decide, by decide⟩

/-- C15 as amended: for two well-formed vectors `a` (elements `xs`) and `b`
(elements `ys`) of one heap, the copy assignment `a = b` is never undefined,
and when an element copy-assignment, an element copy-construction or the
allocation throws, `a.Size()` and `a.Capacity()` are as before the call and:
on the copy-and-swap path (`b.Size() > a.Capacity()`) the elements of `a` are
`xs` as before; on the in-place path (`b.Size() ≤ a.Capacity()`) `a` is a
well-formed vector whose elements are the first `j` elements of `b` followed
by the elements of `a` from index `j` on, for some `j ≤ min(a.Size(), b.Size())`
(the number of element copy-assignments that completed). -/
theorem C15_copy_assign_failure (s : State T) (a b : Vector) (xs ys : List T)
    (ha : a.Holds s xs) (hb : b.Holds s ys) :
    a.copy_assign b s ≠ .ub ∧
    ∀ a1 s1, a.copy_assign b s = .thrown (a1, s1) →
      a1.Size = a.Size ∧ a1.Capacity = a.Capacity ∧
      (a.Capacity < b.Size → a1.Holds s1 xs) ∧
      (b.Size ≤ a.Capacity → ∃ j, j ≤ a.Size ∧ j ≤ b.Size ∧
        a1.Holds s1 (ys.take j ++ xs.drop j)) := by
  have hF := copy_assign_any_full ha hb
  have h1 : a.Size = xs.length := ha.size_eq
  have h2 : b.Size = ys.length := hb.size_eq
  constructor
  · intro e
    rw [e] at hF
    exact hF
  · intro a1 s1 e
    rw [e] at hF
    obtain ⟨r1, r2, r3⟩ := hF
    simp only at r1 r2 r3
    subst r1
    rw [h1, h2]
    exact ⟨rfl, rfl, r2, r3⟩

/-- The assignment of `[10, 20, 30, 40]` to the vector `[99]` of capacity 1
(copy-and-swap path) with the copy of element 2 forced to throw, and the
in-place assignment of `[7, 8]` to `[1, 2, 3]` that fails at the second element. -/
theorem C15_copy_assign_failure_witness :
    (∃ s1, singleVector.copy_assign fullVector { fullState with fuse := some 3 } =
        .thrown (singleVector, s1) ∧ singleVector.Holds s1 [99]) ∧
    (∃ s1 j, assignTarget.copy_assign assignSource assignState = .thrown (assignTarget, s1) ∧
      assignTarget.Holds s1 ([7, 8].take j ++ [1, 2, 3].drop j)) := by
  have h1 := (C15_copy_assign_failure { fullState with fuse := some 3 } singleVector fullVector
    [99] [10, 20, 30, 40] (by decide) (by decide)).2
  have h2 := (C15_copy_assign_failure assignState assignTarget assignSource
    [1, 2, 3] [7, 8] (by decide) (by decide)).2
  refine ⟨⟨_, rfl, (h1 _ _ rfl).2.2.1 (by decide)⟩, ?_⟩
  obtain ⟨j, _, _, hj⟩ := (h2 _ _ rfl).2.2.2 (by decide)
  exact ⟨_, j, rfl, hj⟩

/-- C16: for a vector with element sequence `xs`, an index `k ≤ Size()` and a
source index `i < Size()`, every normal return of `Insert(begin() + k, v[i])`
leaves the element sequence `take k xs ++ [xs[i]] ++ drop k xs`: the inserted
value is the one `v[i]` held before the call, when `Size() < Capacity()` and
when `Size() == Capacity()`.  The call returns normally when no failure is
pending and the doubled size fits `size_t`. -/
theorem C16_insert_self_alias (E : ElemType T) (s : State T) (v : Vector) (xs : List T)
    (k i : Nat) (h : v.Holds s xs) (hk : k ≤ xs.length) (hi : i < xs.length) :
    (∀ ret v1 s1, v.Insert E (v.begin.add k) (v.index i) s = .ok ret (v1, s1) →
      v1.Holds s1 (xs.take k ++ [xs.get ⟨i, hi⟩] ++ xs.drop k)) ∧
    (s.fuse = none ∧ (v.Size = v.Capacity → 2 * v.Size < SIZE_T_MOD) →
      ∃ ret v1 s1, v.Insert E (v.begin.add k) (v.index i) s = .ok ret (v1, s1)) := by
  have hx : s.read (v.index i) = some (.live (xs.get ⟨i, hi⟩)) := by
    show s.read (v.begin.add i) = _
    rw [h.begin_add i, read_of_block (p := ⟨v.data_.buffer_.blk, i⟩) h.2.2.2.2.2.2]
    exact getElem?_slotsOf_live (List.getElem?_eq_getElem hi)
  have hI := Insert_sat E (k := k) h hk hx
  rw [h.begin_add k]
  refine ⟨fun ret v1 s1 e => (hI.1 ret (v1, s1) e).1, fun hq => ?_⟩
  obtain ⟨ret, ⟨v1, s1⟩, e⟩ := hI.2 hq
  exact ⟨ret, v1, s1, e⟩

/-- The call `Insert(begin() + 1, v[3])` on `[1, 2, 3, 4, 5]` with capacity 8. -/
theorem C16_insert_self_alias_witness :
    ∃ ret v1 s1, roomyVector.Insert intElem (roomyVector.begin.add 1) (roomyVector.index 3)
        roomyState = .ok ret (v1, s1) ∧ v1.Holds s1 [1, 4, 2, 3, 4, 5] := by
  have h := C16_insert_self_alias intElem roomyState roomyVector [1, 2, 3, 4, 5] 1 3
    (by decide) (by decide) (by decide)
  obtain ⟨ret, v1, s1, e⟩ := h.2 ⟨rfl, fun hf => absurd hf (by decide)⟩
  exact ⟨ret, v1, s1, e, h.1 ret v1 s1 e⟩

/-- C17, what the code does: `Emplace(begin() + 1, v[3])` on `[1, 2, 3, 4, 5]`
with capacity 8 returns normally with the element sequence `[1, 3, 2, 3, 4, 5]`:
the inserted value is the `3` that the right shift has put into `v[3]`, not the
`4` that `v[3]` held before the call, whereas `take 1 xs ++ [xs[3]] ++ drop 1 xs`
is `[1, 4, 2, 3, 4, 5]`. -/
theorem C17_emplace_reads_shifted_source :
    roomyVector.Holds roomyState [1, 2, 3, 4, 5] ∧
    ∃ v1 s1, roomyVector.Emplace intElem (roomyVector.begin.add 1)
        (.copyOf (roomyVector.index 3)) roomyState = .ok ⟨1, 1⟩ (v1, s1) ∧
      v1.Holds s1 [1, 3, 2, 3, 4, 5] ∧ ¬ v1.Holds s1 [1, 4, 2, 3, 4, 5] :=
  ⟨by decide, _, _, rfl, by decide, by decide⟩

/-- C18, what the code does: `Insert(begin() + 1, x)` on `[1, 2, 3, 4, 5]` with
capacity 8, for an element type whose move assignment throws at the first
assignment of the right shift: the exception leaves the call with `Size() == 5`
while the slot at index 5 holds a live object, so six objects are live in the
storage and the vector is not well formed for any element sequence. -/
theorem C18_failed_shift_leaves_live_slot :
    roomyVector.Holds roomyState [1, 2, 3, 4, 5] ∧
    ∃ v1 s1, roomyVector.Insert copyingElem (roomyVector.begin.add 1) ⟨2, 0⟩
        { roomyState with fuse := some 2 } = .thrown (v1, s1) ∧
      v1.Size = 5 ∧ s1.read (v1.begin.add 5) = some (.live 5) ∧
      s1.block v1.data_.buffer_.blk =
        some [.live 1, .live 2, .live 3, .live 4, .live 0, .live 5, .raw, .raw] :=
  ⟨by decide, _, _, rfl, by decide, by decide, by decide⟩

/-- C19: for a non-empty sequence `xs` of values stored in an array (block
`B`), the calls `PushBack(xs[0]); ...; PushBack(xs[n - 1])` on a
default-constructed vector return normally (no failure pending, `2 * n` within
`size_t`) with `Size() == n`, the element sequence `xs` in push order, and a
capacity that is the smallest power of two that is at least `n`. -/
theorem C19_push_back_sequence (E : ElemType T) (s : State T) (B : Nat) (xs : List T)
    (hne : xs ≠ []) (hB : s.block B = some (xs.map Slot.live)) (hq : s.fuse = none)
    (hn : 2 * xs.length ≤ SIZE_T_MOD) :
    ∃ v1 s1, PushBack_range E xs.length ⟨B, 0⟩ Vector.ctor_default s = .ok () (v1, s1) ∧
      v1.Holds s1 xs ∧ v1.Size = xs.length ∧
      ∃ e, v1.Capacity = 2 ^ e ∧ xs.length ≤ 2 ^ e ∧ ∀ m, xs.length ≤ 2 ^ m → 2 ^ e ≤ 2 ^ m := by
  have hlen : 0 < xs.length := List.length_pos.2 hne
  obtain ⟨v1, s1, e1, r1, r2⟩ := PushBack_range_sat E B xs hn xs.length 0 Vector.ctor_default s
    (by omega) (by rw [List.take_zero]; exact Vector.ctor_default_holds s) hB hq
    (Or.inl ⟨rfl, rfl⟩)
  refine ⟨v1, s1, e1, r1, r1.size_eq, ?_⟩
  rcases r2 with ⟨h0, _⟩ | ⟨e, hc, hle, hlt⟩
  · omega
  · refine ⟨e, hc, hle, fun m hm => ?_⟩
    have h2 : 2 ^ e < 2 ^ (m + 1) := by
      rw [Nat.pow_succ]
      omega
    have h3 : e < m + 1 := (Nat.pow_lt_pow_iff_right (by decide)).1 h2
    exact Nat.pow_le_pow_right (by decide) (by omega)

/-- Scenario S1: `PushBack(1); PushBack(2); PushBack(3)` on an empty vector
gives size 3, elements `[1, 2, 3]` and capacity 4. -/
theorem C19_push_back_sequence_witness :
    ∃ v1 s1, PushBack_range intElem 3 ⟨1, 0⟩ Vector.ctor_default
        ⟨[some [.live 1, .live 2, .live 3]], none, 3, 0, 1, 0⟩ = .ok () (v1, s1) ∧
      v1.Holds s1 [1, 2, 3] ∧ v1.Size = 3 ∧ v1.Capacity = 4 := by
  obtain ⟨v1, s1, e1, r1, r2, e, r3, r4, r5⟩ := C19_push_back_sequence intElem
    ⟨[some [.live 1, .live 2, .live 3]], none, 3, 0, 1, 0⟩ 1 [1, 2, 3] (by decide) rfl rfl
    (by decide)
  refine ⟨v1, s1, e1, r1, r2, ?_⟩
  have h4 : 2 ^ e ≤ 2 ^ 2 := r5 2 (by decide)
  have h5 : (3 : Nat) ≤ 2 ^ e := r4
  have h6 : e ≤ 2 := (Nat.pow_le_pow_iff_right (by decide)).1 h4
  rw [r3]
  interval_cases e <;> simp_all

end AdvancedVector
